import Mathlib

/-!
# Jackbox client: message framing, JSON envelopes and session set-up

A shallow embedding of `client.go`, `messages.go` and `drawful/*.go`.

* Go strings and byte slices are lists of bytes (`Nat`s below 256).
* `encoding/json` is modelled at the level of text: `scanValue` is the JSON
  scanner (validity, the text `compact` writes, and the source span of every
  array element and object member), the `decode…` functions are
  `json.Unmarshal` for the Go types of the program and the `marshal…`
  functions are `json.Marshal`.
* The network, the file system and the UUID source are an explicit `Env`;
  every call to them is recorded in a trace of `Effect`s.
* `float64` (only reachable through the untyped `blob` of an event) and the two
  `strconv` functions on it are parameters.
-/

namespace Jackbox

/-! ## Bytes, strings and UTF-8 -/

/-- A Go `string` or `[]byte`: a sequence of bytes. -/
abbrev GoString := List Nat

/-- The bytes of an ASCII string literal. -/
def lit (s : String) : GoString := s.toList.map Char.toNat

/-- Constant `utf8.RuneError`, U+FFFD. -/
def RuneError : Nat := 0xFFFD

/-- UTF-8 continuation byte. -/
def isCont (b : Nat) : Bool := 0x80 ≤ b && b ≤ 0xBF

/-- Lower bound that `utf8.DecodeRune` accepts for the second byte, by first byte. -/
def secondLo (b0 : Nat) : Nat := if b0 = 0xE0 then 0xA0 else if b0 = 0xF0 then 0x90 else 0x80

/-- Upper bound that `utf8.DecodeRune` accepts for the second byte, by first byte. -/
def secondHi (b0 : Nat) : Nat := if b0 = 0xED then 0x9F else if b0 = 0xF4 then 0x8F else 0xBF

/-- Function `utf8.DecodeRune`: the first rune of the bytes and its width; an
invalid or short encoding gives `(RuneError, 1)`, no bytes give `(RuneError, 0)`. -/
def decodeRune : GoString → Nat × Nat
  | [] => (RuneError, 0)
  | b0 :: t =>
    if b0 < 0x80 then (b0, 1)
    else if 0xC2 ≤ b0 ∧ b0 ≤ 0xDF then
      match t with
      | b1 :: _ => if isCont b1 then (b0 % 32 * 64 + b1 % 64, 2) else (RuneError, 1)
      | [] => (RuneError, 1)
    else if 0xE0 ≤ b0 ∧ b0 ≤ 0xEF then
      match t with
      | b1 :: b2 :: _ =>
        if secondLo b0 ≤ b1 ∧ b1 ≤ secondHi b0 ∧ isCont b2 then
          (b0 % 16 * 4096 + b1 % 64 * 64 + b2 % 64, 3)
        else (RuneError, 1)
      | _ => (RuneError, 1)
    else if 0xF0 ≤ b0 ∧ b0 ≤ 0xF4 then
      match t with
      | b1 :: b2 :: b3 :: _ =>
        if secondLo b0 ≤ b1 ∧ b1 ≤ secondHi b0 ∧ isCont b2 ∧ isCont b3 then
          (b0 % 8 * 262144 + b1 % 64 * 4096 + b2 % 64 * 64 + b3 % 64, 4)
        else (RuneError, 1)
      | _ => (RuneError, 1)
    else (RuneError, 1)

/-- Function `utf8.EncodeRune`: surrogates and values above U+10FFFF are written
as U+FFFD. -/
def encodeRune (r : Nat) : GoString :=
  if r < 0x80 then [r]
  else if r < 0x800 then [0xC0 + r / 64, 0x80 + r % 64]
  else if (0xD800 ≤ r ∧ r ≤ 0xDFFF) ∨ 0x10FFFF < r then [0xEF, 0xBF, 0xBD]
  else if r < 0x10000 then [0xE0 + r / 4096, 0x80 + r / 64 % 64, 0x80 + r % 64]
  else [0xF0 + r / 262144, 0x80 + r / 4096 % 64, 0x80 + r / 64 % 64, 0x80 + r % 64]

/-- Function `utf8.Valid`: every byte belongs to a well-formed encoding. -/
def validUTF8 : GoString → Bool
  | [] => true
  | b :: t =>
    if b < 0x80 then validUTF8 t
    else
      match (decodeRune (b :: t)).2, t with
      | 2, _ :: t1 => validUTF8 t1
      | 3, _ :: _ :: t2 => validUTF8 t2
      | 4, _ :: _ :: _ :: t3 => validUTF8 t3
      | _, _ => false

/-! ## `encoding/json`: writing strings and integers -/

/-- Digit of the table `"0123456789abcdef"`. -/
def hexDigit (n : Nat) : Nat := if n < 10 then 48 + n else 87 + n

/-- Table `htmlSafeSet`: the ASCII bytes written as they are. -/
def htmlSafe (b : Nat) : Bool :=
  0x20 ≤ b && b < 0x80 && b != 34 && b != 92 && b != 60 && b != 62 && b != 38

/-- The escape written for an ASCII byte outside `htmlSafeSet`. -/
def escByte (b : Nat) : GoString :=
  if b = 92 ∨ b = 34 then [92, b]
  else if b = 8 then [92, 98]
  else if b = 12 then [92, 102]
  else if b = 10 then [92, 110]
  else if b = 13 then [92, 114]
  else if b = 9 then [92, 116]
  else [92, 117, 48, 48, hexDigit (b / 16), hexDigit (b % 16)]

/-- The body of a JSON string as `encodeState.string` writes it with HTML
escaping on: invalid UTF-8 becomes the escape of U+FFFD, U+2028 and U+2029 are escaped. -/
def escapeBody : GoString → GoString
  | [] => []
  | b :: t =>
    if b < 0x80 then (if htmlSafe b then [b] else escByte b) ++ escapeBody t
    else
      match (decodeRune (b :: t)).2, t with
      | 2, b1 :: t1 => [b, b1] ++ escapeBody t1
      | 3, b1 :: b2 :: t2 =>
        (if (decodeRune [b, b1, b2]).1 = 0x2028 ∨ (decodeRune [b, b1, b2]).1 = 0x2029 then
           [92, 117, 50, 48, 50, hexDigit ((decodeRune [b, b1, b2]).1 % 16)]
         else [b, b1, b2]) ++ escapeBody t2
      | 4, b1 :: b2 :: b3 :: t3 => [b, b1, b2, b3] ++ escapeBody t3
      | _, t0 => [92, 117, 102, 102, 102, 100] ++ escapeBody t0

/-- A Go string marshalled as a JSON string. -/
def marshalString (s : GoString) : GoString := 34 :: escapeBody s ++ [34]

/-- Decimal digits of a natural number, most significant first. -/
def natDigits : Nat → Nat → GoString
  | 0, _ => []
  | f + 1, n => if n < 10 then [48 + n] else natDigits f (n / 10) ++ [48 + n % 10]

/-- Function `strconv.FormatInt(i, 10)`. -/
def formatInt (i : Int) : GoString :=
  if i < 0 then 45 :: natDigits (i.natAbs + 1) i.natAbs else natDigits (i.natAbs + 1) i.natAbs

/-- A Go `bool` marshalled. -/
def marshalBool (b : Bool) : GoString := if b then lit "true" else lit "false"


/-! ## `encoding/json`: the scanner -/

/-- JSON white space. -/
def isSpace (c : Nat) : Bool := c = 32 || c = 9 || c = 13 || c = 10

/-- Skip leading white space. -/
def skipWs : GoString → GoString
  | [] => []
  | c :: t => if isSpace c then skipWs t else c :: t

/-- Decimal digit. -/
def isDigit (c : Nat) : Bool := 48 ≤ c && c ≤ 57

/-- Value of a hexadecimal digit, either case. -/
def hexVal (c : Nat) : Option Nat :=
  if 48 ≤ c ∧ c ≤ 57 then some (c - 48)
  else if 97 ≤ c ∧ c ≤ 102 then some (c - 87)
  else if 65 ≤ c ∧ c ≤ 70 then some (c - 55)
  else none

/-- The one-letter escapes the scanner accepts after a backslash, with the byte
they stand for. -/
def simpleEsc (e : Nat) : Option Nat :=
  if e = 34 ∨ e = 92 ∨ e = 47 then some e
  else if e = 98 then some 8
  else if e = 102 then some 12
  else if e = 110 then some 10
  else if e = 114 then some 13
  else if e = 116 then some 9
  else none

/-- What the scanner found in a string, from just after the opening quote. -/
structure StrScan where
  /-- the bytes between the quotes -/
  raw : GoString
  /-- the same bytes as `compact` writes them with HTML escaping on -/
  out : GoString
  /-- the input after the closing quote -/
  rest : GoString
deriving DecidableEq, Repr

/-- Prepend consumed bytes to a string scan. -/
def StrScan.push (r o : GoString) (s : StrScan) : StrScan :=
  { raw := r ++ s.raw, out := o ++ s.out, rest := s.rest }

/-- One step of the scanner inside a string. -/
inductive StrStep where
  /-- the input is not the rest of a string -/
  | fail
  /-- the closing quote was read -/
  | done (rest : GoString)
  /-- the bytes `raw` were read, `compact` writes them as `out` -/
  | more (raw out rest : GoString)
deriving DecidableEq, Repr

/-- Scanner states `stateInString`, `stateInStringEsc` and
`stateInStringEscU…` on the next byte or escape of a string; `out` follows
`compact`: `<`, `>`, `&` and U+2028, U+2029 are escaped. -/
def strStep : GoString → StrStep
  | [] => .fail
  | c :: t =>
    if c = 34 then .done t
    else if c = 92 then
      match t with
      | [] => .fail
      | e :: t1 =>
        if e = 117 then
          match t1 with
          | a :: b :: c2 :: d :: t5 =>
            if (hexVal a).isSome ∧ (hexVal b).isSome ∧ (hexVal c2).isSome ∧ (hexVal d).isSome then
              .more [92, 117, a, b, c2, d] [92, 117, a, b, c2, d] t5
            else .fail
          | _ => .fail
        else if (simpleEsc e).isSome then .more [92, e] [92, e] t1
        else .fail
    else if c < 32 then .fail
    else if c = 60 ∨ c = 62 ∨ c = 38 then
      .more [c] [92, 117, 48, 48, hexDigit (c / 16), hexDigit (c % 16)] t
    else if c = 0xE2 then
      match t with
      | b1 :: b2 :: t3 =>
        if b1 = 0x80 ∧ (b2 = 0xA8 ∨ b2 = 0xA9) then
          .more [c, b1, b2] [92, 117, 50, 48, 50, hexDigit (b2 % 16)] t3
        else .more [c] [c] t
      | _ => .more [c] [c] t
    else .more [c] [c] t

/-- The scanner from just after the opening quote of a string up to the
closing one, in at most the given number of steps. -/
def scanStrN : Nat → GoString → Option StrScan
  | 0, _ => none
  | n + 1, t =>
    match strStep t with
    | .fail => none
    | .done rest => some { raw := [], out := [], rest := rest }
    | .more raw out rest => (scanStrN n rest).map (StrScan.push raw out)

/-- The scanner from just after the opening quote of a string up to the
closing one; a step reads at least one byte, so that the bound on the steps is
enough (`scanStr_complete`). -/
def scanStr (t : GoString) : Option StrScan := scanStrN t.length t

/-- Function `getu4`: the code unit of a leading `\uXXXX`. -/
def getu4 : GoString → Option Nat
  | bs :: u :: a :: b :: c :: d :: _ =>
    if bs = 92 ∧ u = 117 then
      match hexVal a, hexVal b, hexVal c, hexVal d with
      | some x, some y, some z, some w => some (x * 4096 + y * 256 + z * 16 + w)
      | _, _, _, _ => none
    else none
  | _ => none

/-- One step of `unquoteBytes`: the bytes that the next byte or escape of the
input stands for, and the input after it. -/
def unquoteStep : GoString → Option (GoString × GoString)
  | [] => none
  | c :: t =>
    if c = 92 then
      match t with
      | [] => none
      | e :: t1 =>
        if e = 117 then
          match getu4 (c :: e :: t1) with
          | none => none
          | some rr =>
            if 0xD800 ≤ rr ∧ rr < 0xE000 then
              match getu4 (t1.drop 4) with
              | some rr1 =>
                if rr < 0xDC00 ∧ 0xDC00 ≤ rr1 ∧ rr1 < 0xE000 then
                  some (encodeRune ((rr - 0xD800) * 1024 + (rr1 - 0xDC00) + 0x10000), t1.drop 10)
                else some (encodeRune RuneError, t1.drop 4)
              | none => some (encodeRune RuneError, t1.drop 4)
            else some (encodeRune rr, t1.drop 4)
        else if e = 39 then some ([39], t1)
        else
          match simpleEsc e with
          | some x => some ([x], t1)
          | none => none
    else if c = 34 ∨ c < 32 then none
    else if c < 0x80 then some ([c], t)
    else
      if (decodeRune (c :: t)).2 ≤ 1 then some (encodeRune RuneError, t)
      else some (encodeRune (decodeRune (c :: t)).1, t.drop ((decodeRune (c :: t)).2 - 1))

/-- Function `unquoteBytes` on the bytes between the quotes, in at most the
given number of steps. -/
def unquoteN : Nat → GoString → Option GoString
  | _, [] => some []
  | 0, _ :: _ => none
  | n + 1, c :: t =>
    match unquoteStep (c :: t) with
    | none => none
    | some p => (unquoteN n p.2).map (p.1 ++ ·)

/-- Function `unquoteBytes` on the bytes between the quotes: escapes are
resolved, a lone surrogate and invalid UTF-8 become U+FFFD. The bound on the
steps is enough (`unquote_complete`). -/
def unquote (s : GoString) : Option GoString := unquoteN s.length s

/-- Leading decimal digits and what follows them. -/
def spanDigits : GoString → GoString × GoString
  | [] => ([], [])
  | c :: t => if isDigit c then ((spanDigits t).1.cons c, (spanDigits t).2) else ([], c :: t)

/-- Scanner states `stateE`, `stateESign`, `stateE0`: an optional exponent. -/
def scanExp : GoString → Option (GoString × GoString)
  | [] => some ([], [])
  | c :: t =>
    if c = 101 ∨ c = 69 then
      match t with
      | [] => none
      | s :: t1 =>
        if s = 43 ∨ s = 45 then
          (if (spanDigits t1).1 = [] then none
           else some (c :: s :: (spanDigits t1).1, (spanDigits t1).2))
        else
          (if (spanDigits (s :: t1)).1 = [] then none
           else some (c :: (spanDigits (s :: t1)).1, (spanDigits (s :: t1)).2))
    else some ([], c :: t)

/-- Scanner states `stateDot`, `stateDot0`: an optional fraction, then the
exponent. -/
def scanFrac : GoString → Option (GoString × GoString)
  | [] => some ([], [])
  | c :: t =>
    if c = 46 then
      (if (spanDigits t).1 = [] then none
       else (scanExp (spanDigits t).2).map fun p => (c :: (spanDigits t).1 ++ p.1, p.2))
    else scanExp (c :: t)

/-- Scanner states `state0`, `state1`: the integer part and what follows. -/
def scanInt : GoString → Option (GoString × GoString)
  | [] => none
  | c :: t =>
    if c = 48 then (scanFrac t).map fun p => (c :: p.1, p.2)
    else if 49 ≤ c ∧ c ≤ 57 then
      (scanFrac (spanDigits t).2).map fun p => (c :: (spanDigits t).1 ++ p.1, p.2)
    else none

/-- A JSON number literal at the head of the input, and the rest. -/
def scanNum : GoString → Option (GoString × GoString)
  | [] => none
  | c :: t => if c = 45 then (scanInt t).map fun p => (c :: p.1, p.2) else scanInt (c :: t)

/-- One JSON value, one level deep: literals carry their text, arrays and
objects the source text of their elements and members. -/
inductive JTok where
  | null
  | bool (b : Bool)
  | num (text : GoString)
  | str (raw : GoString)
  | arr (elems : List GoString)
  | obj (members : List (GoString × GoString))
deriving DecidableEq, Repr

/-- A scanned value. -/
structure Scan where
  /-- the value, one level deep -/
  tok : JTok
  /-- the value as `compact` writes it: no insignificant white space, HTML
  escaping on -/
  out : GoString
  /-- the input after the value -/
  rest : GoString
deriving DecidableEq, Repr

/-- The text consumed between an input and a later rest of it. -/
def spanOf (t rest : GoString) : GoString := t.take (t.length - rest.length)

mutual
/-- The scanner on one value that starts at the head of the input. The first
argument bounds the number of nested calls; the length of the input plus one is
always enough (`scan_fuel`, `scanTop_complete`). The limit `maxNestingDepth` of
the scanner is applied to the scanned value as a whole, in `validJSON`,
`compact` and `decodeStream`. -/
def scanValue : Nat → GoString → Option Scan
  | 0, _ => none
  | _ + 1, [] => none
  | n + 1, c :: t =>
    if c = 123 then
      match skipWs t with
      | [] => none
      | d :: r =>
        if d = 125 then some { tok := .obj [], out := [123, 125], rest := r }
        else (scanMembers n (d :: r)).map fun p =>
          { tok := .obj p.1, out := 123 :: p.2.1, rest := p.2.2 }
    else if c = 91 then
      match skipWs t with
      | [] => none
      | d :: r =>
        if d = 93 then some { tok := .arr [], out := [91, 93], rest := r }
        else (scanElems n (d :: r)).map fun p =>
          { tok := .arr p.1, out := 91 :: p.2.1, rest := p.2.2 }
    else if c = 34 then
      (scanStr t).map fun s => { tok := .str s.raw, out := 34 :: s.out ++ [34], rest := s.rest }
    else if c = 116 then
      match t with
      | 114 :: 117 :: 101 :: r => some { tok := .bool true, out := [116, 114, 117, 101], rest := r }
      | _ => none
    else if c = 102 then
      match t with
      | 97 :: 108 :: 115 :: 101 :: r =>
        some { tok := .bool false, out := [102, 97, 108, 115, 101], rest := r }
      | _ => none
    else if c = 110 then
      match t with
      | 117 :: 108 :: 108 :: r => some { tok := .null, out := [110, 117, 108, 108], rest := r }
      | _ => none
    else (scanNum (c :: t)).map fun p => { tok := .num p.1, out := p.1, rest := p.2 }
/-- The elements of an array from the start of an element through the closing
bracket: element spans, compact text, rest. -/
def scanElems : Nat → GoString → Option (List GoString × GoString × GoString)
  | 0, _ => none
  | n + 1, t =>
    match scanValue n t with
    | none => none
    | some v =>
      match skipWs v.rest with
      | [] => none
      | d :: r =>
        if d = 44 then
          (scanElems n (skipWs r)).map fun p =>
            (spanOf t v.rest :: p.1, v.out ++ 44 :: p.2.1, p.2.2)
        else if d = 93 then some ([spanOf t v.rest], v.out ++ [93], r)
        else none
/-- The members of an object from the opening quote of a key through the
closing brace: (raw key, value span) pairs, compact text, rest. -/
def scanMembers : Nat → GoString → Option (List (GoString × GoString) × GoString × GoString)
  | 0, _ => none
  | _ + 1, [] => none
  | n + 1, q :: t =>
    if q = 34 then
      match scanStr t with
      | none => none
      | some k =>
        match skipWs k.rest with
        | [] => none
        | col :: t2 =>
          if col = 58 then
            match scanValue n (skipWs t2) with
            | none => none
            | some v =>
              match skipWs v.rest with
              | [] => none
              | d :: r =>
                if d = 44 then
                  (scanMembers n (skipWs r)).map fun p =>
                    ((k.raw, spanOf (skipWs t2) v.rest) :: p.1,
                      34 :: k.out ++ 34 :: 58 :: v.out ++ 44 :: p.2.1, p.2.2)
                else if d = 125 then
                  some ([(k.raw, spanOf (skipWs t2) v.rest)],
                    34 :: k.out ++ 34 :: 58 :: v.out ++ [125], r)
                else none
          else none
    else none
end

/-- Function `checkValid` together with the scan of the one top-level value:
white space, a value, white space, end of input. -/
def scanTop (data : GoString) : Option Scan :=
  match scanValue (data.length + 1) (skipWs data) with
  | none => none
  | some v => if skipWs v.rest = [] then some v else none

/-- The value found in a piece of JSON text, one level deep. -/
def tokOf (span : GoString) : Option JTok := (scanTop span).map (·.tok)

/-- Constant `maxNestingDepth` of the scanner: the deepest nesting of arrays
and objects it accepts. -/
def maxNestingDepth : Nat := 10000

/-- The largest of a list of numbers, 0 for the empty list. -/
def maxNat : List Nat → Nat
  | [] => 0
  | x :: r => max x (maxNat r)

/-- How deep the arrays and objects of a JSON text are nested: 0 for a literal,
a number or a string, and one more than its deepest element or member value
for an array or an object (1 for an empty one). The first argument bounds the
recursion; the length of the text plus one is enough (`depthOf_fuel`). -/
def depthOf : Nat → GoString → Nat
  | 0, _ => 0
  | n + 1, span =>
    match tokOf span with
    | some (.arr es) => 1 + maxNat (es.map (depthOf n))
    | some (.obj ms) => 1 + maxNat (ms.map fun kv => depthOf n kv.2)
    | _ => 0

/-- The nesting depth of a piece of JSON text. -/
def nesting (v : GoString) : Nat := depthOf (v.length + 1) v

/-- The greatest length that the stack `parseState` of the scanner reaches on a
scanned value: its nesting depth, measured on the compact text, which has the
brackets and braces of the source. -/
def Scan.nesting (v : Scan) : Nat := Jackbox.nesting v.out

/-- Function `checkValid`: the text is one JSON value and the scanner does not
push more than `maxNestingDepth` states (past that it fails with "exceeded max
depth"). -/
def validJSON (data : GoString) : Bool :=
  match scanTop data with
  | some v => decide (v.nesting ≤ maxNestingDepth)
  | none => false

/-- Function `compact` with HTML escaping on, as `json.Marshal` applies it to
the output of a `Marshaler`: `none` for text that its scanner rejects, as
invalid JSON or as nested deeper than `maxNestingDepth`. -/
def compact (data : GoString) : Option GoString :=
  match scanTop data with
  | some v => if v.nesting ≤ maxNestingDepth then some v.out else none
  | none => none


/-! ## `encoding/json`: Go values -/

/-- A Go `error`, by its message. -/
abbrev GoError := String

deriving instance DecidableEq for Except

/-- Type `json.RawMessage`, a byte slice: `none` is the nil slice. -/
abbrev RawMessage := Option GoString

/-- A value held in an `interface{}` that `json.Unmarshal` filled: `nil`, `bool`,
`float64`, `string`, `[]interface{}` or `map[string]interface{}`. A map is
given by its entries in increasing key order, the order in which `json.Marshal`
writes them. -/
inductive GoAny (F : Type) where
  | nil
  | bool (b : Bool)
  | float64 (x : F)
  | string (s : GoString)
  | slice (xs : List (GoAny F))
  | map (m : List (GoString × GoAny F))

/-- RoomInfo represents the data returned about a given room code. -/
structure RoomInfo where
  RoomID : GoString
  Server : GoString
  AppTag : GoString
  AppID : GoString
  NumAudience : Int
  AudienceEnabled : Bool
  JoinAs : GoString
  RequiresPassword : Bool
deriving DecidableEq, Repr

/-- Top-level struct for the `5:::` message type. -/
structure jbMsg where
  Name : GoString
  Args : Option (List RawMessage)
deriving DecidableEq, Repr

/-- The type field within an arg item of `jbMsg` (field `Type` in the source). -/
structure jbMsgType where
  Typ : GoString
deriving DecidableEq, Repr

/-- For the type `"Result"`. -/
structure jbMsgResult extends jbMsgType where
  Action : GoString
  Success : Bool
  Initial : Bool
  RoomID : GoString
  JoinType : GoString
  UserID : GoString
deriving DecidableEq, Repr

/-- For the type `"Event"`; `Blob` is a `map[string]interface{}`, `none` the nil
map. -/
structure jbMsgEvent (F : Type) extends jbMsgType where
  Event : GoString
  RoomID : GoString
  Blob : Option (List (GoString × GoAny F))

/-- For the type `"Action"`. -/
structure jbMsgAction extends jbMsgType where
  Action : GoString
  AppID : GoString
  RoomID : GoString
  UserID : GoString
deriving DecidableEq, Repr

/-- Options of a join. -/
structure jbMsgActionJoinRoomOptions where
  RoomCode : GoString
  Name : GoString
deriving DecidableEq, Repr

/-- The json message to join a room. -/
structure jbMsgActionJoinRoom extends jbMsgAction where
  JoinType : GoString
  Name : GoString
  Options : jbMsgActionJoinRoomOptions
deriving DecidableEq, Repr

/-- A message to the room owner. -/
structure jbMsgActionSendMsgToRoomOwner extends jbMsgAction where
  Message : RawMessage
deriving DecidableEq, Repr

/-- A point in the Drawful canvas. -/
structure Point where
  X : Int
  Y : Int
deriving DecidableEq, Repr

/-- A Drawful picture line entry. -/
structure PictureLine where
  Thickness : Int
  Color : GoString
  Points : Option (List Point)
deriving DecidableEq, Repr

/-- The message subfield within a `jbMsgActionSendMsgToRoomOwner`. -/
structure jbOwnerMsgSetPlayerPicture where
  SetPlayerPicture : Bool
  PictureLines : Option (List PictureLine)
deriving DecidableEq, Repr

/-! ### Zero values -/

/-- Zero value of `jbMsgType`. -/
def jbMsgType.zero : jbMsgType := { Typ := [] }

/-- Zero value of `jbMsgAction`. -/
def jbMsgAction.zero : jbMsgAction :=
  { Typ := [], Action := [], AppID := [], RoomID := [], UserID := [] }

/-- Zero value of `jbMsgResult`. -/
def jbMsgResult.zero : jbMsgResult :=
  { Typ := [], Action := [], Success := false, Initial := false, RoomID := [], JoinType := [],
    UserID := [] }

/-- Zero value of `jbMsgEvent`. -/
def jbMsgEvent.zero {F : Type} : jbMsgEvent F :=
  { Typ := [], Event := [], RoomID := [], Blob := none }

/-- Zero value of `jbMsg`. -/
def jbMsg.zero : jbMsg := { Name := [], Args := none }

/-- Zero value of `jbMsgActionJoinRoomOptions`. -/
def jbMsgActionJoinRoomOptions.zero : jbMsgActionJoinRoomOptions := { RoomCode := [], Name := [] }

/-- Zero value of `jbMsgActionJoinRoom`. -/
def jbMsgActionJoinRoom.zero : jbMsgActionJoinRoom :=
  { jbMsgAction.zero with JoinType := [], Name := [], Options := jbMsgActionJoinRoomOptions.zero }

/-- Zero value of `jbMsgActionSendMsgToRoomOwner`. -/
def jbMsgActionSendMsgToRoomOwner.zero : jbMsgActionSendMsgToRoomOwner :=
  { jbMsgAction.zero with Message := none }

/-- Zero value of `Point`. -/
def Point.zero : Point := { X := 0, Y := 0 }

/-- Zero value of `PictureLine`. -/
def PictureLine.zero : PictureLine := { Thickness := 0, Color := [], Points := none }

/-- Zero value of `jbOwnerMsgSetPlayerPicture`. -/
def jbOwnerMsgSetPlayerPicture.zero : jbOwnerMsgSetPlayerPicture :=
  { SetPlayerPicture := false, PictureLines := none }

/-- Zero value of `RoomInfo`. -/
def RoomInfo.zero : RoomInfo :=
  { RoomID := [], Server := [], AppTag := [], AppID := [], NumAudience := 0,
    AudienceEnabled := false, JoinAs := [], RequiresPassword := false }

/-! ## `json.Marshal` -/

/-- Texts joined by a separator byte. -/
def joinWith (sep : Nat) : List GoString → GoString
  | [] => []
  | [x] => x
  | x :: y :: r => x ++ sep :: joinWith sep (y :: r)

/-- One member of an object: the quoted name, a colon, the value. -/
def marshalMember (kv : GoString × GoString) : GoString := marshalString kv.1 ++ 58 :: kv.2

/-- An object with the given members, in order. -/
def marshalObject (fs : List (GoString × GoString)) : GoString :=
  123 :: joinWith 44 (fs.map marshalMember) ++ [125]

/-- An array with the given elements. -/
def marshalArray (xs : List GoString) : GoString := 91 :: joinWith 44 xs ++ [93]

/-- All results, or `none` if one is missing. -/
def allSome {α : Type} : List (Option α) → Option (List α)
  | [] => some []
  | none :: _ => none
  | some x :: r => (allSome r).map (x :: ·)

/-- A `json.RawMessage` marshalled: `null` for the nil slice, else the compacted
bytes; `none` (a `MarshalerError`) when the bytes are not valid JSON. -/
def marshalRaw (m : RawMessage) : Option GoString :=
  match m with
  | none => some (lit "null")
  | some b => compact b

/-- Marshal of a `jbMsg`. -/
def marshalMsg (msg : jbMsg) : Option GoString :=
  match msg.Args with
  | none =>
    some (marshalObject [(lit "name", marshalString msg.Name), (lit "args", lit "null")])
  | some args =>
    (allSome (args.map marshalRaw)).map fun xs =>
      marshalObject [(lit "name", marshalString msg.Name), (lit "args", marshalArray xs)]

/-- Members of a marshalled `jbMsgAction`. -/
def jbMsgAction.members (a : jbMsgAction) : List (GoString × GoString) :=
  [(lit "type", marshalString a.Typ), (lit "action", marshalString a.Action),
   (lit "appId", marshalString a.AppID), (lit "roomId", marshalString a.RoomID),
   (lit "userId", marshalString a.UserID)]

/-- Marshal of a `jbMsgAction`. -/
def marshalAction (a : jbMsgAction) : GoString := marshalObject a.members

/-- Marshal of a `jbMsgResult`. -/
def marshalResult (r : jbMsgResult) : GoString :=
  marshalObject
    [(lit "type", marshalString r.Typ), (lit "action", marshalString r.Action),
     (lit "success", marshalBool r.Success), (lit "initial", marshalBool r.Initial),
     (lit "roomId", marshalString r.RoomID), (lit "joinType", marshalString r.JoinType),
     (lit "userId", marshalString r.UserID)]

/-- Marshal of the options of a join. -/
def marshalJoinRoomOptions (o : jbMsgActionJoinRoomOptions) : GoString :=
  marshalObject [(lit "roomcode", marshalString o.RoomCode), (lit "name", marshalString o.Name)]

/-- Marshal of a `jbMsgActionJoinRoom`: the promoted fields of the embedded
structs come first. -/
def marshalJoinRoom (a : jbMsgActionJoinRoom) : GoString :=
  marshalObject (a.tojbMsgAction.members ++
    [(lit "joinType", marshalString a.JoinType), (lit "name", marshalString a.Name),
     (lit "options", marshalJoinRoomOptions a.Options)])

/-- Marshal of a `jbMsgActionSendMsgToRoomOwner`. -/
def marshalSendMsgToRoomOwner (a : jbMsgActionSendMsgToRoomOwner) : Option GoString :=
  (marshalRaw a.Message).map fun m => marshalObject (a.tojbMsgAction.members ++ [(lit "message", m)])

/-- Marshal of a `Point`. -/
def marshalPoint (p : Point) : GoString :=
  marshalObject [(lit "x", formatInt p.X), (lit "y", formatInt p.Y)]

/-- Marshal of a slice: `null` for the nil slice. -/
def marshalSlice {α : Type} (f : α → GoString) (xs : Option (List α)) : GoString :=
  match xs with
  | none => lit "null"
  | some l => marshalArray (l.map f)

/-- Marshal of a `PictureLine`. -/
def marshalPictureLine (l : PictureLine) : GoString :=
  marshalObject
    [(lit "thickness", formatInt l.Thickness), (lit "color", marshalString l.Color),
     (lit "points", marshalSlice marshalPoint l.Points)]

/-- Marshal of a `jbOwnerMsgSetPlayerPicture`. -/
def marshalSetPlayerPicture (p : jbOwnerMsgSetPlayerPicture) : GoString :=
  marshalObject
    [(lit "setPlayerPicture", marshalBool p.SetPlayerPicture),
     (lit "pictureLines", marshalSlice marshalPictureLine p.PictureLines)]

section Blob
variable {F : Type}

mutual
/-- Marshal of the value of an `interface{}`; `formatFloat` is the float encoder,
`none` for NaN and the infinities (an `UnsupportedValueError`). -/
def marshalAny (formatFloat : F → Option GoString) : GoAny F → Option GoString
  | .nil => some (lit "null")
  | .bool b => some (marshalBool b)
  | .float64 x => formatFloat x
  | .string s => some (marshalString s)
  | .slice xs => (marshalAnys formatFloat xs).map marshalArray
  | .map m => (marshalEntries formatFloat m).map marshalObject
/-- The elements of a `[]interface{}`, marshalled. -/
def marshalAnys (formatFloat : F → Option GoString) : List (GoAny F) → Option (List GoString)
  | [] => some []
  | x :: r =>
    match marshalAny formatFloat x, marshalAnys formatFloat r with
    | some a, some b => some (a :: b)
    | _, _ => none
/-- The entries of a `map[string]interface{}`, marshalled. -/
def marshalEntries (formatFloat : F → Option GoString) :
    List (GoString × GoAny F) → Option (List (GoString × GoString))
  | [] => some []
  | (k, v) :: r =>
    match marshalAny formatFloat v, marshalEntries formatFloat r with
    | some a, some b => some ((k, a) :: b)
    | _, _ => none
end

end Blob


/-! ## `json.Unmarshal`

A decoder takes the source text of a value (already known to be valid JSON) and
the current Go value, and gives the new Go value together with a flag that is
`false` when an `UnmarshalTypeError` was recorded. As in Go such an error does
not stop the decoding of the remaining members and elements. -/

/-- Decode into a Go `string`. -/
def decodeString (span : GoString) (cur : GoString) : GoString × Bool :=
  match tokOf span with
  | some .null => (cur, true)
  | some (.str raw) =>
    match unquote raw with
    | some s => (s, true)
    | none => (cur, false)
  | _ => (cur, false)

/-- Decode into a Go `bool`. -/
def decodeBool (span : GoString) (cur : Bool) : Bool × Bool :=
  match tokOf span with
  | some .null => (cur, true)
  | some (.bool b) => (b, true)
  | _ => (cur, false)

/-- Value of a non-empty run of decimal digits. -/
def parseDigits : GoString → Option Nat → Option Nat
  | [], acc => acc
  | c :: t, acc => if isDigit c then parseDigits t (some (acc.getD 0 * 10 + (c - 48))) else none

/-- Function `strconv.ParseInt(s, 10, 64)` on a JSON number literal: `none` when
the literal is not an integer or is out of range. -/
def parseInt (s : GoString) : Option Int :=
  match s with
  | [] => none
  | c :: t =>
    if c = 45 then
      match parseDigits t none with
      | some n => if n ≤ 2 ^ 63 then some (-(n : Int)) else none
      | none => none
    else
      match parseDigits (c :: t) none with
      | some n => if n < 2 ^ 63 then some (n : Int) else none
      | none => none

/-- Decode into a Go `int` (64 bits). -/
def decodeInt (span : GoString) (cur : Int) : Int × Bool :=
  match tokOf span with
  | some .null => (cur, true)
  | some (.num text) =>
    match parseInt text with
    | some i => (i, true)
    | none => (cur, false)
  | _ => (cur, false)

/-- Decode into a `json.RawMessage`: the source text of the value, whatever it
is (also for `null`). -/
def decodeRaw (span : GoString) (_cur : RawMessage) : RawMessage × Bool :=
  match scanTop span with
  | some v => (some (spanOf (skipWs span) v.rest), true)
  | none => (_cur, false)

/-- Fold of `strings.EqualFold` for a struct field name in ASCII letters against
a key: letters match in either case, and `k` and `s` also match the Kelvin sign
U+212A and the long s U+017F. -/
def equalFold : GoString → GoString → Bool
  | [], [] => true
  | [], _ :: _ => false
  | _ :: _, [] => false
  | a :: s, b :: k =>
    let la := if 65 ≤ a ∧ a ≤ 90 then a + 32 else a
    if b < 0x80 then
      (la == (if 65 ≤ b ∧ b ≤ 90 then b + 32 else b)) && equalFold s k
    else
      match k with
      | b1 :: k1 =>
        if b = 0xC5 ∧ b1 = 0xBF then la == 115 && equalFold s k1
        else
          match k1 with
          | b2 :: k2 => if b = 0xE2 ∧ b1 = 0x84 ∧ b2 = 0xAA then la == 107 && equalFold s k2 else false
          | [] => false
      | [] => false

/-- Position of the first element satisfying a test. -/
def findIdx {α : Type} (p : α → Bool) : List α → Option Nat
  | [] => none
  | x :: r => if p x then some 0 else (findIdx p r).map (· + 1)

/-- The struct field a key selects: the field of that exact name, else the first
one that matches under case folding. -/
def findField (names : List GoString) (key : GoString) : Option Nat :=
  match findIdx (fun n => decide (n = key)) names with
  | some i => some i
  | none => findIdx (fun n => equalFold n key) names

/-- Decode the members of an object into the fields of a struct; a key that
selects no field is skipped. -/
def decodeMembers {σ : Type} (names : List GoString) (assign : Nat → GoString → σ → σ × Bool) :
    List (GoString × GoString) → σ × Bool → σ × Bool
  | [], acc => acc
  | m :: ms, acc =>
    match unquote m.1 with
    | none => decodeMembers names assign ms (acc.1, false)
    | some key =>
      match findField names key with
      | none => decodeMembers names assign ms acc
      | some i =>
        decodeMembers names assign ms ((assign i m.2 acc.1).1, acc.2 && (assign i m.2 acc.1).2)

/-- Decode into a struct: an object fills the fields its keys select, `null`
changes nothing, anything else is a type error. -/
def decodeStruct {σ : Type} (names : List GoString) (assign : Nat → GoString → σ → σ × Bool)
    (span : GoString) (cur : σ) : σ × Bool :=
  match tokOf span with
  | some .null => (cur, true)
  | some (.obj ms) => decodeMembers names assign ms (cur, true)
  | _ => (cur, false)

/-- Decode the elements of an array: element `i` is decoded into the element `i`
the slice already has, or into a zero value. (Go decodes an element past the
length into what the backing array holds there. That is the zero value, unless
the same slice was decoded into, shortened and decoded into again within one
call, which takes an object that names the field of the slice three times; this
case is not modelled. For a `json.RawMessage` element it makes no difference,
`UnmarshalJSON` replaces the bytes.) -/
def decodeElems {α : Type} (elem : GoString → α → α × Bool) (zero : α) :
    List GoString → List α → List (α × Bool)
  | [], _ => []
  | e :: es, [] => elem e zero :: decodeElems elem zero es []
  | e :: es, x :: xs => elem e x :: decodeElems elem zero es xs

/-- Decode into a slice: `null` gives the nil slice, an array a slice of its
elements. -/
def decodeSlice {α : Type} (elem : GoString → α → α × Bool) (zero : α) (span : GoString)
    (cur : Option (List α)) : Option (List α) × Bool :=
  match tokOf span with
  | some .null => (none, true)
  | some (.arr es) =>
    (some ((decodeElems elem zero es (cur.getD [])).map (·.1)),
      (decodeElems elem zero es (cur.getD [])).all (·.2))
  | _ => (cur, false)

/-- Field names of `jbMsgType`. -/
def jbMsgType.fields : List GoString := [lit "type"]

/-- Field store of `jbMsgType`. -/
def jbMsgType.assign (i : Nat) (span : GoString) (v : jbMsgType) : jbMsgType × Bool :=
  match i with
  | 0 => ({ v with Typ := (decodeString span v.Typ).1 }, (decodeString span v.Typ).2)
  | _ => (v, true)

/-- Unmarshal into a `jbMsgType`. -/
def decodeMsgType : GoString → jbMsgType → jbMsgType × Bool :=
  decodeStruct jbMsgType.fields jbMsgType.assign

/-- Field names of `jbMsgAction`, promoted fields first. -/
def jbMsgAction.fields : List GoString :=
  [lit "type", lit "action", lit "appId", lit "roomId", lit "userId"]

/-- Field store of `jbMsgAction`. -/
def jbMsgAction.assign (i : Nat) (span : GoString) (v : jbMsgAction) : jbMsgAction × Bool :=
  match i with
  | 0 => ({ v with Typ := (decodeString span v.Typ).1 }, (decodeString span v.Typ).2)
  | 1 => ({ v with Action := (decodeString span v.Action).1 }, (decodeString span v.Action).2)
  | 2 => ({ v with AppID := (decodeString span v.AppID).1 }, (decodeString span v.AppID).2)
  | 3 => ({ v with RoomID := (decodeString span v.RoomID).1 }, (decodeString span v.RoomID).2)
  | 4 => ({ v with UserID := (decodeString span v.UserID).1 }, (decodeString span v.UserID).2)
  | _ => (v, true)

/-- Unmarshal into a `jbMsgAction`. -/
def decodeAction : GoString → jbMsgAction → jbMsgAction × Bool :=
  decodeStruct jbMsgAction.fields jbMsgAction.assign

/-- Field names of `jbMsgResult`. -/
def jbMsgResult.fields : List GoString :=
  [lit "type", lit "action", lit "success", lit "initial", lit "roomId", lit "joinType",
   lit "userId"]

/-- Field store of `jbMsgResult`. -/
def jbMsgResult.assign (i : Nat) (span : GoString) (v : jbMsgResult) : jbMsgResult × Bool :=
  match i with
  | 0 => ({ v with Typ := (decodeString span v.Typ).1 }, (decodeString span v.Typ).2)
  | 1 => ({ v with Action := (decodeString span v.Action).1 }, (decodeString span v.Action).2)
  | 2 => ({ v with Success := (decodeBool span v.Success).1 }, (decodeBool span v.Success).2)
  | 3 => ({ v with Initial := (decodeBool span v.Initial).1 }, (decodeBool span v.Initial).2)
  | 4 => ({ v with RoomID := (decodeString span v.RoomID).1 }, (decodeString span v.RoomID).2)
  | 5 => ({ v with JoinType := (decodeString span v.JoinType).1 }, (decodeString span v.JoinType).2)
  | 6 => ({ v with UserID := (decodeString span v.UserID).1 }, (decodeString span v.UserID).2)
  | _ => (v, true)

/-- Unmarshal into a `jbMsgResult`. -/
def decodeResult : GoString → jbMsgResult → jbMsgResult × Bool :=
  decodeStruct jbMsgResult.fields jbMsgResult.assign

/-- Field names of `jbMsgActionJoinRoomOptions`. -/
def jbMsgActionJoinRoomOptions.fields : List GoString := [lit "roomcode", lit "name"]

/-- Field store of `jbMsgActionJoinRoomOptions`. -/
def jbMsgActionJoinRoomOptions.assign (i : Nat) (span : GoString)
    (v : jbMsgActionJoinRoomOptions) : jbMsgActionJoinRoomOptions × Bool :=
  match i with
  | 0 => ({ v with RoomCode := (decodeString span v.RoomCode).1 }, (decodeString span v.RoomCode).2)
  | 1 => ({ v with Name := (decodeString span v.Name).1 }, (decodeString span v.Name).2)
  | _ => (v, true)

/-- Unmarshal into a `jbMsgActionJoinRoomOptions`. -/
def decodeJoinRoomOptions :
    GoString → jbMsgActionJoinRoomOptions → jbMsgActionJoinRoomOptions × Bool :=
  decodeStruct jbMsgActionJoinRoomOptions.fields jbMsgActionJoinRoomOptions.assign

/-- Field names of `jbMsgActionJoinRoom`, promoted fields first. -/
def jbMsgActionJoinRoom.fields : List GoString :=
  [lit "type", lit "action", lit "appId", lit "roomId", lit "userId", lit "joinType",
   lit "name", lit "options"]

/-- Field store of `jbMsgActionJoinRoom`. -/
def jbMsgActionJoinRoom.assign (i : Nat) (span : GoString) (v : jbMsgActionJoinRoom) :
    jbMsgActionJoinRoom × Bool :=
  match i with
  | 0 => ({ v with Typ := (decodeString span v.Typ).1 }, (decodeString span v.Typ).2)
  | 1 => ({ v with Action := (decodeString span v.Action).1 }, (decodeString span v.Action).2)
  | 2 => ({ v with AppID := (decodeString span v.AppID).1 }, (decodeString span v.AppID).2)
  | 3 => ({ v with RoomID := (decodeString span v.RoomID).1 }, (decodeString span v.RoomID).2)
  | 4 => ({ v with UserID := (decodeString span v.UserID).1 }, (decodeString span v.UserID).2)
  | 5 => ({ v with JoinType := (decodeString span v.JoinType).1 }, (decodeString span v.JoinType).2)
  | 6 => ({ v with Name := (decodeString span v.Name).1 }, (decodeString span v.Name).2)
  | 7 =>
    ({ v with Options := (decodeJoinRoomOptions span v.Options).1 },
      (decodeJoinRoomOptions span v.Options).2)
  | _ => (v, true)

/-- Unmarshal into a `jbMsgActionJoinRoom`. -/
def decodeJoinRoom : GoString → jbMsgActionJoinRoom → jbMsgActionJoinRoom × Bool :=
  decodeStruct jbMsgActionJoinRoom.fields jbMsgActionJoinRoom.assign

/-- Field names of `jbMsgActionSendMsgToRoomOwner`, promoted fields first. -/
def jbMsgActionSendMsgToRoomOwner.fields : List GoString :=
  [lit "type", lit "action", lit "appId", lit "roomId", lit "userId", lit "message"]

/-- Field store of `jbMsgActionSendMsgToRoomOwner`. -/
def jbMsgActionSendMsgToRoomOwner.assign (i : Nat) (span : GoString)
    (v : jbMsgActionSendMsgToRoomOwner) : jbMsgActionSendMsgToRoomOwner × Bool :=
  match i with
  | 0 => ({ v with Typ := (decodeString span v.Typ).1 }, (decodeString span v.Typ).2)
  | 1 => ({ v with Action := (decodeString span v.Action).1 }, (decodeString span v.Action).2)
  | 2 => ({ v with AppID := (decodeString span v.AppID).1 }, (decodeString span v.AppID).2)
  | 3 => ({ v with RoomID := (decodeString span v.RoomID).1 }, (decodeString span v.RoomID).2)
  | 4 => ({ v with UserID := (decodeString span v.UserID).1 }, (decodeString span v.UserID).2)
  | 5 => ({ v with Message := (decodeRaw span v.Message).1 }, (decodeRaw span v.Message).2)
  | _ => (v, true)

/-- Unmarshal into a `jbMsgActionSendMsgToRoomOwner`. -/
def decodeSendMsgToRoomOwner :
    GoString → jbMsgActionSendMsgToRoomOwner → jbMsgActionSendMsgToRoomOwner × Bool :=
  decodeStruct jbMsgActionSendMsgToRoomOwner.fields jbMsgActionSendMsgToRoomOwner.assign

/-- Field names of `Point`. -/
def Point.fields : List GoString := [lit "x", lit "y"]

/-- Field store of `Point`. -/
def Point.assign (i : Nat) (span : GoString) (v : Point) : Point × Bool :=
  match i with
  | 0 => ({ v with X := (decodeInt span v.X).1 }, (decodeInt span v.X).2)
  | 1 => ({ v with Y := (decodeInt span v.Y).1 }, (decodeInt span v.Y).2)
  | _ => (v, true)

/-- Unmarshal into a `Point`. -/
def decodePoint : GoString → Point → Point × Bool := decodeStruct Point.fields Point.assign

/-- Field names of `PictureLine`. -/
def PictureLine.fields : List GoString := [lit "thickness", lit "color", lit "points"]

/-- Field store of `PictureLine`. -/
def PictureLine.assign (i : Nat) (span : GoString) (v : PictureLine) : PictureLine × Bool :=
  match i with
  | 0 => ({ v with Thickness := (decodeInt span v.Thickness).1 }, (decodeInt span v.Thickness).2)
  | 1 => ({ v with Color := (decodeString span v.Color).1 }, (decodeString span v.Color).2)
  | 2 =>
    ({ v with Points := (decodeSlice decodePoint Point.zero span v.Points).1 },
      (decodeSlice decodePoint Point.zero span v.Points).2)
  | _ => (v, true)

/-- Unmarshal into a `PictureLine`. -/
def decodePictureLine : GoString → PictureLine → PictureLine × Bool :=
  decodeStruct PictureLine.fields PictureLine.assign

/-- Unmarshal into a `[]PictureLine`. -/
def decodePictureLines : GoString → Option (List PictureLine) → Option (List PictureLine) × Bool :=
  decodeSlice decodePictureLine PictureLine.zero

/-- Field names of `jbOwnerMsgSetPlayerPicture`. -/
def jbOwnerMsgSetPlayerPicture.fields : List GoString :=
  [lit "setPlayerPicture", lit "pictureLines"]

/-- Field store of `jbOwnerMsgSetPlayerPicture`. -/
def jbOwnerMsgSetPlayerPicture.assign (i : Nat) (span : GoString)
    (v : jbOwnerMsgSetPlayerPicture) : jbOwnerMsgSetPlayerPicture × Bool :=
  match i with
  | 0 =>
    ({ v with SetPlayerPicture := (decodeBool span v.SetPlayerPicture).1 },
      (decodeBool span v.SetPlayerPicture).2)
  | 1 =>
    ({ v with PictureLines := (decodePictureLines span v.PictureLines).1 },
      (decodePictureLines span v.PictureLines).2)
  | _ => (v, true)

/-- Unmarshal into a `jbOwnerMsgSetPlayerPicture`. -/
def decodeSetPlayerPicture :
    GoString → jbOwnerMsgSetPlayerPicture → jbOwnerMsgSetPlayerPicture × Bool :=
  decodeStruct jbOwnerMsgSetPlayerPicture.fields jbOwnerMsgSetPlayerPicture.assign

/-- Field names of `jbMsg`. -/
def jbMsg.fields : List GoString := [lit "name", lit "args"]

/-- Field store of `jbMsg`. -/
def jbMsg.assign (i : Nat) (span : GoString) (v : jbMsg) : jbMsg × Bool :=
  match i with
  | 0 => ({ v with Name := (decodeString span v.Name).1 }, (decodeString span v.Name).2)
  | 1 =>
    ({ v with Args := (decodeSlice decodeRaw none span v.Args).1 },
      (decodeSlice decodeRaw none span v.Args).2)
  | _ => (v, true)

/-- Unmarshal into a `jbMsg`. -/
def decodeMsg : GoString → jbMsg → jbMsg × Bool := decodeStruct jbMsg.fields jbMsg.assign

/-- Field names of `RoomInfo`. -/
def RoomInfo.fields : List GoString :=
  [lit "roomid", lit "server", lit "apptag", lit "appid", lit "numAudience",
   lit "audienceEnabled", lit "joinAs", lit "requiresPassword"]

/-- Field store of `RoomInfo`. -/
def RoomInfo.assign (i : Nat) (span : GoString) (v : RoomInfo) : RoomInfo × Bool :=
  match i with
  | 0 => ({ v with RoomID := (decodeString span v.RoomID).1 }, (decodeString span v.RoomID).2)
  | 1 => ({ v with Server := (decodeString span v.Server).1 }, (decodeString span v.Server).2)
  | 2 => ({ v with AppTag := (decodeString span v.AppTag).1 }, (decodeString span v.AppTag).2)
  | 3 => ({ v with AppID := (decodeString span v.AppID).1 }, (decodeString span v.AppID).2)
  | 4 =>
    ({ v with NumAudience := (decodeInt span v.NumAudience).1 }, (decodeInt span v.NumAudience).2)
  | 5 =>
    ({ v with AudienceEnabled := (decodeBool span v.AudienceEnabled).1 },
      (decodeBool span v.AudienceEnabled).2)
  | 6 => ({ v with JoinAs := (decodeString span v.JoinAs).1 }, (decodeString span v.JoinAs).2)
  | 7 =>
    ({ v with RequiresPassword := (decodeBool span v.RequiresPassword).1 },
      (decodeBool span v.RequiresPassword).2)
  | _ => (v, true)

/-- Unmarshal into a `RoomInfo`. -/
def decodeRoomInfo : GoString → RoomInfo → RoomInfo × Bool :=
  decodeStruct RoomInfo.fields RoomInfo.assign

section Blob
variable {F : Type}

/-- Go's `<` on strings: byte-wise lexicographic. -/
def ltBytes : GoString → GoString → Bool
  | [], [] => false
  | [], _ :: _ => true
  | _ :: _, [] => false
  | a :: s, b :: t => decide (a < b) || (a == b && ltBytes s t)

/-- Statement `m[k] = v` on a map given by its entries in increasing key order. -/
def mapInsert {α : Type} (k : GoString) (v : α) : List (GoString × α) → List (GoString × α)
  | [] => [(k, v)]
  | e :: m =>
    if k = e.1 then (k, v) :: m
    else if ltBytes k e.1 then (k, v) :: e :: m
    else e :: mapInsert k v m

/-- Store the decoded members of an object in a map; a later duplicate key
replaces the earlier entry. -/
def storeEntries {α : Type} (dec : GoString → α × Bool) :
    List (GoString × GoString) → List (GoString × α) × Bool → List (GoString × α) × Bool
  | [], acc => acc
  | m :: ms, acc =>
    match unquote m.1 with
    | none => storeEntries dec ms (acc.1, false)
    | some key => storeEntries dec ms (mapInsert key (dec m.2).1 acc.1, acc.2 && (dec m.2).2)

/-- Decode into an `interface{}` (`valueInterface`): numbers become `float64`
through `parseFloat`, that is `strconv.ParseFloat(s, 64)`, `none` when out of
range. The first argument bounds the nesting; the length of the text plus one is
enough (`decodeAny_fuel`). -/
def decodeAny (parseFloat : GoString → Option F) : Nat → GoString → GoAny F × Bool
  | 0, _ => (.nil, false)
  | n + 1, span =>
    match tokOf span with
    | none => (.nil, false)
    | some .null => (.nil, true)
    | some (.bool b) => (.bool b, true)
    | some (.num text) =>
      match parseFloat text with
      | some x => (.float64 x, true)
      | none => (.nil, false)
    | some (.str raw) =>
      match unquote raw with
      | some s => (.string s, true)
      | none => (.nil, false)
    | some (.arr es) =>
      (.slice ((es.map (decodeAny parseFloat n)).map (·.1)),
        (es.map (decodeAny parseFloat n)).all (·.2))
    | some (.obj ms) =>
      (.map (storeEntries (decodeAny parseFloat n) ms ([], true)).1,
        (storeEntries (decodeAny parseFloat n) ms ([], true)).2)

/-- Decode into a `map[string]interface{}` field: `null` gives the nil map, an
object stores its members in the map (made first if nil). -/
def decodeBlob (parseFloat : GoString → Option F) (span : GoString)
    (cur : Option (List (GoString × GoAny F))) : Option (List (GoString × GoAny F)) × Bool :=
  match tokOf span with
  | some .null => (none, true)
  | some (.obj ms) =>
    (some (storeEntries (decodeAny parseFloat (span.length + 1)) ms (cur.getD [], true)).1,
      (storeEntries (decodeAny parseFloat (span.length + 1)) ms (cur.getD [], true)).2)
  | _ => (cur, false)

/-- Field names of `jbMsgEvent`. -/
def jbMsgEvent.fields : List GoString := [lit "type", lit "event", lit "roomId", lit "blob"]

/-- Field store of `jbMsgEvent`. -/
def jbMsgEvent.assign (parseFloat : GoString → Option F) (i : Nat) (span : GoString)
    (v : jbMsgEvent F) : jbMsgEvent F × Bool :=
  match i with
  | 0 => ({ v with Typ := (decodeString span v.Typ).1 }, (decodeString span v.Typ).2)
  | 1 => ({ v with Event := (decodeString span v.Event).1 }, (decodeString span v.Event).2)
  | 2 => ({ v with RoomID := (decodeString span v.RoomID).1 }, (decodeString span v.RoomID).2)
  | 3 =>
    ({ v with Blob := (decodeBlob parseFloat span v.Blob).1 },
      (decodeBlob parseFloat span v.Blob).2)
  | _ => (v, true)

/-- Unmarshal into a `jbMsgEvent`. -/
def decodeEvent (parseFloat : GoString → Option F) :
    GoString → jbMsgEvent F → jbMsgEvent F × Bool :=
  decodeStruct jbMsgEvent.fields (jbMsgEvent.assign parseFloat)

end Blob

/-- Function `json.Unmarshal(data, &v)` for a decoder of the type of `v`: a
`SyntaxError` of `checkValid` (invalid JSON, or nesting past `maxNestingDepth`;
which message it carries is not modelled) leaves `v` untouched, a type error is
reported after the rest of the value was stored. -/
def unmarshal {σ : Type} (dec : GoString → σ → σ × Bool) (data : GoString) (cur : σ) :
    σ × Option GoError :=
  if validJSON data then
    ((dec data cur).1, if (dec data cur).2 then none else some "json: cannot unmarshal")
  else (cur, some "json: syntax error")

/-- Method `json.NewDecoder(r).Decode(&v)` on a stream that holds `body`: the
first value of the stream is decoded and what follows it is left unread; a
value that the scanner rejects, as invalid or as nested past
`maxNestingDepth`, is a `SyntaxError`. -/
def decodeStream {σ : Type} (dec : GoString → σ → σ × Bool) (body : GoString) (cur : σ) :
    σ × Option GoError :=
  match scanValue (body.length + 1) (skipWs body) with
  | none => (cur, some "json: syntax error")
  | some v =>
    if maxNestingDepth < v.nesting then (cur, some "json: syntax error")
    else
      ((dec (spanOf (skipWs body) v.rest) cur).1,
        if (dec (spanOf (skipWs body) v.rest) cur).2 then none else some "json: cannot unmarshal")


/-! ## `path`, `net/url` and `regexp` -/

/-- The pieces of a path between slashes. -/
def splitSlash : GoString → List GoString
  | [] => [[]]
  | c :: t =>
    if c = 47 then [] :: splitSlash t
    else
      match splitSlash t with
      | [] => [[c]]
      | seg :: r => (c :: seg) :: r

/-- The elements `path.Clean` keeps, last kept element first in the
accumulator: empty and `.` elements go, `..` removes the element before it,
except at the root (where it goes) and at the start of a relative path (where
it stays). -/
def cleanSegs (rooted : Bool) : List GoString → List GoString → List GoString
  | [], st => st.reverse
  | seg :: r, st =>
    if seg = [] ∨ seg = [46] then cleanSegs rooted r st
    else if seg = [46, 46] then
      match st with
      | [] => if rooted then cleanSegs rooted r [] else cleanSegs rooted r [seg]
      | top :: st1 =>
        if top = [46, 46] then cleanSegs rooted r (seg :: top :: st1) else cleanSegs rooted r st1
    else cleanSegs rooted r (seg :: st)

/-- Function `path.Clean`. -/
def pathClean (p : GoString) : GoString :=
  match p with
  | [] => [46]
  | c :: _ =>
    if c = 47 then 47 :: joinWith 47 (cleanSegs true (splitSlash p) [])
    else if cleanSegs false (splitSlash p) [] = [] then [46]
    else joinWith 47 (cleanSegs false (splitSlash p) [])

/-- Function `path.Join`: empty elements are ignored and the result is cleaned. -/
def pathJoin (elems : List GoString) : GoString :=
  if elems.filter (fun e => decide (e ≠ [])) = [] then []
  else pathClean (joinWith 47 (elems.filter (fun e => decide (e ≠ []))))

/-- Type `url.URL`, the fields the program uses. -/
structure URL where
  Scheme : GoString
  Host : GoString
  Path : GoString
  RawQuery : GoString := []
deriving DecidableEq, Repr

/-- Type `url.Values`. -/
abbrev Values := List (GoString × List GoString)

/-- Method `Values.Add`: append a value to the values of a key. -/
def Values.Add (v : Values) (key value : GoString) : Values :=
  if v.any (fun e => decide (e.1 = key)) then
    v.map fun e => if e.1 = key then (e.1, e.2 ++ [value]) else e
  else v ++ [(key, [value])]

/-- Split at the first occurrence of a byte. -/
def cutAt (sep : Nat) : GoString → GoString × GoString
  | [] => ([], [])
  | c :: t => if c = sep then ([], t) else ((c :: (cutAt sep t).1), (cutAt sep t).2)

/-- Method `URL.Query`: the parse of `RawQuery` into a fresh `Values`; the URL
keeps no reference to it. Percent-decoding is left out: `RawQuery` is empty in
every URL the program builds. -/
def URL.Query (u : URL) : Values :=
  if u.RawQuery = [] then []
  else
    ((splitSlash (u.RawQuery.map fun c => if c = 38 then 47 else c)).filter
      (fun e => decide (e ≠ []))).foldl
      (fun v kv => Values.Add v (cutAt 61 kv).1 (cutAt 61 kv).2) []

/-- Digit of the table `"0123456789ABCDEF"`. -/
def upperHex (n : Nat) : Nat := if n < 10 then 48 + n else 55 + n

/-- Function `shouldEscape` in the modes `encodePath` (`host = false`) and
`encodeHost` (`host = true`). -/
def shouldEscape (host : Bool) (c : Nat) : Bool :=
  if (97 ≤ c ∧ c ≤ 122) ∨ (65 ≤ c ∧ c ≤ 90) ∨ (48 ≤ c ∧ c ≤ 57) then false
  else if host ∧ c ∈ [33, 36, 38, 39, 40, 41, 42, 43, 44, 59, 61, 58, 91, 93, 60, 62, 34] then false
  else if c ∈ [45, 95, 46, 126] then false
  else if c ∈ [36, 38, 43, 44, 47, 58, 59, 61, 64] then host
  else true

/-- Function `escape`: percent-encode the bytes that `shouldEscape` names. -/
def escape (host : Bool) : GoString → GoString
  | [] => []
  | c :: t =>
    if shouldEscape host c then 37 :: upperHex (c / 16) :: upperHex (c % 16) :: escape host t
    else c :: escape host t

/-- Method `URL.String` for a URL with a scheme and a host and no user, opaque
part or fragment. -/
def URL.String (u : URL) : GoString :=
  u.Scheme ++ lit "://" ++ escape true u.Host
    ++ (if u.Path = [42] then [42]
        else (match u.Path with
              | [] => []
              | c :: _ => if c = 47 then [] else [47]) ++ escape false u.Path)
    ++ (if u.RawQuery = [] then [] else 63 :: u.RawQuery)

/-- A byte of the class `[a-z0-9]`. -/
def isTokenChar (c : Nat) : Bool := (97 ≤ c && c ≤ 122) || (48 ≤ c && c ≤ 57)

/-- The literal part of `wsInfoRegexp`. -/
def wsInfoSuffix : GoString := lit ":60:60:websocket,flashsocket"

/-- Whether a text starts with another. -/
def startsWith : GoString → GoString → Bool
  | [], _ => true
  | _ :: _, [] => false
  | a :: p, b :: t => a == b && startsWith p t

/-- A match of `([a-z0-9]{28}):60:60:websocket,flashsocket` that starts at the
head of the text: the captured group. -/
def matchHere (b : GoString) : Option GoString :=
  if (b.take 28).length = 28 ∧ (b.take 28).all isTokenChar ∧ startsWith wsInfoSuffix (b.drop 28)
  then some (b.take 28) else none

/-- Method `FindSubmatch` of the compiled `wsInfoRegexp`: the leftmost match as
the slice of the whole match and the one group, or the nil slice (here `[]`)
when there is no match. -/
def FindSubmatch : GoString → List GoString
  | [] => []
  | c :: t =>
    match matchHere (c :: t) with
    | some tok => [tok ++ wsInfoSuffix, tok]
    | none => FindSubmatch t

/-- Number of positions of the text at which `wsInfoRegexp` matches. -/
def countMatches : GoString → Nat
  | [] => 0
  | c :: t => (if (matchHere (c :: t)).isSome then 1 else 0) + countMatches t

/-! ## The client -/

/-- URL data for room information. -/
def roomBase : GoString := lit "ecast.jackboxgames.com"

/-- Path of the room lookup. -/
def roomPath : GoString := lit "/room/"

/-- URL endpoint for websocket connections. -/
def wsBase : GoString := lit "ecast.jackboxgames.com:38203"

/-- Path of the handshake request. -/
def wsInfoPath : GoString := lit "/socket.io/1/"

/-- Path of the websocket. -/
def wsSocketPath : GoString := lit "/socket.io/1/websocket/"

/-- Status `http.StatusNotFound`. -/
def StatusNotFound : Nat := 404

/-- An HTTP response: the status and what reading the body to its end gives. -/
structure Response where
  StatusCode : Nat
  Body : Except GoError GoString

/-- The world outside the program. -/
structure Env where
  /-- call `uuid.NewUUID()` and take `String()` of it -/
  NewUUID : Except GoError GoString
  /-- call `http.Get` -/
  Get : GoString → Except GoError Response
  /-- call `websocket.DefaultDialer.Dial`: a connection handle -/
  Dial : GoString → Except GoError Nat
  /-- call `ioutil.ReadFile` -/
  ReadFile : GoString → Except GoError GoString

/-- A call to the outside world, or the start of a goroutine. -/
inductive Effect where
  | newUUID
  | httpGet (url : GoString)
  | dial (url : GoString)
  | readFile (fn : GoString)
  | wgAdd (n : Nat)
  | goWrites
  | goReads
deriving DecidableEq, Repr

/-- A buffered channel of strings. -/
structure Chan where
  cap : Nat
  buf : List GoString
deriving DecidableEq, Repr

/-- One session between a user and the Jackbox.tv games service. A nil channel
is `none`; `wg` is the counter of the wait group. -/
structure JackboxClient where
  roomInfo : RoomInfo
  userID : GoString
  conn : Option Nat
  sendJackbox : Option Chan
  sendClient : Option Chan
  wg : Nat
  initialized : Bool
deriving DecidableEq, Repr

/-- How a call ended: it returned (with an error or nil), or it is blocked in a
channel send. -/
inductive Outcome where
  | ret (err : Option GoError)
  | blocked
deriving DecidableEq, Repr

/-- A call of a method of the client: the client after it, how it ended, and the
calls to the outside world it made, in order. -/
structure Run where
  jc : JackboxClient
  out : Outcome
  trace : List Effect
deriving DecidableEq, Repr

/-- Statement `ch <- m`: the channel with `m` queued, or `none` when the send
blocks (nil channel, or buffer full). -/
def chanSend (ch : Option Chan) (m : GoString) : Option Chan :=
  match ch with
  | none => none
  | some c => if c.buf.length < c.cap then some { c with buf := c.buf ++ [m] } else none

/-- Whether a send on the outbound queue would go through at once. -/
def hasRoom (jc : JackboxClient) : Prop :=
  ∃ c, jc.sendJackbox = some c ∧ c.buf.length < c.cap

/-- The frames waiting on the outbound queue. -/
def outbound (jc : JackboxClient) : List GoString :=
  match jc.sendJackbox with
  | none => []
  | some c => c.buf

/-- Zero value of `JackboxClient`. -/
def JackboxClient.zero : JackboxClient :=
  { roomInfo := RoomInfo.zero, userID := [], conn := none, sendJackbox := none,
    sendClient := none, wg := 0, initialized := false }

/-- Method `genUserID`. -/
def genUserID (env : Env) (jc : JackboxClient) : Run :=
  match env.NewUUID with
  | .error e => { jc := jc, out := .ret (some e), trace := [.newUUID] }
  | .ok userID => { jc := { jc with userID := userID }, out := .ret none, trace := [.newUUID] }

/-- MakeJackboxClient initializes a jackbox client with an auto-generated user
id. -/
def MakeJackboxClient (env : Env) : Run :=
  match (genUserID env JackboxClient.zero).out with
  | .ret none =>
    { jc := { (genUserID env JackboxClient.zero).jc with
                sendJackbox := some { cap := 20, buf := [] },
                sendClient := some { cap := 20, buf := [] },
                initialized := true },
      out := .ret none, trace := [.newUUID] }
  | _ => genUserID env JackboxClient.zero

/-- The rest of `GetRoomInfo` once the user id is there. The value of
`roomURL.Query().Add("userId", jc.userID)` is a `Values` of its own, which the
source drops: `roomURL` is requested as it was built. -/
def getRoomInfoRequest (env : Env) (jc : JackboxClient) (roomURL : URL) (pre : List Effect) : Run :=
  let _query := Values.Add roomURL.Query (lit "userId") jc.userID
  match env.Get roomURL.String with
  | .error e => { jc := jc, out := .ret (some e), trace := pre ++ [.httpGet roomURL.String] }
  | .ok resp =>
    if resp.StatusCode = StatusNotFound then
      { jc := jc, out := .ret (some "Failed to find room"),
        trace := pre ++ [.httpGet roomURL.String] }
    else
      match resp.Body with
      | .error e => { jc := jc, out := .ret (some e), trace := pre ++ [.httpGet roomURL.String] }
      | .ok body =>
        { jc := { jc with roomInfo := (decodeStream decodeRoomInfo body jc.roomInfo).1 },
          out := .ret (decodeStream decodeRoomInfo body jc.roomInfo).2,
          trace := pre ++ [.httpGet roomURL.String] }

/-- GetRoomInfo generates a user ID if necessary and retrieves the room
information for a given code. -/
def GetRoomInfo (env : Env) (jc : JackboxClient) (roomID : GoString) : Run :=
  let roomURL : URL := { Scheme := lit "https", Host := roomBase, Path := pathJoin [roomPath, roomID] }
  if jc.userID = [] then
    match (genUserID env jc).out with
    | .ret none => getRoomInfoRequest env (genUserID env jc).jc roomURL [.newUUID]
    | _ => genUserID env jc
  else getRoomInfoRequest env jc roomURL []

/-- Method `jbMsg.Serialize`. -/
def jbMsg.Serialize (msg : jbMsg) : Except GoError GoString :=
  match marshalMsg msg with
  | none => .error "json: error calling MarshalJSON for type json.RawMessage"
  | some base => .ok (lit "5:::" ++ base)

/-- Built-in `append` on a slice that may be nil. -/
def goAppend {α : Type} (s : Option (List α)) (x : α) : Option (List α) := some (s.getD [] ++ [x])

/-- Method `setupWebsocket`. -/
def setupWebsocket (env : Env) (jc : JackboxClient) : Run :=
  let wsInfoURL : URL := { Scheme := lit "https", Host := wsBase, Path := wsInfoPath }
  match env.Get wsInfoURL.String with
  | .error e => { jc := jc, out := .ret (some e), trace := [.httpGet wsInfoURL.String] }
  | .ok resp =>
    match resp.Body with
    | .error e => { jc := jc, out := .ret (some e), trace := [.httpGet wsInfoURL.String] }
    | .ok wsInfo =>
      match FindSubmatch wsInfo with
      | [_, wsName] =>
        let wsConnectURL : URL :=
          { Scheme := lit "wss", Host := wsBase, Path := pathJoin [wsSocketPath, wsName] }
        match env.Dial wsConnectURL.String with
        | .error e =>
          { jc := { jc with conn := none }, out := .ret (some e),
            trace := [.httpGet wsInfoURL.String, .dial wsConnectURL.String] }
        | .ok c =>
          { jc := { jc with conn := some c }, out := .ret none,
            trace := [.httpGet wsInfoURL.String, .dial wsConnectURL.String] }
      | _ =>
        { jc := jc, out := .ret (some "Failed to retrieve websocket name"),
          trace := [.httpGet wsInfoURL.String] }

/-- The argument of the join message that `JoinRoom` fills in. -/
def joinRoomArg (jc : JackboxClient) (name : GoString) : jbMsgActionJoinRoom :=
  { Typ := lit "Action", Action := lit "JoinRoom", AppID := jc.roomInfo.AppID,
    RoomID := jc.roomInfo.RoomID, UserID := jc.userID, JoinType := jc.roomInfo.JoinAs,
    Name := name, Options := { RoomCode := jc.roomInfo.RoomID, Name := name } }

/-- The frame `JoinRoom` builds from the room information it holds: `smsg`. -/
def joinRoomFrame (jc : JackboxClient) (name : GoString) : Except GoError GoString :=
  jbMsg.Serialize
    { Name := lit "msg", Args := goAppend none (some (marshalJoinRoom (joinRoomArg jc name))) }

/-- JoinRoom joins the specified room code with the specified name. -/
def JoinRoom (env : Env) (jc : JackboxClient) (name roomID : GoString) : Run :=
  if jc.initialized = false then
    { jc := jc, out := .ret (some "JackboxClient must be initialized before use"), trace := [] }
  else
    match (GetRoomInfo env jc roomID).out with
    | .ret none =>
      let jc1 := (GetRoomInfo env jc roomID).jc
      let tr1 := (GetRoomInfo env jc roomID).trace
      match joinRoomFrame jc1 name with
      | .error e => { jc := jc1, out := .ret (some e), trace := tr1 }
      | .ok smsg =>
        match (setupWebsocket env jc1).out with
        | .ret none =>
          let jc2 := { (setupWebsocket env jc1).jc with wg := (setupWebsocket env jc1).jc.wg + 2 }
          let tr2 := tr1 ++ (setupWebsocket env jc1).trace ++ [.wgAdd 2, .goWrites, .goReads]
          match chanSend jc2.sendJackbox smsg with
          | some ch => { jc := { jc2 with sendJackbox := some ch }, out := .ret none, trace := tr2 }
          | none => { jc := jc2, out := .blocked, trace := tr2 }
        | o =>
          { jc := (setupWebsocket env jc1).jc, out := o,
            trace := tr1 ++ (setupWebsocket env jc1).trace }
    | _ => GetRoomInfo env jc roomID

/-- LoadDrawing reads a json file and loads the results into a PictureLine
slice. -/
def LoadDrawing (env : Env) (fn : GoString) : Except GoError (Option (List PictureLine)) :=
  match env.ReadFile fn with
  | .error e => .error e
  | .ok contents =>
    match (unmarshal decodePictureLines contents none).2 with
    | some e => .error e
    | none => .ok (unmarshal decodePictureLines contents none).1

/-- The frame `SetPlayerPicture` builds around a loaded drawing: `smsg`. -/
def setPlayerPictureFrame (jc : JackboxClient) (pl : Option (List PictureLine)) :
    Except GoError GoString :=
  let arg : jbMsgActionSendMsgToRoomOwner :=
    { Typ := lit "Action", Action := lit "SendMessageToRoomOwner", AppID := jc.roomInfo.AppID,
      RoomID := jc.roomInfo.RoomID, UserID := jc.userID,
      Message := some (marshalSetPlayerPicture { SetPlayerPicture := true, PictureLines := pl }) }
  match marshalSendMsgToRoomOwner arg with
  | none => .error "json: error calling MarshalJSON for type json.RawMessage"
  | some sarg => jbMsg.Serialize { Name := lit "msg", Args := goAppend none (some sarg) }

/-- SetPlayerPicture send a setPlayerPicture action to the JB server. -/
def SetPlayerPicture (env : Env) (jc : JackboxClient) (fn : GoString) : Run :=
  if jc.initialized = false then
    { jc := jc, out := .ret (some "JackboxClient must be initialized before use"), trace := [] }
  else
    match LoadDrawing env fn with
    | .error e => { jc := jc, out := .ret (some e), trace := [.readFile fn] }
    | .ok pl =>
      match setPlayerPictureFrame jc pl with
      | .error e => { jc := jc, out := .ret (some e), trace := [.readFile fn] }
      | .ok smsg =>
        match chanSend jc.sendJackbox smsg with
        | some ch => { jc := { jc with sendJackbox := some ch }, out := .ret none, trace := [.readFile fn] }
        | none => { jc := jc, out := .blocked, trace := [.readFile fn] }

/-- What `handleJBMsgType` does with the args of an envelope, in order: the
parse of arg `i` for its type, and the second parse as a result or an event,
each with whether it succeeded. -/
inductive Step where
  | typeParse (i : Nat) (ok : Bool)
  | resultParse (i : Nat) (ok : Bool)
  | eventParse (i : Nat) (ok : Bool)
deriving DecidableEq, Repr

/-- Function `json.Unmarshal(item, &v)` on an arg, as success or failure. -/
def unmarshalOk {σ : Type} (dec : GoString → σ → σ × Bool) (item : RawMessage) (zero : σ) : Bool :=
  (unmarshal dec (item.getD []) zero).2.isNone

section Handlers
variable {F : Type}

/-- The loop of `handleJBMsgType` over the args from index `i` on. -/
def handleArgs (parseFloat : GoString → Option F) : Nat → List RawMessage → List Step
  | _, [] => []
  | i, item :: rest =>
    if unmarshalOk decodeMsgType item jbMsgType.zero = false then [.typeParse i false]
    else
      let typ := (unmarshal decodeMsgType (item.getD []) jbMsgType.zero).1.Typ
      if typ = lit "Action" then .typeParse i true :: handleArgs parseFloat (i + 1) rest
      else if typ = lit "Result" then
        if unmarshalOk decodeResult item jbMsgResult.zero = false then
          [.typeParse i true, .resultParse i false]
        else .typeParse i true :: .resultParse i true :: handleArgs parseFloat (i + 1) rest
      else if typ = lit "Event" then
        if unmarshalOk (decodeEvent parseFloat) item jbMsgEvent.zero = false then
          [.typeParse i true, .eventParse i false]
        else .typeParse i true :: .eventParse i true :: handleArgs parseFloat (i + 1) rest
      else .typeParse i true :: handleArgs parseFloat (i + 1) rest

/-- A frame handled: the client after it, whether the handler is blocked in a
channel send, and the parses it made. -/
structure Handled where
  jc : JackboxClient
  blocked : Bool
  steps : List Step
deriving DecidableEq, Repr

/-- handleJBMsgType parses and handles messages prefixed with `5:::`. -/
def handleJBMsgType (parseFloat : GoString → Option F) (jc : JackboxClient) (msg : GoString) :
    Handled :=
  match unmarshal decodeMsg msg jbMsg.zero with
  | (_, some _) => { jc := jc, blocked := false, steps := [] }
  | (pMsg, none) =>
    { jc := jc, blocked := false, steps := handleArgs parseFloat 0 (pMsg.Args.getD []) }

/-- Method `handleJBWSMsg`. -/
def handleJBWSMsg (parseFloat : GoString → Option F) (jc : JackboxClient) (msg : GoString) :
    Handled :=
  if msg = lit "1::" then { jc := jc, blocked := false, steps := [] }
  else if msg = lit "2:::" then
    match chanSend jc.sendJackbox (lit "2::") with
    | some ch => { jc := { jc with sendJackbox := some ch }, blocked := false, steps := [] }
    | none => { jc := jc, blocked := true, steps := [] }
  else if startsWith (lit "5:::") msg then handleJBMsgType parseFloat jc (msg.drop 4)
  else { jc := jc, blocked := false, steps := [] }

end Handlers


/-! ## Sample clients and worlds -/

/-- A client as `MakeJackboxClient` leaves it, with user id `u`. -/
def sampleClient : JackboxClient :=
  { JackboxClient.zero with
      userID := lit "u", sendJackbox := some { cap := 20, buf := [] },
      sendClient := some { cap := 20, buf := [] }, initialized := true }

/-- A client that holds the room information of a room it has looked up. -/
def joinedClient : JackboxClient :=
  { sampleClient with
      roomInfo :=
        { RoomID := lit "SANB", Server := lit "ecast.jackboxgames.com", AppTag := lit "drawful2",
          AppID := lit "8511cbe0-dfff-4ea9-94e0-424daad072c3", NumAudience := 0,
          AudienceEnabled := false, JoinAs := lit "player", RequiresPassword := false } }

/-- A world in which every request is answered with status 404. -/
def envNotFound : Env :=
  { NewUUID := .ok (lit "u"),
    Get := fun _ => .ok { StatusCode := 404, Body := .ok [] },
    Dial := fun _ => .ok 0,
    ReadFile := fun _ => .error "open: no such file or directory" }

/-- A handshake answer that holds two session tokens. -/
def twoTokenBody : GoString :=
  lit "0123456789abcdefghijklmnopqr:60:60:websocket,flashsocket zyxwvutsrqponmlkjihgfedcba98:60:60:websocket,flashsocket"

/-- A world in which every request is answered with `twoTokenBody` and every
dial succeeds. -/
def envTwoTokens : Env :=
  { NewUUID := .ok (lit "u"),
    Get := fun _ => .ok { StatusCode := 200, Body := .ok twoTokenBody },
    Dial := fun _ => .ok 7,
    ReadFile := fun _ => .error "open: no such file or directory" }

/-! ## Names for the URLs of the program -/

/-- The URL of the room lookup for a room code, as `GetRoomInfo` builds it. -/
def roomLookupURL (roomID : GoString) : GoString :=
  URL.String { Scheme := lit "https", Host := roomBase, Path := pathJoin [roomPath, roomID] }

/-- The URL of the handshake request. -/
def wsInfoURL : GoString := lit "https://ecast.jackboxgames.com:38203/socket.io/1/"

/-- The URL of the websocket for a session token. -/
def wsConnectURL (token : GoString) : GoString :=
  lit "wss://ecast.jackboxgames.com:38203/socket.io/1/websocket/" ++ token

/-! ## Envelope decoding, by the words of the specification -/

/-- Whether a parse recorded in a step succeeded. -/
def Step.ok : Step → Bool
  | .typeParse _ b => b
  | .resultParse _ b => b
  | .eventParse _ b => b

section SpecSteps
variable {F : Type}

/-- The parses of one arg, in words: the arg is parsed for its `type`; when that
gives `"Result"` or `"Event"` it is parsed again as that record; for `"Action"`
and for any other type nothing more is done. -/
def specArgSteps (parseFloat : GoString → Option F) (i : Nat) (item : RawMessage) : List Step :=
  if unmarshalOk decodeMsgType item jbMsgType.zero then
    if (unmarshal decodeMsgType (item.getD []) jbMsgType.zero).1.Typ = lit "Result" then
      [.typeParse i true, .resultParse i (unmarshalOk decodeResult item jbMsgResult.zero)]
    else if (unmarshal decodeMsgType (item.getD []) jbMsgType.zero).1.Typ = lit "Event" then
      [.typeParse i true,
        .eventParse i (unmarshalOk (decodeEvent parseFloat) item jbMsgEvent.zero)]
    else [.typeParse i true]
  else [.typeParse i false]

/-- Whether every parse of an arg succeeds. -/
def specArgOk (parseFloat : GoString → Option F) (item : RawMessage) : Bool :=
  (specArgSteps parseFloat 0 item).all Step.ok

/-- The args that get processed, in words: those before the first arg with a
failing parse, and that arg. -/
def specProcessed (parseFloat : GoString → Option F) : List RawMessage → List RawMessage
  | [] => []
  | item :: rest =>
    if specArgOk parseFloat item then item :: specProcessed parseFloat rest else [item]

/-- The parses of an envelope, in words: those of the processed args in order,
the args numbered from `i`. -/
def specSteps (parseFloat : GoString → Option F) (i : Nat) (args : List RawMessage) : List Step :=
  ((specProcessed parseFloat args).enumFrom i).flatMap
    fun p => specArgSteps parseFloat p.1 p.2

end SpecSteps

/-! ## Predicates on JSON text -/

/-- A piece of a string body that the scanner reads in `k` steps and that
`compact` leaves as it is. -/
def Chunk (k : Nat) (w : GoString) : Prop :=
  ∀ (n : Nat) (t : GoString),
    scanStrN (n + k) (w ++ t) = (scanStrN n t).map (StrScan.push w w)

/-- A piece of a string body that `unquote` reads in one step as the bytes `d`. -/
def UChunk (w d : GoString) : Prop :=
  ∀ t : GoString, unquoteStep (w ++ t) = some (d, t)



/-- What may follow a value in compact JSON: the end of the text, a comma, a
closing bracket or a closing brace. -/
def Delim (rest : GoString) : Prop :=
  rest = [] ∨ ∃ c t, rest = c :: t ∧ (c = 44 ∨ c = 93 ∨ c = 125)

/-- A first byte of a JSON value. -/
def isValueStart (c : Nat) : Bool :=
  c = 123 || c = 91 || c = 34 || c = 116 || c = 102 || c = 110 || c = 45 || isDigit c

/-- The text `v` is one JSON value in compact form: followed by a delimiter it
scans as the value `tok`, `compact` writes it as it is, and nothing of what
follows is read. -/
def Clean (v : GoString) (tok : JTok) : Prop :=
  ∀ n rest, v.length < n → Delim rest →
    scanValue n (v ++ rest) = some { tok := tok, out := v, rest := rest }

/-- The text `out` is the rest of a compact array after the opening bracket:
elements with the source texts `spans`, then the closing bracket. -/
def CleanElems (out : GoString) (spans : List GoString) : Prop :=
  (∃ c o, out = c :: o ∧ isValueStart c = true) ∧
    ∀ n rest, out.length < n → scanElems n (out ++ rest) = some (spans, out, rest)

/-- The text `out` is the rest of a compact object after the opening brace:
members with the keys and source texts `ms`, then the closing brace. -/
def CleanMembers (out : GoString) (ms : List (GoString × GoString)) : Prop :=
  (∃ o, out = 34 :: o) ∧
    ∀ n rest, out.length < n → scanMembers n (out ++ rest) = some (ms, out, rest)

/-- The text `k` is the body of a string in compact form. -/
def CleanKey (k : GoString) : Prop :=
  ∀ rest, scanStr (k ++ 34 :: rest) = some { raw := k, out := k, rest := rest }

/-- The members of a compact object, as the scanner reports them. -/
def memberToks (fs : List (GoString × GoString)) : List (GoString × GoString) :=
  fs.map fun kv => (escapeBody kv.1, kv.2)

/-- Every value of a member list is compact JSON. -/
def AllClean : List (GoString × GoString) → Prop
  | [] => True
  | kv :: r => (∃ tok, Clean kv.2 tok) ∧ AllClean r

/-- The strings of an action are valid UTF-8. -/
def jbMsgAction.Valid (a : jbMsgAction) : Prop :=
  validUTF8 a.Typ = true ∧ validUTF8 a.Action = true ∧ validUTF8 a.AppID = true ∧
    validUTF8 a.RoomID = true ∧ validUTF8 a.UserID = true

/-- The strings of a result are valid UTF-8. -/
def jbMsgResult.Valid (r : jbMsgResult) : Prop :=
  validUTF8 r.Typ = true ∧ validUTF8 r.Action = true ∧ validUTF8 r.RoomID = true ∧
    validUTF8 r.JoinType = true ∧ validUTF8 r.UserID = true

/-- The strings of the options of a join are valid UTF-8. -/
def jbMsgActionJoinRoomOptions.Valid (o : jbMsgActionJoinRoomOptions) : Prop :=
  validUTF8 o.RoomCode = true ∧ validUTF8 o.Name = true

/-- The strings of a join message are valid UTF-8. -/
def jbMsgActionJoinRoom.Valid (a : jbMsgActionJoinRoom) : Prop :=
  a.tojbMsgAction.Valid ∧ validUTF8 a.JoinType = true ∧ validUTF8 a.Name = true ∧ a.Options.Valid

/-- An `int` of 64 bits. -/
def isInt64 (i : Int) : Prop := -(2 : Int) ^ 63 ≤ i ∧ i < (2 : Int) ^ 63

/-- The coordinates of a point are 64-bit integers. -/
def Point.Valid (p : Point) : Prop := isInt64 p.X ∧ isInt64 p.Y

/-- The thickness of a line and its points are 64-bit integers and its color is
valid UTF-8. -/
def PictureLine.Valid (l : PictureLine) : Prop :=
  isInt64 l.Thickness ∧ validUTF8 l.Color = true ∧ ∀ ps, l.Points = some ps → ∀ p ∈ ps, p.Valid

/-- Every line of a drawing is valid. -/
def validDrawing (pl : Option (List PictureLine)) : Prop :=
  ∀ ls, pl = some ls → ∀ l ∈ ls, l.Valid

/-- The strings of a `RoomInfo` are valid UTF-8. -/
def RoomInfo.Valid (ri : RoomInfo) : Prop :=
  validUTF8 ri.RoomID = true ∧ validUTF8 ri.Server = true ∧ validUTF8 ri.AppTag = true ∧
    validUTF8 ri.AppID = true ∧ validUTF8 ri.JoinAs = true

/-- The content of a picture file with one stroke. -/
def sampleDrawingFile : GoString :=
  lit "[\x7b\"thickness\":2,\"color\":\"#000\",\"points\":[\x7b\"x\":1,\"y\":2\x7d]\x7d]"

/-- The drawing in `sampleDrawingFile`. -/
def sampleDrawing : Option (List PictureLine) :=
  some [{ Thickness := 2, Color := lit "#000", Points := some [{ X := 1, Y := 2 }] }]

/-- A world in which every file holds `sampleDrawingFile`. -/
def envDrawing : Env :=
  { NewUUID := .ok (lit "u"),
    Get := fun _ => .ok { StatusCode := 404, Body := .ok [] },
    Dial := fun _ => .ok 0,
    ReadFile := fun _ => .ok sampleDrawingFile }

section PlainValues
variable {F : Type}
/-- The keys of a map are valid UTF-8 and strictly increasing. -/
def SortedKeys {α : Type} : List (GoString × α) → Prop
  | [] => True
  | e :: m => validUTF8 e.1 = true ∧ (∀ x ∈ m, ltBytes e.1 x.1 = true) ∧ SortedKeys m
mutual
/-- A value that `json.Marshal` and `json.Unmarshal` carry unchanged: nil,
booleans, strings of valid UTF-8, and slices and maps of such values, the maps
with valid keys in increasing order. Numbers are left out: their text form is
that of a `float64`. -/
def GoAny.Plain : GoAny F → Prop
  | .nil => True
  | .bool _ => True
  | .float64 _ => False
  | .string s => validUTF8 s = true
  | .slice xs => plainList xs
  | .map m => SortedKeys m ∧ plainEntries m
/-- Every element is plain. -/
def plainList : List (GoAny F) → Prop
  | [] => True
  | x :: r => x.Plain ∧ plainList r
/-- Every value is plain. -/
def plainEntries : List (GoString × GoAny F) → Prop
  | [] => True
  | (_, v) :: r => v.Plain ∧ plainEntries r
end
mutual
/-- The number of slices and maps inside one another in a value. -/
def GoAny.depth : GoAny F → Nat
  | .nil => 0
  | .bool _ => 0
  | .float64 _ => 0
  | .string _ => 0
  | .slice xs => 1 + depthList xs
  | .map m => 1 + depthEntries m
/-- The largest depth of an element. -/
def depthList : List (GoAny F) → Nat
  | [] => 0
  | x :: r => max x.depth (depthList r)
/-- The largest depth of a value of a map. -/
def depthEntries : List (GoString × GoAny F) → Nat
  | [] => 0
  | (_, v) :: r => max v.depth (depthEntries r)
end
/-- The depth of a blob: 0 for the nil map, which is written `null`, and one more
than the largest depth of a value for a map. -/
def blobDepth : Option (List (GoString × GoAny F)) → Nat
  | none => 0
  | some m => 1 + depthEntries m
/-- The strings of an event are valid UTF-8, its blob is the nil map or a map of
plain values, and the event with its blob nests at most `maxNestingDepth` levels
deep. -/
def jbMsgEvent.Valid (e : jbMsgEvent F) : Prop :=
  validUTF8 e.Typ = true ∧ validUTF8 e.Event = true ∧ validUTF8 e.RoomID = true ∧
    (match e.Blob with
    | none => True
    | some m => SortedKeys m ∧ plainEntries m) ∧
    blobDepth e.Blob + 1 ≤ maxNestingDepth
end PlainValues

/-- The text starts with the second and third byte of U+2028 or U+2029. -/
def LineSepTail (t : GoString) : Prop :=
  ∃ b2 t3, t = 0x80 :: b2 :: t3 ∧ (b2 = 0xA8 ∨ b2 = 0xA9)

/-- The text `o` is the body of a string in compact form, read with any fuel
above its length. -/
def CleanBody (o : GoString) : Prop :=
  ∀ n rest, o.length < n →
    scanStrN n (o ++ 34 :: rest) = some { raw := o, out := o, rest := rest }

/-- The head of the text is none of the bytes that continue a run of digits. -/
def NoDigitHead (t : GoString) : Prop := ∀ c u, t = c :: u → isDigit c = false

/-- Two payloads: a sub-message with a blank after the colon, and one in compact
form. -/
def samplePayloads : List GoString :=
  [lit "\x7b\"type\": \"Action\"\x7d", lit "\x7b\"type\":\"Result\",\"success\":true\x7d"]

/-- The number of arrays and objects inside one another in a JSON text, 0 for
a text that is not JSON. -/
def jsonDepth (data : GoString) : Nat :=
  match scanTop data with
  | some v => v.nesting
  | none => 0

/-- Arrays inside one another, `k` of them around `null`. -/
def nestedArrays : Nat → GoString
  | 0 => lit "null"
  | k + 1 => [91] ++ nestedArrays k ++ [93]

/-- The strings a client holds are valid UTF-8. -/
def JackboxClient.Valid (jc : JackboxClient) : Prop :=
  jc.roomInfo.Valid ∧ validUTF8 jc.userID = true

/-- The UUID source gives text in valid UTF-8 (a UUID string is in hexadecimal
digits and dashes). -/
def Env.Valid (env : Env) : Prop := ∀ u, env.NewUUID = .ok u → validUTF8 u = true

/-- The body of a room lookup answer. -/
def sampleRoomBody : GoString :=
  lit "\x7b\"roomid\":\"SANB\",\"server\":\"ecast.jackboxgames.com\",\"apptag\":\"drawful2\",\"appid\":\"8511cbe0-dfff-4ea9-94e0-424daad072c3\",\"numAudience\":0,\"audienceEnabled\":false,\"joinAs\":\"player\",\"requiresPassword\":false\x7d\n"

/-- A world in which the room lookup is answered with `sampleRoomBody`, the
handshake request with one session token, and every dial succeeds. -/
def envJoin : Env :=
  { NewUUID := .ok (lit "u"),
    Get := fun url =>
      if url = wsInfoURL then
        .ok { StatusCode := 200,
              Body := .ok (lit "0123456789abcdefghijklmnopqr:60:60:websocket,flashsocket") }
      else .ok { StatusCode := 200, Body := .ok sampleRoomBody },
    Dial := fun _ => .ok 7,
    ReadFile := fun _ => .error "open: no such file or directory" }

/-- The text `v` is one JSON value in compact form with arrays and objects
nested at most `k` deep. -/
def CleanD (k : Nat) (v : GoString) : Prop := (∃ tok, Clean v tok) ∧ nesting v ≤ k

/-! # Theorems -/

/-! ## Strings: marshalled bodies scan and unquote -/

theorem hexVal_hexDigit (x : Nat) (h : x < 16) : hexVal (hexDigit x) = some x := by
  unfold hexVal hexDigit
  split_ifs <;> first | omega | (simp <;> omega)

theorem decodeRune_width (b : Nat) (t : GoString) (h : ¬ b < 128) :
    ((decodeRune (b :: t)).2 = 2 →
      ∃ b1 t1, t = b1 :: t1 ∧ 0xC2 ≤ b ∧ b ≤ 0xDF ∧ 0x80 ≤ b1 ∧ b1 ≤ 0xBF) ∧
    ((decodeRune (b :: t)).2 = 3 →
      ∃ b1 b2 t2, t = b1 :: b2 :: t2 ∧ 0xE0 ≤ b ∧ b ≤ 0xEF ∧ secondLo b ≤ b1 ∧ b1 ≤ secondHi b ∧
        0x80 ≤ b2 ∧ b2 ≤ 0xBF) ∧
    ((decodeRune (b :: t)).2 = 4 →
      ∃ b1 b2 b3 t3, t = b1 :: b2 :: b3 :: t3 ∧ 0xF0 ≤ b ∧ b ≤ 0xF4 ∧ secondLo b ≤ b1 ∧
        b1 ≤ secondHi b ∧ 0x80 ≤ b2 ∧ b2 ≤ 0xBF ∧ 0x80 ≤ b3 ∧ b3 ≤ 0xBF) := by
  unfold decodeRune
  simp only [h, if_false]
  by_cases hA : 0xC2 ≤ b ∧ b ≤ 0xDF
  · simp only [hA, and_self, if_true]
    cases t with
    | nil => simp
    | cons b1 t1 =>
      by_cases hc : isCont b1 = true
      · simp only [hc, if_true]
        simp only [isCont, Bool.and_eq_true, decide_eq_true_eq] at hc
        refine ⟨fun _ => ⟨b1, t1, ?_⟩, ?_, ?_⟩ <;> simp [hc.1, hc.2]
      · simp [hc]
  · simp only [hA, if_false]
    by_cases hB : 0xE0 ≤ b ∧ b ≤ 0xEF
    · simp only [hB, and_self, if_true]
      match t with
      | [] => simp
      | [_] => simp
      | b1 :: b2 :: t2 =>
        by_cases hc : secondLo b ≤ b1 ∧ b1 ≤ secondHi b ∧ isCont b2 = true
        · simp only [hc, and_self, if_true]
          have hc2 := hc.2.2
          simp only [isCont, Bool.and_eq_true, decide_eq_true_eq] at hc2
          refine ⟨?_, fun _ => ⟨b1, b2, t2, ?_⟩, ?_⟩ <;> simp [hc.1, hc.2.1, hc2.1, hc2.2]
        · simp [hc]
    · simp only [hB, if_false]
      by_cases hC : 0xF0 ≤ b ∧ b ≤ 0xF4
      · simp only [hC, and_self, if_true]
        match t with
        | [] => simp
        | [_] => simp
        | [_, _] => simp
        | b1 :: b2 :: b3 :: t3 =>
          by_cases hc : secondLo b ≤ b1 ∧ b1 ≤ secondHi b ∧ isCont b2 = true ∧ isCont b3 = true
          · simp only [hc, and_self, if_true]
            have hc2 := hc.2.2.1
            have hc3 := hc.2.2.2
            simp only [isCont, Bool.and_eq_true, decide_eq_true_eq] at hc2 hc3
            refine ⟨?_, ?_, fun _ => ⟨b1, b2, b3, t3, ?_⟩⟩ <;>
              simp [hc.1, hc.2.1, hc2.1, hc2.2, hc3.1, hc3.2]
          · simp [hc]
      · simp [hC]

theorem decodeRune_two_eq (b b1 : Nat) (t : GoString) (h1 : 0xC2 ≤ b) (h2 : b ≤ 0xDF)
    (h3 : 0x80 ≤ b1) (h4 : b1 ≤ 0xBF) :
    decodeRune (b :: b1 :: t) = (b % 32 * 64 + b1 % 64, 2) := by
  have hb : ¬ b < 128 := by omega
  simp [decodeRune, hb, h1, h2, isCont, h3, h4]

theorem decodeRune_three_eq (b b1 b2 : Nat) (t : GoString) (h1 : 0xE0 ≤ b) (h2 : b ≤ 0xEF)
    (h3 : secondLo b ≤ b1) (h4 : b1 ≤ secondHi b) (h5 : 0x80 ≤ b2) (h6 : b2 ≤ 0xBF) :
    decodeRune (b :: b1 :: b2 :: t) = (b % 16 * 4096 + b1 % 64 * 64 + b2 % 64, 3) := by
  have hb : ¬ b < 128 := by omega
  have hA : ¬ (0xC2 ≤ b ∧ b ≤ 0xDF) := by omega
  simp [decodeRune, hb, hA, h1, h2, isCont, h3, h4, h5, h6]

theorem decodeRune_four_eq (b b1 b2 b3 : Nat) (t : GoString) (h1 : 0xF0 ≤ b) (h2 : b ≤ 0xF4)
    (h3 : secondLo b ≤ b1) (h4 : b1 ≤ secondHi b) (h5 : 0x80 ≤ b2) (h6 : b2 ≤ 0xBF)
    (h7 : 0x80 ≤ b3) (h8 : b3 ≤ 0xBF) :
    decodeRune (b :: b1 :: b2 :: b3 :: t)
      = (b % 8 * 262144 + b1 % 64 * 4096 + b2 % 64 * 64 + b3 % 64, 4) := by
  have hb : ¬ b < 128 := by omega
  have hA : ¬ (0xC2 ≤ b ∧ b ≤ 0xDF) := by omega
  have hB : ¬ (0xE0 ≤ b ∧ b ≤ 0xEF) := by omega
  simp [decodeRune, hb, hA, hB, h1, h2, isCont, h3, h4, h5, h6, h7, h8]

theorem secondLo_ge (b : Nat) : 0x80 ≤ secondLo b := by
  unfold secondLo
  split_ifs <;> omega

theorem secondHi_le (b : Nat) : secondHi b ≤ 0xBF := by
  unfold secondHi
  split_ifs <;> omega

theorem strStep_plain (c : Nat) (t : GoString) (h1 : c ≠ 34) (h2 : c ≠ 92) (h3 : ¬ c < 32)
    (h4 : c ≠ 60) (h5 : c ≠ 62) (h6 : c ≠ 38) (h7 : c ≠ 0xE2) :
    strStep (c :: t) = .more [c] [c] t := by
  simp [strStep, h1, h2, h3, h4, h5, h6, h7]

theorem strStep_simple (e : Nat) (t : GoString) (h1 : e ≠ 117) (h2 : (simpleEsc e).isSome = true) :
    strStep (92 :: e :: t) = .more [92, e] [92, e] t := by
  simp [strStep, h1, h2]

theorem strStep_u (a b c d : Nat) (t : GoString) (ha : (hexVal a).isSome = true)
    (hb : (hexVal b).isSome = true) (hc : (hexVal c).isSome = true)
    (hd : (hexVal d).isSome = true) :
    strStep (92 :: 117 :: a :: b :: c :: d :: t)
      = .more [92, 117, a, b, c, d] [92, 117, a, b, c, d] t := by
  simp [strStep, ha, hb, hc, hd]

theorem strStep_E2 (t : GoString)
    (h : ∀ b1 b2 t3, t = b1 :: b2 :: t3 → ¬ (b1 = 0x80 ∧ (b2 = 0xA8 ∨ b2 = 0xA9))) :
    strStep (0xE2 :: t) = .more [0xE2] [0xE2] t := by
  unfold strStep
  simp only [Nat.reduceEqDiff, if_false, Nat.reduceLT, or_self, if_true]
  split
  · rename_i b1 b2 t3
    rw [if_neg (h b1 b2 t3 rfl)]
  · rfl

theorem scanStrN_more {t raw out rest : GoString} (n : Nat) (h : strStep t = .more raw out rest) :
    scanStrN (n + 1) t = (scanStrN n rest).map (StrScan.push raw out) := by
  rw [scanStrN, h]

theorem scanStrN_quote (n : Nat) (rest : GoString) :
    scanStrN (n + 1) (34 :: rest) = some { raw := [], out := [], rest := rest } := by
  rw [scanStrN]
  simp [strStep]

theorem hexDigit_isSome (x : Nat) (h : x < 16) : (hexVal (hexDigit x)).isSome = true := by
  rw [hexVal_hexDigit x h]
  rfl

theorem chunk_one {w : GoString} (h : ∀ t, strStep (w ++ t) = .more w w t) : Chunk 1 w := by
  intro n t
  exact scanStrN_more n (h t)

theorem strScan_push_push (a b c d : GoString) (s : StrScan) :
    StrScan.push a b (StrScan.push c d s) = StrScan.push (a ++ c) (b ++ d) s := by
  simp [StrScan.push]

theorem chunk_append {j k : Nat} {v w : GoString} (hv : Chunk j v) (hw : Chunk k w) :
    Chunk (k + j) (v ++ w) := by
  intro n t
  rw [← Nat.add_assoc, List.append_assoc, hv (n + k) (w ++ t), hw n t]
  cases scanStrN n t with
  | none => rfl
  | some s => simp [strScan_push_push]

theorem chunk_plain (c : Nat) (h1 : c ≠ 34) (h2 : c ≠ 92) (h3 : ¬ c < 32)
    (h4 : c ≠ 60) (h5 : c ≠ 62) (h6 : c ≠ 38) (h7 : c ≠ 0xE2) : Chunk 1 [c] :=
  chunk_one fun t => strStep_plain c t h1 h2 h3 h4 h5 h6 h7

theorem chunk_high (c : Nat) (h1 : 0x80 ≤ c) (h2 : c ≠ 0xE2) : Chunk 1 [c] :=
  chunk_plain c (by omega) (by omega) (by omega) (by omega) (by omega) (by omega) h2

theorem chunk_cont (c : Nat) (h1 : 0x80 ≤ c) (h2 : c ≤ 0xBF) : Chunk 1 [c] :=
  chunk_high c h1 (by omega)

theorem chunk_e2 (b1 b2 : Nat) (h1 : 0x80 ≤ b1) (h2 : b1 ≤ 0xBF) (h3 : 0x80 ≤ b2) (h4 : b2 ≤ 0xBF)
    (h : ¬ (b1 = 0x80 ∧ (b2 = 0xA8 ∨ b2 = 0xA9))) : Chunk 3 [0xE2, b1, b2] := by
  intro n t
  have s1 : strStep ([0xE2, b1, b2] ++ t) = .more [0xE2] [0xE2] (b1 :: b2 :: t) := by
    refine strStep_E2 (b1 :: b2 :: t) ?_
    intro c1 c2 t3 ht
    simp only [List.cons.injEq] at ht
    obtain ⟨e1, e2, _⟩ := ht
    subst e1 e2
    exact h
  rw [show n + 3 = (n + 2) + 1 from rfl, scanStrN_more (n + 2) s1]
  have h2c := chunk_append (chunk_cont b1 h1 h2) (chunk_cont b2 h3 h4) n t
  simp only [List.singleton_append, List.cons_append, List.nil_append] at h2c
  rw [show n + 2 = n + (1 + 1) from rfl, h2c]
  cases scanStrN n t with
  | none => rfl
  | some s => simp [strScan_push_push]

theorem chunk_escByte (b : Nat) (hb : b < 128) : Chunk 1 (escByte b) := by
  unfold Jackbox.escByte
  split_ifs with h1 h2 h3 h4 h5 h6
  · rcases h1 with h | h <;> subst h <;>
      exact chunk_one fun t => strStep_simple _ t (by decide) (by decide)
  · exact chunk_one fun t => strStep_simple _ t (by decide) (by decide)
  · exact chunk_one fun t => strStep_simple _ t (by decide) (by decide)
  · exact chunk_one fun t => strStep_simple _ t (by decide) (by decide)
  · exact chunk_one fun t => strStep_simple _ t (by decide) (by decide)
  · exact chunk_one fun t => strStep_simple _ t (by decide) (by decide)
  · exact chunk_one fun t => strStep_u 48 48 _ _ t (by decide) (by decide)
      (hexDigit_isSome _ (by omega)) (hexDigit_isSome _ (by omega))

theorem decodeRune_ascii (b : Nat) (t : GoString) (hb : b < 128) : decodeRune (b :: t) = (b, 1) := by
  simp [decodeRune, hb]

theorem escapeBody_ascii (b : Nat) (t : GoString) (hb : b < 128) :
    escapeBody (b :: t) = (if htmlSafe b = true then [b] else Jackbox.escByte b) ++ escapeBody t := by
  rw [escapeBody.eq_5 b t (by simp [decodeRune_ascii b t hb]) (by simp [decodeRune_ascii b t hb])
    (by simp [decodeRune_ascii b t hb]), if_pos hb]

theorem escapeBody_bad (b : Nat) (t : GoString) (hb : ¬ b < 128)
    (n2 : ∀ (head : ℕ) (t1 : List ℕ), (decodeRune (b :: t)).2 = 2 → t = head :: t1 → False)
    (n3 : ∀ (head head_1 : ℕ) (t2 : List ℕ),
      (decodeRune (b :: t)).2 = 3 → t = head :: head_1 :: t2 → False)
    (n4 : ∀ (head head_1 head_2 : ℕ) (t3 : List ℕ),
      (decodeRune (b :: t)).2 = 4 → t = head :: head_1 :: head_2 :: t3 → False) :
    escapeBody (b :: t) = [92, 117, 102, 102, 102, 100] ++ escapeBody t := by
  rw [escapeBody.eq_5 b t n2 n3 n4, if_neg hb]

theorem scanStrN_chunk {k : Nat} {w body : GoString} (hc : Chunk k w) (hk : k ≤ w.length)
    (ih : ∀ n rest, body.length < n →
      scanStrN n (body ++ 34 :: rest) = some { raw := body, out := body, rest := rest }) :
    ∀ n rest, (w ++ body).length < n →
      scanStrN n (w ++ body ++ 34 :: rest)
        = some { raw := w ++ body, out := w ++ body, rest := rest } := by
  intro n rest hn
  rw [List.length_append] at hn
  obtain ⟨m, rfl⟩ : ∃ m, n = m + k := ⟨n - k, by omega⟩
  rw [List.append_assoc, hc m (body ++ 34 :: rest), ih m rest (by omega)]
  rfl

theorem rune3_linesep {b b1 b2 : Nat} (r1 : 0xE0 ≤ b) (r2 : b ≤ 0xEF) (r3 : 0x80 ≤ b1)
    (r4 : b1 ≤ 0xBF) (r5 : 0x80 ≤ b2) (r6 : b2 ≤ 0xBF) :
    (b % 16 * 4096 + b1 % 64 * 64 + b2 % 64 = 0x2028 ↔ b = 0xE2 ∧ b1 = 0x80 ∧ b2 = 0xA8) ∧
    (b % 16 * 4096 + b1 % 64 * 64 + b2 % 64 = 0x2029 ↔ b = 0xE2 ∧ b1 = 0x80 ∧ b2 = 0xA9) := by
  constructor <;> constructor <;> intro h <;> omega

/-- What `json.Marshal` writes between the quotes of a string scans as a
string body that `compact` leaves as it is, up to the closing quote. -/
theorem scanStrN_escapeBody (s : GoString) : ∀ n rest, (escapeBody s).length < n →
    scanStrN n (escapeBody s ++ 34 :: rest)
      = some { raw := escapeBody s, out := escapeBody s, rest := rest } := by
  induction s using escapeBody.induct with
  | case1 =>
    intro n rest hn
    obtain ⟨m, rfl⟩ : ∃ m, n = m + 1 := ⟨n - 1, by simp [escapeBody] at hn; omega⟩
    simp [escapeBody, scanStrN_quote]
  | case2 b t hb ih =>
    rw [escapeBody_ascii b t hb]
    by_cases hs : htmlSafe b = true
    · rw [if_pos hs]
      simp only [htmlSafe, Bool.and_eq_true, decide_eq_true_eq, bne_iff_ne, ne_eq] at hs
      exact scanStrN_chunk (chunk_plain b (by omega) (by omega) (by omega) (by omega)
        (by omega) (by omega) (by omega)) (by simp) ih
    · rw [if_neg hs]
      refine scanStrN_chunk (chunk_escByte b hb) ?_ ih
      unfold Jackbox.escByte
      split_ifs <;> simp
  | case3 b hb b1 t1 h2 ih =>
    obtain ⟨c1, t', ht, r1, r2, r3, r4⟩ := (decodeRune_width b (b1 :: t1) hb).1 h2
    simp only [List.cons.injEq] at ht
    obtain ⟨e1, _⟩ := ht
    subst e1
    rw [escapeBody.eq_2 _ _ _ h2, if_neg hb]
    exact scanStrN_chunk (chunk_append (chunk_high b (by omega) (by omega)) (chunk_cont b1 r3 r4))
      (by simp) ih
  | case4 b hb b1 b2 t2 h3 ih =>
    obtain ⟨c1, c2, t', ht, r1, r2, r3, r4, r5, r6⟩ :=
      (decodeRune_width b (b1 :: b2 :: t2) hb).2.1 h3
    simp only [List.cons.injEq] at ht
    obtain ⟨e1, e2, _⟩ := ht
    subst e1 e2
    have l1 := secondLo_ge b
    have l2 := secondHi_le b
    have hls := rune3_linesep r1 r2 (by omega : 0x80 ≤ b1) (by omega : b1 ≤ 0xBF) r5 r6
    rw [escapeBody.eq_3 _ _ _ _ h3, if_neg hb, decodeRune_three_eq b b1 b2 [] r1 r2 r3 r4 r5 r6]
    simp only []
    split_ifs with hr
    · exact scanStrN_chunk (chunk_one fun t => strStep_u 50 48 50 _ t (by decide) (by decide)
        (by decide) (hexDigit_isSome _ (by omega))) (by simp) ih
    · have h3c : Chunk 3 [b, b1, b2] := by
        by_cases hE : b = 0xE2
        · subst hE
          refine chunk_e2 b1 b2 (by omega) (by omega) r5 r6 ?_
          intro hh
          apply hr
          omega
        · exact chunk_append (chunk_plain b (by omega) (by omega) (by omega) (by omega) (by omega)
            (by omega) hE) (chunk_append (chunk_cont b1 (by omega) (by omega)) (chunk_cont b2 r5 r6))
      exact scanStrN_chunk h3c (by simp) ih
  | case5 b hb b1 b2 b3 t3 h4 ih =>
    obtain ⟨c1, c2, c3, t', ht, r1, r2, r3, r4, r5, r6, r7, r8⟩ :=
      (decodeRune_width b (b1 :: b2 :: b3 :: t3) hb).2.2 h4
    simp only [List.cons.injEq] at ht
    obtain ⟨e1, e2, e3, _⟩ := ht
    subst e1 e2 e3
    have l1 := secondLo_ge b
    have l2 := secondHi_le b
    rw [escapeBody.eq_4 _ _ _ _ _ h4, if_neg hb]
    exact scanStrN_chunk (chunk_append (chunk_high b (by omega) (by omega))
      (chunk_append (chunk_cont b1 (by omega) (by omega))
        (chunk_append (chunk_cont b2 r5 r6) (chunk_cont b3 r7 r8)))) (by simp) ih
  | case6 b t hb n2 n3 n4 ih =>
    rw [escapeBody_bad b t hb n2 n3 n4]
    exact scanStrN_chunk (chunk_one fun t => strStep_u 102 102 102 100 t (by decide) (by decide)
      (by decide) (by decide)) (by simp) ih

theorem unquoteN_chunk {w d body s : GoString} (hc : UChunk w d) (hw : w ≠ [])
    (ih : ∀ n, body.length ≤ n → unquoteN n body = some s) :
    ∀ n, (w ++ body).length ≤ n → unquoteN n (w ++ body) = some (d ++ s) := by
  intro n hn
  obtain ⟨c, w', rfl⟩ : ∃ c w', w = c :: w' := by
    cases w with
    | nil => exact absurd rfl hw
    | cons c w' => exact ⟨c, w', rfl⟩
  simp only [List.length_append, List.length_cons] at hn
  obtain ⟨m, rfl⟩ : ∃ m, n = m + 1 := ⟨n - 1, by omega⟩
  have h := hc body
  simp only [List.cons_append] at h ⊢
  rw [unquoteN, h]
  simp only []
  rw [ih m (by omega)]
  rfl

theorem uchunk_ascii (b : Nat) (h1 : b ≠ 92) (h2 : b ≠ 34) (h3 : ¬ b < 32) (h4 : b < 128) :
    UChunk [b] [b] := by
  intro t
  simp [unquoteStep, h1, h2, h3, h4]

theorem getu4_low (x y : Nat) (t : GoString) (hx : x < 16) (hy : y < 16) :
    getu4 (92 :: 117 :: 48 :: 48 :: hexDigit x :: hexDigit y :: t) = some (x * 16 + y) := by
  have e0 : hexVal 48 = some 0 := by decide
  simp [getu4, hexVal_hexDigit x hx, hexVal_hexDigit y hy, e0]

theorem uchunk_escByte (b : Nat) (hb : b < 128) : UChunk (Jackbox.escByte b) [b] := by
  intro t
  unfold Jackbox.escByte
  split_ifs with h1 h2 h3 h4 h5 h6
  · rcases h1 with h | h <;> subst h <;> simp [unquoteStep, simpleEsc]
  · subst h2; simp [unquoteStep, simpleEsc]
  · subst h3; simp [unquoteStep, simpleEsc]
  · subst h4; simp [unquoteStep, simpleEsc]
  · subst h5; simp [unquoteStep, simpleEsc]
  · subst h6; simp [unquoteStep, simpleEsc]
  · have hg := getu4_low (b / 16) (b % 16) t (by omega) (by omega)
    have hv : b / 16 * 16 + b % 16 = b := by omega
    rw [hv] at hg
    have he : encodeRune b = [b] := by simp [encodeRune, hb]
    simp only [List.cons_append, List.nil_append, unquoteStep, if_true, hg]
    rw [if_neg (by omega), he]
    rfl

theorem encodeRune_two (b b1 : Nat) (h1 : 0xC2 ≤ b) (h2 : b ≤ 0xDF) (h3 : 0x80 ≤ b1)
    (h4 : b1 ≤ 0xBF) : encodeRune (b % 32 * 64 + b1 % 64) = [b, b1] := by
  unfold encodeRune
  rw [if_neg (by omega), if_pos (by omega)]
  congr 1
  · omega
  · congr 1
    omega

theorem encodeRune_three (b b1 b2 : Nat) (h1 : 0xE0 ≤ b) (h2 : b ≤ 0xEF) (h3 : secondLo b ≤ b1)
    (h4 : b1 ≤ secondHi b) (h5 : 0x80 ≤ b2) (h6 : b2 ≤ 0xBF) :
    encodeRune (b % 16 * 4096 + b1 % 64 * 64 + b2 % 64) = [b, b1, b2] := by
  have l1 := secondLo_ge b
  have l2 := secondHi_le b
  have k1 : b = 0xE0 → 0xA0 ≤ b1 := by
    intro h
    simp [secondLo, h] at h3
    exact h3
  have k2 : b = 0xED → b1 ≤ 0x9F := by
    intro h
    simp [secondHi, h] at h4
    exact h4
  unfold encodeRune
  rw [if_neg (by omega), if_neg (by omega), if_neg (by omega), if_pos (by omega)]
  congr 1
  · omega
  · congr 1
    · omega
    · congr 1
      omega

theorem encodeRune_four (b b1 b2 b3 : Nat) (h1 : 0xF0 ≤ b) (h2 : b ≤ 0xF4)
    (h3 : secondLo b ≤ b1) (h4 : b1 ≤ secondHi b) (h5 : 0x80 ≤ b2) (h6 : b2 ≤ 0xBF)
    (h7 : 0x80 ≤ b3) (h8 : b3 ≤ 0xBF) :
    encodeRune (b % 8 * 262144 + b1 % 64 * 4096 + b2 % 64 * 64 + b3 % 64) = [b, b1, b2, b3] := by
  have l1 := secondLo_ge b
  have l2 := secondHi_le b
  have k1 : b = 0xF0 → 0x90 ≤ b1 := by
    intro h
    simp [secondLo, h] at h3
    exact h3
  have k2 : b = 0xF4 → b1 ≤ 0x8F := by
    intro h
    simp [secondHi, h] at h4
    exact h4
  unfold encodeRune
  rw [if_neg (by omega), if_neg (by omega), if_neg (by omega), if_neg (by omega)]
  congr 1
  · omega
  · congr 1
    · omega
    · congr 1
      · omega
      · congr 1
        omega

theorem uchunk_rune {w : GoString} {r k : Nat} (hk : 1 < k) (hl : w.length = k)
    (hd : ∀ t, decodeRune (w ++ t) = (r, k)) (he : encodeRune r = w) (hh : ∀ c ∈ w, 128 ≤ c) :
    UChunk w w := by
  intro t
  obtain ⟨c, w', rfl⟩ : ∃ c w', w = c :: w' := by
    cases w with
    | nil => simp at hl; omega
    | cons c w' => exact ⟨c, w', rfl⟩
  have hc : 128 ≤ c := hh c (by simp)
  have hd' := hd t
  simp only [List.cons_append] at hd' ⊢
  simp only [List.length_cons] at hl
  have q1 : c ≠ 92 := by omega
  have q2 : ¬ (c = 34 ∨ c < 32) := by omega
  have q3 : ¬ c < 128 := by omega
  have q4 : ¬ k ≤ 1 := by omega
  have q5 : (w' ++ t).drop (k - 1) = t := by
    rw [show k - 1 = w'.length by omega]
    simp
  simp only [unquoteStep, if_neg q1, if_neg q2, if_neg q3, hd', if_neg q4, he, q5]

theorem uchunk_linesep (b2 : Nat) (h : b2 = 0xA8 ∨ b2 = 0xA9) :
    UChunk [92, 117, 50, 48, 50, hexDigit ((226 % 16 * 4096 + 128 % 64 * 64 + b2 % 64) % 16)]
      [226, 128, b2] := by
  intro t
  rcases h with h | h <;> subst h <;>
    simp [unquoteStep, getu4, hexVal, hexDigit, encodeRune]

theorem validUTF8_ascii (b : Nat) (t : GoString) (hb : b < 128) :
    validUTF8 (b :: t) = validUTF8 t := by
  rw [validUTF8.eq_5 b t (by simp [decodeRune_ascii b t hb]) (by simp [decodeRune_ascii b t hb])
    (by simp [decodeRune_ascii b t hb]), if_pos hb]

/-- Unquoting what `json.Marshal` writes between the quotes of a string of
valid UTF-8 gives the string back. -/
theorem unquoteN_escapeBody (s : GoString) : validUTF8 s = true →
    ∀ n, (escapeBody s).length ≤ n → unquoteN n (escapeBody s) = some s := by
  induction s using escapeBody.induct with
  | case1 =>
    intro _ n _
    cases n <;> simp [escapeBody, unquoteN]
  | case2 b t hb ih =>
    intro hv
    rw [validUTF8_ascii b t hb] at hv
    rw [escapeBody_ascii b t hb]
    by_cases hs : htmlSafe b = true
    · rw [if_pos hs]
      simp only [htmlSafe, Bool.and_eq_true, decide_eq_true_eq, bne_iff_ne, ne_eq] at hs
      exact unquoteN_chunk (uchunk_ascii b (by omega) (by omega) (by omega) (by omega)) (by simp)
        (ih hv)
    · rw [if_neg hs]
      refine unquoteN_chunk (uchunk_escByte b hb) ?_ (ih hv)
      unfold Jackbox.escByte
      split_ifs <;> simp
  | case3 b hb b1 t1 h2 ih =>
    intro hv
    obtain ⟨c1, t', ht, r1, r2, r3, r4⟩ := (decodeRune_width b (b1 :: t1) hb).1 h2
    simp only [List.cons.injEq] at ht
    obtain ⟨e1, _⟩ := ht
    subst e1
    rw [validUTF8.eq_2 _ _ _ h2, if_neg hb] at hv
    rw [escapeBody.eq_2 _ _ _ h2, if_neg hb]
    refine unquoteN_chunk (uchunk_rune (w := [b, b1]) (by omega : 1 < 2) rfl
      (fun t => decodeRune_two_eq b b1 t r1 r2 r3 r4) (encodeRune_two b b1 r1 r2 r3 r4) ?_)
      (by simp) (ih hv)
    intro c hc
    simp at hc
    omega
  | case4 b hb b1 b2 t2 h3 ih =>
    intro hv
    obtain ⟨c1, c2, t', ht, r1, r2, r3, r4, r5, r6⟩ :=
      (decodeRune_width b (b1 :: b2 :: t2) hb).2.1 h3
    simp only [List.cons.injEq] at ht
    obtain ⟨e1, e2, _⟩ := ht
    subst e1 e2
    have l1 := secondLo_ge b
    have l2 := secondHi_le b
    have hls := rune3_linesep r1 r2 (by omega : 0x80 ≤ b1) (by omega : b1 ≤ 0xBF) r5 r6
    rw [validUTF8.eq_3 _ _ _ _ h3, if_neg hb] at hv
    rw [escapeBody.eq_3 _ _ _ _ h3, if_neg hb, decodeRune_three_eq b b1 b2 [] r1 r2 r3 r4 r5 r6]
    simp only []
    split_ifs with hr
    · have hb3 : b = 0xE2 ∧ b1 = 0x80 ∧ (b2 = 0xA8 ∨ b2 = 0xA9) := by omega
      obtain ⟨q1, q2, q3⟩ := hb3
      subst q1 q2
      exact unquoteN_chunk (uchunk_linesep b2 q3) (by simp) (ih hv)
    · refine unquoteN_chunk (uchunk_rune (w := [b, b1, b2]) (by omega : 1 < 3) rfl
        (fun t => decodeRune_three_eq b b1 b2 t r1 r2 r3 r4 r5 r6)
        (encodeRune_three b b1 b2 r1 r2 r3 r4 r5 r6) ?_) (by simp) (ih hv)
      intro c hc
      simp at hc
      omega
  | case5 b hb b1 b2 b3 t3 h4 ih =>
    intro hv
    obtain ⟨c1, c2, c3, t', ht, r1, r2, r3, r4, r5, r6, r7, r8⟩ :=
      (decodeRune_width b (b1 :: b2 :: b3 :: t3) hb).2.2 h4
    simp only [List.cons.injEq] at ht
    obtain ⟨e1, e2, e3, _⟩ := ht
    subst e1 e2 e3
    have l1 := secondLo_ge b
    have l2 := secondHi_le b
    rw [validUTF8.eq_4 _ _ _ _ _ h4, if_neg hb] at hv
    rw [escapeBody.eq_4 _ _ _ _ _ h4, if_neg hb]
    refine unquoteN_chunk (uchunk_rune (w := [b, b1, b2, b3]) (by omega : 1 < 4) rfl
      (fun t => decodeRune_four_eq b b1 b2 b3 t r1 r2 r3 r4 r5 r6 r7 r8)
      (encodeRune_four b b1 b2 b3 r1 r2 r3 r4 r5 r6 r7 r8) ?_) (by simp) (ih hv)
    intro c hc
    simp at hc
    omega
  | case6 b t hb n2 n3 n4 ih =>
    intro hv
    rw [validUTF8.eq_5 b t n2 n3 n4, if_neg hb] at hv
    cases hv

/-! ## Integers: formatted integers parse -/

theorem natDigits_form : ∀ (f n : Nat), n < f →
    (n = 0 ∧ natDigits f n = [48]) ∨
      (0 < n ∧ ∃ d ds, natDigits f n = d :: ds ∧ 49 ≤ d ∧ d ≤ 57 ∧ ∀ x ∈ ds, isDigit x = true)
  | 0, n, h => by omega
  | f + 1, n, h => by
    rw [natDigits]
    by_cases h10 : n < 10
    · rw [if_pos h10]
      by_cases h0 : n = 0
      · left
        exact ⟨h0, by simp [h0]⟩
      · right
        exact ⟨by omega, 48 + n, [], rfl, by omega, by omega, by simp⟩
    · rw [if_neg h10]
      right
      refine ⟨by omega, ?_⟩
      rcases natDigits_form f (n / 10) (by omega) with ⟨h0, _⟩ | ⟨_, d, ds, hd, h1, h2, h3⟩
      · omega
      · refine ⟨d, ds ++ [48 + n % 10], by simp [hd], h1, h2, ?_⟩
        intro x hx
        rcases List.mem_append.1 hx with hx | hx
        · exact h3 x hx
        · simp at hx
          subst hx
          simp [isDigit]
          omega

theorem parseDigits_natDigits : ∀ (f n : Nat), n < f → ∀ (acc : Option Nat) (tail : GoString),
    acc.getD 0 = 0 → parseDigits (natDigits f n ++ tail) acc = parseDigits tail (some n)
  | 0, n, h => by omega
  | f + 1, n, h => by
    intro acc tail hacc
    rw [natDigits]
    by_cases h10 : n < 10
    · rw [if_pos h10]
      have hd : isDigit (48 + n) = true := by simp [isDigit]; omega
      simp [parseDigits, hd, hacc]
    · rw [if_neg h10, List.append_assoc, parseDigits_natDigits f (n / 10) (by omega) acc _ hacc]
      have hd : isDigit (48 + n % 10) = true := by simp [isDigit]; omega
      simp only [List.singleton_append, parseDigits, hd, if_true, Option.getD_some]
      congr 2
      omega

theorem parseInt_formatInt (i : Int) (h1 : -(2 : Int) ^ 63 ≤ i) (h2 : i < (2 : Int) ^ 63) :
    parseInt (formatInt i) = some i := by
  unfold formatInt
  have hp := parseDigits_natDigits (i.natAbs + 1) i.natAbs (by omega) none [] rfl
  simp only [List.append_nil, parseDigits] at hp
  by_cases hneg : i < 0
  · rw [if_pos hneg]
    simp only [parseInt, if_true, hp]
    have : i.natAbs ≤ 2 ^ 63 := by omega
    rw [if_pos this]
    congr 1
    omega
  · rw [if_neg hneg]
    rcases natDigits_form (i.natAbs + 1) i.natAbs (by omega) with ⟨h0, hd⟩ | ⟨_, d, ds, hd, r1, r2, _⟩
    · have : i = 0 := by omega
      subst this
      decide
    · have hp' := hp
      rw [hd] at hp' ⊢
      have hne : d ≠ 45 := by omega
      simp only [parseInt, if_neg hne, hp']
      have : i.natAbs < 2 ^ 63 := by omega
      rw [if_pos this]
      congr 1
      omega

theorem spanDigits_append : ∀ (ds rest : GoString), (∀ x ∈ ds, isDigit x = true) →
    (∀ c t, rest = c :: t → isDigit c = false) → spanDigits (ds ++ rest) = (ds, rest)
  | [], rest, _, hr => by
    cases rest with
    | nil => rfl
    | cons c t => simp [spanDigits, hr c t rfl]
  | d :: ds, rest, hd, hr => by
    have h1 : isDigit d = true := hd d (by simp)
    have ih := spanDigits_append ds rest (fun x hx => hd x (by simp [hx])) hr
    simp [spanDigits, h1, ih]

/-! ## Compact JSON text -/

theorem skipWs_cons (c : Nat) (t : GoString) (h : isSpace c = false) : skipWs (c :: t) = c :: t := by
  simp [skipWs, h]

theorem spanOf_append (v rest : GoString) : spanOf (v ++ rest) rest = v := by
  simp [spanOf]

theorem scanValue_true (n : Nat) (rest : GoString) :
    scanValue (n + 1) (116 :: 114 :: 117 :: 101 :: rest)
      = some { tok := .bool true, out := [116, 114, 117, 101], rest := rest } := by
  simp [scanValue]

theorem scanValue_false (n : Nat) (rest : GoString) :
    scanValue (n + 1) (102 :: 97 :: 108 :: 115 :: 101 :: rest)
      = some { tok := .bool false, out := [102, 97, 108, 115, 101], rest := rest } := by
  simp [scanValue]

theorem scanValue_null (n : Nat) (rest : GoString) :
    scanValue (n + 1) (110 :: 117 :: 108 :: 108 :: rest)
      = some { tok := .null, out := [110, 117, 108, 108], rest := rest } := by
  simp [scanValue]

theorem scanValue_string (n : Nat) (t : GoString) :
    scanValue (n + 1) (34 :: t)
      = (scanStr t).map fun s => { tok := .str s.raw, out := 34 :: s.out ++ [34], rest := s.rest } := by
  simp [scanValue]

theorem scanValue_arr_empty (n : Nat) (t r : GoString) (h : skipWs t = 93 :: r) :
    scanValue (n + 1) (91 :: t) = some { tok := .arr [], out := [91, 93], rest := r } := by
  simp [scanValue, h]

theorem scanValue_arr (n : Nat) (t r : GoString) (d : Nat) (h : skipWs t = d :: r) (hd : d ≠ 93) :
    scanValue (n + 1) (91 :: t)
      = (scanElems n (d :: r)).map fun p =>
          { tok := .arr p.1, out := 91 :: p.2.1, rest := p.2.2 } := by
  simp [scanValue, h, hd]

theorem scanValue_obj_empty (n : Nat) (t r : GoString) (h : skipWs t = 125 :: r) :
    scanValue (n + 1) (123 :: t) = some { tok := .obj [], out := [123, 125], rest := r } := by
  simp [scanValue, h]

theorem scanValue_obj (n : Nat) (t r : GoString) (d : Nat) (h : skipWs t = d :: r) (hd : d ≠ 125) :
    scanValue (n + 1) (123 :: t)
      = (scanMembers n (d :: r)).map fun p =>
          { tok := .obj p.1, out := 123 :: p.2.1, rest := p.2.2 } := by
  simp [scanValue, h, hd]

theorem scanValue_num (n : Nat) (c : Nat) (t : GoString) (h : c = 45 ∨ isDigit c = true) :
    scanValue (n + 1) (c :: t)
      = (scanNum (c :: t)).map fun p => { tok := .num p.1, out := p.1, rest := p.2 } := by
  have hd : c = 45 ∨ (48 ≤ c ∧ c ≤ 57) := by
    rcases h with h | h
    · exact Or.inl h
    · right
      simpa [isDigit] using h
  have h1 : c ≠ 123 := by omega
  have h2 : c ≠ 91 := by omega
  have h3 : c ≠ 34 := by omega
  have h4 : c ≠ 116 := by omega
  have h5 : c ≠ 102 := by omega
  have h6 : c ≠ 110 := by omega
  simp [scanValue, h1, h2, h3, h4, h5, h6]

theorem scanElems_more {n : Nat} {t r : GoString} {v : Scan} (hv : scanValue n t = some v)
    (hr : skipWs v.rest = 44 :: r) :
    scanElems (n + 1) t
      = (scanElems n (skipWs r)).map fun p =>
          (spanOf t v.rest :: p.1, v.out ++ 44 :: p.2.1, p.2.2) := by
  rw [scanElems]
  simp [hv, hr]

theorem scanElems_last {n : Nat} {t r : GoString} {v : Scan} (hv : scanValue n t = some v)
    (hr : skipWs v.rest = 93 :: r) :
    scanElems (n + 1) t = some ([spanOf t v.rest], v.out ++ [93], r) := by
  rw [scanElems]
  simp [hv, hr]

theorem scanMembers_more {n : Nat} {t u r : GoString} {k : StrScan} {v : Scan}
    (hk : scanStr t = some k) (hc : skipWs k.rest = 58 :: u)
    (hv : scanValue n (skipWs u) = some v) (hr : skipWs v.rest = 44 :: r) :
    scanMembers (n + 1) (34 :: t)
      = (scanMembers n (skipWs r)).map fun p =>
          ((k.raw, spanOf (skipWs u) v.rest) :: p.1,
            34 :: k.out ++ 34 :: 58 :: v.out ++ 44 :: p.2.1, p.2.2) := by
  rw [scanMembers]
  simp [hk, hc, hv, hr]

theorem scanMembers_last {n : Nat} {t u r : GoString} {k : StrScan} {v : Scan}
    (hk : scanStr t = some k) (hc : skipWs k.rest = 58 :: u)
    (hv : scanValue n (skipWs u) = some v) (hr : skipWs v.rest = 125 :: r) :
    scanMembers (n + 1) (34 :: t)
      = some ([(k.raw, spanOf (skipWs u) v.rest)],
          34 :: k.out ++ 34 :: 58 :: v.out ++ [125], r) := by
  rw [scanMembers]
  simp [hk, hc, hv, hr]

theorem scanNum_head {c : Nat} {t : GoString} {p : GoString × GoString}
    (h : scanNum (c :: t) = some p) : c = 45 ∨ isDigit c = true := by
  by_cases hc : c = 45
  · exact Or.inl hc
  · right
    simp only [scanNum, if_neg hc, scanInt] at h
    split_ifs at h with h1 h2
    · simp [isDigit, h1]
    · simp [isDigit]; omega

theorem scanValue_head {n : Nat} {c : Nat} {t : GoString} {v : Scan}
    (h : scanValue n (c :: t) = some v) : isValueStart c = true := by
  cases n with
  | zero => simp [scanValue] at h
  | succ n =>
    by_cases h1 : c = 123
    · subst h1; rfl
    by_cases h2 : c = 91
    · subst h2; rfl
    by_cases h3 : c = 34
    · subst h3; rfl
    by_cases h4 : c = 116
    · subst h4; rfl
    by_cases h5 : c = 102
    · subst h5; rfl
    by_cases h6 : c = 110
    · subst h6; rfl
    simp only [scanValue, if_neg h1, if_neg h2, if_neg h3, if_neg h4, if_neg h5, if_neg h6] at h
    cases hs : scanNum (c :: t) with
    | none => simp [hs] at h
    | some p =>
      rcases scanNum_head hs with h7 | h7
      · subst h7; rfl
      · simp [isValueStart, h7]

theorem isValueStart_facts {c : Nat} (h : isValueStart c = true) :
    isSpace c = false ∧ c ≠ 93 ∧ c ≠ 125 ∧ c ≠ 44 ∧ c ≠ 58 := by
  simp only [isValueStart, isDigit, Bool.or_eq_true, decide_eq_true_eq, Bool.and_eq_true] at h
  simp only [isSpace, Bool.or_eq_false_iff, decide_eq_false_iff_not]
  omega

theorem clean_head {v : GoString} {tok : JTok} (h : Clean v tok) :
    ∃ c v', v = c :: v' ∧ isValueStart c = true := by
  have h0 := h (v.length + 1) [] (by omega) (Or.inl rfl)
  cases v with
  | nil => simp [scanValue] at h0
  | cons c v' =>
    simp only [List.append_nil] at h0
    exact ⟨c, v', rfl, scanValue_head h0⟩

theorem clean_noSpace {v : GoString} {tok : JTok} (h : Clean v tok) (rest : GoString) :
    skipWs (v ++ rest) = v ++ rest := by
  obtain ⟨c, v', rfl, hc⟩ := clean_head h
  exact skipWs_cons c _ (isValueStart_facts hc).1

theorem clean_scanTop {v : GoString} {tok : JTok} (h : Clean v tok) :
    scanTop v = some { tok := tok, out := v, rest := [] } := by
  have h0 := h (v.length + 1) [] (by omega) (Or.inl rfl)
  have hs := clean_noSpace h []
  simp only [List.append_nil] at h0 hs
  simp [scanTop, hs, h0, skipWs]

theorem clean_tokOf {v : GoString} {tok : JTok} (h : Clean v tok) : tokOf v = some tok := by
  simp [tokOf, clean_scanTop h]

theorem clean_compact {v : GoString} {tok : JTok} (h : Clean v tok)
    (hd : nesting v ≤ maxNestingDepth) : compact v = some v := by
  simp [compact, clean_scanTop h, Scan.nesting, hd]

theorem clean_valid {v : GoString} {tok : JTok} (h : Clean v tok)
    (hd : nesting v ≤ maxNestingDepth) : validJSON v = true := by
  simp [validJSON, clean_scanTop h, Scan.nesting, hd]

theorem cleanElems_last {v : GoString} {tok : JTok} (h : Clean v tok) :
    CleanElems (v ++ [93]) [v] := by
  obtain ⟨c, v', hv, hc⟩ := clean_head h
  refine ⟨⟨c, v' ++ [93], by simp [hv], hc⟩, ?_⟩
  intro n rest hn
  simp only [List.length_append, List.length_singleton] at hn
  obtain ⟨m, rfl⟩ : ∃ m, n = m + 1 := ⟨n - 1, by omega⟩
  have hs := h m (93 :: rest) (by omega) (Or.inr ⟨93, rest, rfl, by simp⟩)
  rw [List.append_assoc, List.singleton_append,
    scanElems_last hs (skipWs_cons 93 rest (by decide))]
  simp [spanOf_append]

theorem cleanElems_cons {v out : GoString} {tok : JTok} {spans : List GoString}
    (h : Clean v tok) (ho : CleanElems out spans) : CleanElems (v ++ 44 :: out) (v :: spans) := by
  obtain ⟨c, v', hv, hc⟩ := clean_head h
  obtain ⟨⟨c2, o2, ho2, hc2⟩, hscan⟩ := ho
  refine ⟨⟨c, v' ++ 44 :: out, by simp [hv], hc⟩, ?_⟩
  intro n rest hn
  simp only [List.length_append, List.length_cons] at hn
  obtain ⟨m, rfl⟩ : ∃ m, n = m + 1 := ⟨n - 1, by omega⟩
  have hs := h m (44 :: (out ++ rest)) (by omega) (Or.inr ⟨44, out ++ rest, rfl, by simp⟩)
  have hsk : skipWs (out ++ rest) = out ++ rest := by
    rw [ho2]
    exact skipWs_cons c2 _ (isValueStart_facts hc2).1
  rw [List.append_assoc, List.cons_append,
    scanElems_more hs (skipWs_cons 44 (out ++ rest) (by decide)), hsk, hscan m rest (by omega)]
  simp [spanOf_append]

theorem clean_arr {out : GoString} {spans : List GoString} (h : CleanElems out spans) :
    Clean (91 :: out) (.arr spans) := by
  obtain ⟨⟨c, o, ho, hc⟩, hscan⟩ := h
  intro n rest hn _
  simp only [List.length_cons] at hn
  obtain ⟨m, rfl⟩ : ∃ m, n = m + 1 := ⟨n - 1, by omega⟩
  have hsk : skipWs (out ++ rest) = c :: (o ++ rest) := by
    rw [ho]
    exact skipWs_cons c _ (isValueStart_facts hc).1
  have hsc := hscan m rest (by omega)
  rw [ho] at hsc
  rw [List.cons_append, scanValue_arr m _ _ c hsk (isValueStart_facts hc).2.1]
  simp only [List.cons_append] at hsc
  rw [hsc]
  simp [ho]

theorem clean_arr_empty : Clean [91, 93] (.arr []) := by
  intro n rest hn _
  obtain ⟨m, rfl⟩ : ∃ m, n = m + 1 := ⟨n - 1, by simp at hn; omega⟩
  exact scanValue_arr_empty m _ rest (skipWs_cons 93 rest (by decide))

theorem cleanMembers_last {k v : GoString} {tok : JTok} (hk : CleanKey k) (h : Clean v tok) :
    CleanMembers (34 :: k ++ 34 :: 58 :: v ++ [125]) [(k, v)] := by
  refine ⟨⟨_, rfl⟩, ?_⟩
  intro n rest hn
  simp only [List.length_append, List.length_cons, List.length_singleton, List.length_nil] at hn
  obtain ⟨m, rfl⟩ : ∃ m, n = m + 1 := ⟨n - 1, by omega⟩
  have hks := hk (58 :: (v ++ 125 :: rest))
  have hs := h m (125 :: rest) (by omega) (Or.inr ⟨125, rest, rfl, by simp⟩)
  have e : (34 :: k ++ 34 :: 58 :: v ++ [125]) ++ rest
      = 34 :: (k ++ 34 :: (58 :: (v ++ 125 :: rest))) := by simp
  rw [e, scanMembers_last (u := v ++ 125 :: rest) (v := { tok := tok, out := v, rest := 125 :: rest })
    (r := rest) hks (skipWs_cons 58 _ (by decide)) (by rw [clean_noSpace h]; exact hs)
    (skipWs_cons 125 rest (by decide))]
  simp [clean_noSpace h, spanOf_append]

theorem cleanMembers_cons {k v out : GoString} {tok : JTok} {ms : List (GoString × GoString)}
    (hk : CleanKey k) (h : Clean v tok) (ho : CleanMembers out ms) :
    CleanMembers (34 :: k ++ 34 :: 58 :: v ++ 44 :: out) ((k, v) :: ms) := by
  obtain ⟨⟨o, ho2⟩, hscan⟩ := ho
  refine ⟨⟨_, rfl⟩, ?_⟩
  intro n rest hn
  simp only [List.length_append, List.length_cons] at hn
  obtain ⟨m, rfl⟩ : ∃ m, n = m + 1 := ⟨n - 1, by omega⟩
  have hks := hk (58 :: (v ++ 44 :: (out ++ rest)))
  have hs := h m (44 :: (out ++ rest)) (by omega) (Or.inr ⟨44, out ++ rest, rfl, by simp⟩)
  have hsk : skipWs (out ++ rest) = out ++ rest := by
    rw [ho2]
    exact skipWs_cons 34 _ (by decide)
  have e : (34 :: k ++ 34 :: 58 :: v ++ 44 :: out) ++ rest
      = 34 :: (k ++ 34 :: (58 :: (v ++ 44 :: (out ++ rest)))) := by simp
  rw [e, scanMembers_more (u := v ++ 44 :: (out ++ rest))
    (v := { tok := tok, out := v, rest := 44 :: (out ++ rest) })
    (r := out ++ rest) hks (skipWs_cons 58 _ (by decide))
    (by rw [clean_noSpace h]; simpa using hs)
    (skipWs_cons 44 _ (by decide)), hsk, hscan m rest (by omega)]
  simp [clean_noSpace h, spanOf_append]

theorem clean_obj {out : GoString} {ms : List (GoString × GoString)} (h : CleanMembers out ms) :
    Clean (123 :: out) (.obj ms) := by
  obtain ⟨⟨o, ho⟩, hscan⟩ := h
  intro n rest hn _
  simp only [List.length_cons] at hn
  obtain ⟨m, rfl⟩ : ∃ m, n = m + 1 := ⟨n - 1, by omega⟩
  have hsk : skipWs (out ++ rest) = 34 :: (o ++ rest) := by
    rw [ho]
    exact skipWs_cons 34 _ (by decide)
  have hsc := hscan m rest (by omega)
  rw [ho] at hsc
  rw [List.cons_append, scanValue_obj m _ _ 34 hsk (by decide)]
  simp only [List.cons_append] at hsc
  rw [hsc]
  simp [ho]

theorem clean_obj_empty : Clean [123, 125] (.obj []) := by
  intro n rest hn _
  obtain ⟨m, rfl⟩ : ∃ m, n = m + 1 := ⟨n - 1, by simp at hn; omega⟩
  exact scanValue_obj_empty m _ rest (skipWs_cons 125 rest (by decide))

/-! ## Marshal then unmarshal -/

theorem scanStr_escapeBody (s rest : GoString) :
    scanStr (escapeBody s ++ 34 :: rest)
      = some { raw := escapeBody s, out := escapeBody s, rest := rest } := by
  unfold scanStr
  exact scanStrN_escapeBody s _ rest (by simp)

theorem cleanKey_escapeBody (s : GoString) : CleanKey (escapeBody s) :=
  fun rest => scanStr_escapeBody s rest

theorem unquote_escapeBody (s : GoString) (h : validUTF8 s = true) :
    unquote (escapeBody s) = some s :=
  unquoteN_escapeBody s h _ (Nat.le_refl _)

theorem clean_string (s : GoString) : Clean (marshalString s) (.str (escapeBody s)) := by
  intro n rest hn _
  obtain ⟨m, rfl⟩ : ∃ m, n = m + 1 := ⟨n - 1, by omega⟩
  simp only [marshalString, List.cons_append, List.append_assoc, List.singleton_append]
  rw [scanValue_string, scanStr_escapeBody]
  rfl

theorem clean_bool (b : Bool) : Clean (marshalBool b) (.bool b) := by
  intro n rest hn _
  obtain ⟨m, rfl⟩ : ∃ m, n = m + 1 := ⟨n - 1, by omega⟩
  cases b
  · exact scanValue_false m rest
  · exact scanValue_true m rest

theorem clean_null : Clean (lit "null") .null := by
  intro n rest hn _
  obtain ⟨m, rfl⟩ : ∃ m, n = m + 1 := ⟨n - 1, by omega⟩
  exact scanValue_null m rest

theorem scanExp_delim (rest : GoString) (h : Delim rest) : scanExp rest = some ([], rest) := by
  rcases h with h | ⟨c, t, h, hc⟩
  · subst h
    rfl
  · subst h
    have h1 : ¬ (c = 101 ∨ c = 69) := by omega
    simp [scanExp, h1]

theorem scanFrac_delim (rest : GoString) (h : Delim rest) : scanFrac rest = some ([], rest) := by
  have he := scanExp_delim rest h
  rcases h with h | ⟨c, t, h, hc⟩
  · subst h
    rfl
  · subst h
    have h1 : c ≠ 46 := by omega
    simp [scanFrac, h1, he]

theorem delim_not_digit {rest : GoString} (h : Delim rest) :
    ∀ c t, rest = c :: t → isDigit c = false := by
  intro c t hr
  rcases h with h | ⟨c', t', h, hc⟩
  · rw [h] at hr
    cases hr
  · rw [h] at hr
    cases hr
    simp [isDigit]
    omega

theorem scanInt_natDigits (f n : Nat) (hf : n < f) (rest : GoString) (h : Delim rest) :
    scanInt (natDigits f n ++ rest) = some (natDigits f n, rest) := by
  rcases natDigits_form f n hf with ⟨_, hd⟩ | ⟨_, d, ds, hd, r1, r2, r3⟩
  · rw [hd]
    simp [scanInt, scanFrac_delim rest h]
  · rw [hd]
    have h48 : d ≠ 48 := by omega
    simp [scanInt, h48, r1, r2, spanDigits_append ds rest r3 (delim_not_digit h),
      scanFrac_delim rest h]

theorem scanNum_formatInt (i : Int) (rest : GoString) (h : Delim rest) :
    scanNum (formatInt i ++ rest) = some (formatInt i, rest) := by
  unfold formatInt
  by_cases hneg : i < 0
  · rw [if_pos hneg]
    simp [scanNum, scanInt_natDigits _ _ (Nat.lt_succ_self _) rest h]
  · rw [if_neg hneg]
    rcases natDigits_form (i.natAbs + 1) i.natAbs (by omega) with ⟨_, hd⟩ | ⟨_, d, ds, hd, r1, r2, r3⟩
    · have hs := scanInt_natDigits (i.natAbs + 1) i.natAbs (by omega) rest h
      rw [hd] at hs ⊢
      simpa [scanNum] using hs
    · have hs := scanInt_natDigits (i.natAbs + 1) i.natAbs (by omega) rest h
      rw [hd] at hs ⊢
      have : d ≠ 45 := by omega
      simpa [scanNum, this] using hs

theorem formatInt_head (i : Int) : ∃ c t, formatInt i = c :: t ∧ (c = 45 ∨ isDigit c = true) := by
  unfold formatInt
  by_cases hneg : i < 0
  · rw [if_pos hneg]
    exact ⟨45, _, rfl, Or.inl rfl⟩
  · rw [if_neg hneg]
    rcases natDigits_form (i.natAbs + 1) i.natAbs (by omega) with ⟨_, hd⟩ | ⟨_, d, ds, hd, r1, r2, r3⟩
    · exact ⟨48, [], hd, Or.inr (by decide)⟩
    · refine ⟨d, ds, hd, Or.inr ?_⟩
      simp [isDigit]
      omega

theorem clean_int (i : Int) : Clean (formatInt i) (.num (formatInt i)) := by
  intro n rest hn hd
  obtain ⟨m, rfl⟩ : ∃ m, n = m + 1 := ⟨n - 1, by omega⟩
  obtain ⟨c, t, hc, hh⟩ := formatInt_head i
  have hs := scanNum_formatInt i rest hd
  rw [hc] at hs ⊢
  rw [List.cons_append] at hs ⊢
  rw [scanValue_num m c _ hh, hs]
  rfl

theorem cleanMembers_marshal : ∀ (fs : List (GoString × GoString)), fs ≠ [] →
    (∀ kv ∈ fs, ∃ tok, Clean kv.2 tok) →
    CleanMembers (joinWith 44 (fs.map marshalMember) ++ [125]) (memberToks fs)
  | [], h, _ => absurd rfl h
  | [kv], _, hc => by
    obtain ⟨tok, ht⟩ := hc kv (by simp)
    have := cleanMembers_last (cleanKey_escapeBody kv.1) ht
    simpa [joinWith, marshalMember, marshalString, memberToks] using this
  | kv :: kv2 :: fs, _, hc => by
    obtain ⟨tok, ht⟩ := hc kv (by simp)
    have ih := cleanMembers_marshal (kv2 :: fs) (by simp) (fun x hx => hc x (by simp [hx]))
    have := cleanMembers_cons (cleanKey_escapeBody kv.1) ht ih
    simpa [joinWith, marshalMember, marshalString, memberToks] using this

theorem clean_object (fs : List (GoString × GoString))
    (hc : ∀ kv ∈ fs, ∃ tok, Clean kv.2 tok) :
    Clean (marshalObject fs) (.obj (memberToks fs)) := by
  cases fs with
  | nil => exact clean_obj_empty
  | cons kv fs => exact clean_obj (cleanMembers_marshal (kv :: fs) (by simp) hc)

theorem cleanElems_marshal : ∀ (xs : List GoString), xs ≠ [] →
    (∀ x ∈ xs, ∃ tok, Clean x tok) → CleanElems (joinWith 44 xs ++ [93]) xs
  | [], h, _ => absurd rfl h
  | [x], _, hc => by
    obtain ⟨tok, ht⟩ := hc x (by simp)
    simpa [joinWith] using cleanElems_last ht
  | x :: y :: xs, _, hc => by
    obtain ⟨tok, ht⟩ := hc x (by simp)
    have ih := cleanElems_marshal (y :: xs) (by simp) (fun z hz => hc z (by simp [hz]))
    simpa [joinWith] using cleanElems_cons ht ih

theorem clean_array (xs : List GoString) (hc : ∀ x ∈ xs, ∃ tok, Clean x tok) :
    Clean (marshalArray xs) (.arr xs) := by
  cases xs with
  | nil => exact clean_arr_empty
  | cons x xs => exact clean_arr (cleanElems_marshal (x :: xs) (by simp) hc)

theorem allClean_mem : ∀ {fs : List (GoString × GoString)}, AllClean fs →
    ∀ kv ∈ fs, ∃ tok, Clean kv.2 tok
  | [], _, kv, h => by cases h
  | x :: r, ⟨h1, h2⟩, kv, h => by
    rcases List.mem_cons.1 h with h | h
    · subst h; exact h1
    · exact allClean_mem h2 kv h

theorem tokOf_object (fs : List (GoString × GoString)) (h : AllClean fs) :
    tokOf (marshalObject fs) = some (.obj (memberToks fs)) :=
  clean_tokOf (clean_object fs (allClean_mem h))

theorem decodeMembers_step {σ : Type} (names : List GoString)
    (assign : Nat → GoString → σ → σ × Bool) (k v : GoString) (ms : List (GoString × GoString))
    (acc : σ × Bool) (i : Nat) (hk : validUTF8 k = true) (hf : findField names k = some i) :
    decodeMembers names assign ((escapeBody k, v) :: ms) acc
      = decodeMembers names assign ms ((assign i v acc.1).1, acc.2 && (assign i v acc.1).2) := by
  rw [decodeMembers]
  simp only [unquote_escapeBody k hk, hf]

theorem decodeString_marshal (s cur : GoString) (h : validUTF8 s = true) :
    decodeString (marshalString s) cur = (s, true) := by
  simp only [decodeString, clean_tokOf (clean_string s), unquote_escapeBody s h]

theorem decodeBool_marshal (b cur : Bool) : decodeBool (marshalBool b) cur = (b, true) := by
  simp only [decodeBool, clean_tokOf (clean_bool b)]

theorem decodeInt_marshal (i cur : Int) (h1 : -(2 : Int) ^ 63 ≤ i) (h2 : i < (2 : Int) ^ 63) :
    decodeInt (formatInt i) cur = (i, true) := by
  simp only [decodeInt, clean_tokOf (clean_int i), parseInt_formatInt i h1 h2]

theorem allClean_action (a : jbMsgAction) : AllClean a.members :=
  ⟨⟨_, clean_string _⟩, ⟨_, clean_string _⟩, ⟨_, clean_string _⟩, ⟨_, clean_string _⟩,
    ⟨_, clean_string _⟩, trivial⟩

theorem unmarshal_clean {σ : Type} (dec : GoString → σ → σ × Bool) {v : GoString} {tok : JTok}
    (hc : Clean v tok) (hn : nesting v ≤ maxNestingDepth) (cur x : σ)
    (hd : dec v cur = (x, true)) :
    unmarshal dec v cur = (x, none) := by
  simp [unmarshal, clean_valid hc hn, hd]

theorem clean_action (a : jbMsgAction) : ∃ tok, Clean (marshalAction a) tok :=
  ⟨_, clean_object _ (allClean_mem (allClean_action a))⟩

theorem allClean_result (r : jbMsgResult) :
    AllClean [(lit "type", marshalString r.Typ), (lit "action", marshalString r.Action),
     (lit "success", marshalBool r.Success), (lit "initial", marshalBool r.Initial),
     (lit "roomId", marshalString r.RoomID), (lit "joinType", marshalString r.JoinType),
     (lit "userId", marshalString r.UserID)] :=
  ⟨⟨_, clean_string _⟩, ⟨_, clean_string _⟩, ⟨_, clean_bool _⟩, ⟨_, clean_bool _⟩,
    ⟨_, clean_string _⟩, ⟨_, clean_string _⟩, ⟨_, clean_string _⟩, trivial⟩

theorem clean_result (r : jbMsgResult) : ∃ tok, Clean (marshalResult r) tok :=
  ⟨_, clean_object _ (allClean_mem (allClean_result r))⟩

theorem allClean_options (o : jbMsgActionJoinRoomOptions) :
    AllClean [(lit "roomcode", marshalString o.RoomCode), (lit "name", marshalString o.Name)] :=
  ⟨⟨_, clean_string _⟩, ⟨_, clean_string _⟩, trivial⟩

theorem clean_options (o : jbMsgActionJoinRoomOptions) :
    ∃ tok, Clean (marshalJoinRoomOptions o) tok :=
  ⟨_, clean_object _ (allClean_mem (allClean_options o))⟩

theorem decodeJoinRoomOptions_marshal (o cur : jbMsgActionJoinRoomOptions) (h : o.Valid) :
    decodeJoinRoomOptions (marshalJoinRoomOptions o) cur = (o, true) := by
  obtain ⟨h1, h2⟩ := h
  unfold decodeJoinRoomOptions decodeStruct marshalJoinRoomOptions
  rw [tokOf_object _ (allClean_options o)]
  simp only [memberToks, List.map]
  rw [decodeMembers_step _ _ _ _ _ _ 0 (by decide) (by decide),
    decodeMembers_step _ _ _ _ _ _ 1 (by decide) (by decide)]
  simp only [decodeMembers, jbMsgActionJoinRoomOptions.assign, decodeString_marshal _ _ h1,
    decodeString_marshal _ _ h2, Bool.and_self]

theorem allClean_joinRoom (a : jbMsgActionJoinRoom) :
    AllClean (a.tojbMsgAction.members ++
      [(lit "joinType", marshalString a.JoinType), (lit "name", marshalString a.Name),
       (lit "options", marshalJoinRoomOptions a.Options)]) :=
  ⟨⟨_, clean_string _⟩, ⟨_, clean_string _⟩, ⟨_, clean_string _⟩, ⟨_, clean_string _⟩,
    ⟨_, clean_string _⟩, ⟨_, clean_string _⟩, ⟨_, clean_string _⟩, clean_options _, trivial⟩

theorem clean_joinRoom (a : jbMsgActionJoinRoom) : ∃ tok, Clean (marshalJoinRoom a) tok :=
  ⟨_, clean_object _ (allClean_mem (allClean_joinRoom a))⟩

theorem decodeJoinRoom_marshal (a cur : jbMsgActionJoinRoom) (h : a.Valid) :
    decodeJoinRoom (marshalJoinRoom a) cur = (a, true) := by
  obtain ⟨⟨h1, h2, h3, h4, h5⟩, h6, h7, h8⟩ := h
  unfold decodeJoinRoom decodeStruct marshalJoinRoom
  rw [tokOf_object _ (allClean_joinRoom a)]
  simp only [jbMsgAction.members, memberToks, List.map, List.cons_append, List.nil_append]
  rw [decodeMembers_step _ _ _ _ _ _ 0 (by decide) (by decide),
    decodeMembers_step _ _ _ _ _ _ 1 (by decide) (by decide),
    decodeMembers_step _ _ _ _ _ _ 2 (by decide) (by decide),
    decodeMembers_step _ _ _ _ _ _ 3 (by decide) (by decide),
    decodeMembers_step _ _ _ _ _ _ 4 (by decide) (by decide),
    decodeMembers_step _ _ _ _ _ _ 5 (by decide) (by decide),
    decodeMembers_step _ _ _ _ _ _ 6 (by decide) (by decide),
    decodeMembers_step _ _ _ _ _ _ 7 (by decide) (by decide)]
  simp only [decodeMembers, jbMsgActionJoinRoom.assign, decodeString_marshal _ _ h1,
    decodeString_marshal _ _ h2, decodeString_marshal _ _ h3, decodeString_marshal _ _ h4,
    decodeString_marshal _ _ h5, decodeString_marshal _ _ h6, decodeString_marshal _ _ h7,
    decodeJoinRoomOptions_marshal _ _ h8, Bool.and_self]

/-! ### Slices and raw messages -/

theorem decodeElems_marshal {α : Type} (elem : GoString → α → α × Bool) (zero : α)
    (f : α → GoString) : ∀ (l : List α) (cur : List α),
    (∀ x ∈ l, ∀ c, elem (f x) c = (x, true)) →
    decodeElems elem zero (l.map f) cur = l.map fun x => (x, true)
  | [], _, _ => by simp [decodeElems]
  | x :: l, [], h => by
    simp only [List.map, decodeElems, h x (by simp)]
    rw [decodeElems_marshal elem zero f l [] (fun y hy => h y (by simp [hy]))]
  | x :: l, c :: cur, h => by
    simp only [List.map, decodeElems, h x (by simp)]
    rw [decodeElems_marshal elem zero f l cur (fun y hy => h y (by simp [hy]))]

theorem clean_slice {α : Type} (f : α → GoString) (xs : Option (List α))
    (hc : ∀ l, xs = some l → ∀ x ∈ l, ∃ tok, Clean (f x) tok) :
    ∃ tok, Clean (marshalSlice f xs) tok := by
  cases xs with
  | none => exact ⟨_, clean_null⟩
  | some l =>
    refine ⟨_, clean_array (l.map f) ?_⟩
    intro y hy
    obtain ⟨x, hx, rfl⟩ := List.mem_map.1 hy
    exact hc l rfl x hx

theorem map_fst_ok {α : Type} : ∀ (l : List α),
    (l.map fun x => (x, true)).map (fun p => p.1) = l
  | [] => rfl
  | x :: l => by simp [map_fst_ok l]

theorem all_snd_ok {α : Type} : ∀ (l : List α),
    (l.map fun x => (x, true)).all (fun p => p.2) = true
  | [] => rfl
  | x :: l => by simp [all_snd_ok l]

theorem decodeSlice_marshal {α : Type} (elem : GoString → α → α × Bool) (zero : α)
    (f : α → GoString) (xs cur : Option (List α))
    (hc : ∀ l, xs = some l → ∀ x ∈ l, ∃ tok, Clean (f x) tok)
    (hd : ∀ l, xs = some l → ∀ x ∈ l, ∀ c, elem (f x) c = (x, true)) :
    decodeSlice elem zero (marshalSlice f xs) cur = (xs, true) := by
  cases xs with
  | none => simp only [decodeSlice, marshalSlice, clean_tokOf clean_null]
  | some l =>
    have hcl : Clean (marshalArray (l.map f)) (.arr (l.map f)) := by
      refine clean_array (l.map f) ?_
      intro y hy
      obtain ⟨x, hx, rfl⟩ := List.mem_map.1 hy
      exact hc l rfl x hx
    simp only [decodeSlice, marshalSlice, clean_tokOf hcl,
      decodeElems_marshal elem zero f l _ (hd l rfl)]
    rw [map_fst_ok, all_snd_ok]

theorem decodeRaw_clean {v : GoString} {tok : JTok} (h : Clean v tok) (cur : RawMessage) :
    decodeRaw v cur = (some v, true) := by
  have hs := clean_noSpace h []
  simp only [List.append_nil] at hs
  simp [decodeRaw, clean_scanTop h, hs, spanOf]

theorem allClean_point (p : Point) :
    AllClean [(lit "x", formatInt p.X), (lit "y", formatInt p.Y)] :=
  ⟨⟨_, clean_int _⟩, ⟨_, clean_int _⟩, trivial⟩

theorem clean_point (p : Point) : ∃ tok, Clean (marshalPoint p) tok :=
  ⟨_, clean_object _ (allClean_mem (allClean_point p))⟩

theorem decodePoint_marshal (p cur : Point) (h : p.Valid) :
    decodePoint (marshalPoint p) cur = (p, true) := by
  obtain ⟨h1, h2⟩ := h
  unfold decodePoint decodeStruct marshalPoint
  rw [tokOf_object _ (allClean_point p)]
  simp only [memberToks, List.map]
  rw [decodeMembers_step _ _ _ _ _ _ 0 (by decide) (by decide),
    decodeMembers_step _ _ _ _ _ _ 1 (by decide) (by decide)]
  simp only [decodeMembers, Point.assign, decodeInt_marshal _ _ h1.1 h1.2,
    decodeInt_marshal _ _ h2.1 h2.2, Bool.and_self]

theorem allClean_pictureLine (l : PictureLine) :
    AllClean [(lit "thickness", formatInt l.Thickness), (lit "color", marshalString l.Color),
     (lit "points", marshalSlice marshalPoint l.Points)] :=
  ⟨⟨_, clean_int _⟩, ⟨_, clean_string _⟩,
    clean_slice marshalPoint l.Points (fun _ _ x _ => clean_point x), trivial⟩

theorem clean_pictureLine (l : PictureLine) : ∃ tok, Clean (marshalPictureLine l) tok :=
  ⟨_, clean_object _ (allClean_mem (allClean_pictureLine l))⟩

theorem decodePictureLine_marshal (l cur : PictureLine) (h : l.Valid) :
    decodePictureLine (marshalPictureLine l) cur = (l, true) := by
  obtain ⟨h1, h2, h3⟩ := h
  unfold decodePictureLine decodeStruct marshalPictureLine
  rw [tokOf_object _ (allClean_pictureLine l)]
  simp only [memberToks, List.map]
  rw [decodeMembers_step _ _ _ _ _ _ 0 (by decide) (by decide),
    decodeMembers_step _ _ _ _ _ _ 1 (by decide) (by decide),
    decodeMembers_step _ _ _ _ _ _ 2 (by decide) (by decide)]
  simp only [decodeMembers, PictureLine.assign, decodeInt_marshal _ _ h1.1 h1.2,
    decodeString_marshal _ _ h2,
    decodeSlice_marshal decodePoint Point.zero marshalPoint l.Points _
      (fun _ _ x _ => clean_point x) (fun ps hps x hx c => decodePoint_marshal x c (h3 ps hps x hx)),
    Bool.and_self]

theorem decodePictureLines_marshal (pl cur : Option (List PictureLine)) (h : validDrawing pl) :
    decodePictureLines (marshalSlice marshalPictureLine pl) cur = (pl, true) :=
  decodeSlice_marshal decodePictureLine PictureLine.zero marshalPictureLine pl cur
    (fun _ _ x _ => clean_pictureLine x)
    (fun ls hls x hx c => decodePictureLine_marshal x c (h ls hls x hx))

theorem allClean_setPlayerPicture (p : jbOwnerMsgSetPlayerPicture) :
    AllClean [(lit "setPlayerPicture", marshalBool p.SetPlayerPicture),
     (lit "pictureLines", marshalSlice marshalPictureLine p.PictureLines)] :=
  ⟨⟨_, clean_bool _⟩,
    clean_slice marshalPictureLine p.PictureLines (fun _ _ x _ => clean_pictureLine x), trivial⟩

theorem clean_setPlayerPicture (p : jbOwnerMsgSetPlayerPicture) :
    ∃ tok, Clean (marshalSetPlayerPicture p) tok :=
  ⟨_, clean_object _ (allClean_mem (allClean_setPlayerPicture p))⟩

theorem decodeSetPlayerPicture_marshal (p cur : jbOwnerMsgSetPlayerPicture)
    (h : validDrawing p.PictureLines) :
    decodeSetPlayerPicture (marshalSetPlayerPicture p) cur = (p, true) := by
  unfold decodeSetPlayerPicture decodeStruct marshalSetPlayerPicture
  rw [tokOf_object _ (allClean_setPlayerPicture p)]
  simp only [memberToks, List.map]
  rw [decodeMembers_step _ _ _ _ _ _ 0 (by decide) (by decide),
    decodeMembers_step _ _ _ _ _ _ 1 (by decide) (by decide)]
  simp only [decodeMembers, jbOwnerMsgSetPlayerPicture.assign, decodeBool_marshal,
    decodePictureLines_marshal _ _ h, Bool.and_self]

theorem marshalRaw_clean {v : GoString} {tok : JTok} (h : Clean v tok)
    (hd : nesting v ≤ maxNestingDepth) : marshalRaw (some v) = some v := by
  simp [marshalRaw, clean_compact h hd]

theorem allClean_sendMsg (a : jbMsgAction) {m : GoString} {tok : JTok} (hm : Clean m tok) :
    AllClean (a.members ++ [(lit "message", m)]) :=
  ⟨⟨_, clean_string _⟩, ⟨_, clean_string _⟩, ⟨_, clean_string _⟩, ⟨_, clean_string _⟩,
    ⟨_, clean_string _⟩, ⟨_, hm⟩, trivial⟩

theorem marshalSendMsgToRoomOwner_clean (a : jbMsgAction) {m : GoString} {tok : JTok}
    (hm : Clean m tok) (hd : nesting m ≤ maxNestingDepth) :
    marshalSendMsgToRoomOwner { a with Message := some m }
      = some (marshalObject (a.members ++ [(lit "message", m)])) := by
  simp [marshalSendMsgToRoomOwner, marshalRaw_clean hm hd]

theorem decodeSendMsgToRoomOwner_marshal (a : jbMsgAction) {m : GoString} {tok : JTok}
    (hm : Clean m tok) (cur : jbMsgActionSendMsgToRoomOwner) (h : a.Valid) :
    decodeSendMsgToRoomOwner (marshalObject (a.members ++ [(lit "message", m)])) cur
      = ({ a with Message := some m }, true) := by
  obtain ⟨h1, h2, h3, h4, h5⟩ := h
  unfold decodeSendMsgToRoomOwner decodeStruct
  rw [tokOf_object _ (allClean_sendMsg a hm)]
  simp only [jbMsgAction.members, memberToks, List.map, List.cons_append, List.nil_append]
  rw [decodeMembers_step _ _ _ _ _ _ 0 (by decide) (by decide),
    decodeMembers_step _ _ _ _ _ _ 1 (by decide) (by decide),
    decodeMembers_step _ _ _ _ _ _ 2 (by decide) (by decide),
    decodeMembers_step _ _ _ _ _ _ 3 (by decide) (by decide),
    decodeMembers_step _ _ _ _ _ _ 4 (by decide) (by decide),
    decodeMembers_step _ _ _ _ _ _ 5 (by decide) (by decide)]
  simp only [decodeMembers, jbMsgActionSendMsgToRoomOwner.assign, decodeString_marshal _ _ h1,
    decodeString_marshal _ _ h2, decodeString_marshal _ _ h3, decodeString_marshal _ _ h4,
    decodeString_marshal _ _ h5, decodeRaw_clean hm, Bool.and_self]

/-! ### The envelope -/

theorem allSome_marshalRaw : ∀ (ps : List GoString), (∀ p ∈ ps, ∃ tok, Clean p tok) →
    (∀ p ∈ ps, nesting p ≤ maxNestingDepth) →
    allSome ((ps.map some).map marshalRaw) = some ps
  | [], _, _ => rfl
  | p :: ps, h, hd => by
    obtain ⟨tok, ht⟩ := h p (by simp)
    have ih := allSome_marshalRaw ps (fun q hq => h q (by simp [hq]))
      (fun q hq => hd q (by simp [hq]))
    show allSome (marshalRaw (some p) :: (ps.map some).map marshalRaw) = some (p :: ps)
    rw [marshalRaw_clean ht (hd p (by simp))]
    simp only [allSome, ih]
    rfl

theorem marshalMsg_clean (name : GoString) (ps : List GoString)
    (h : ∀ p ∈ ps, ∃ tok, Clean p tok) (hd : ∀ p ∈ ps, nesting p ≤ maxNestingDepth) :
    marshalMsg { Name := name, Args := some (ps.map some) }
      = some (marshalObject [(lit "name", marshalString name), (lit "args", marshalArray ps)]) := by
  unfold marshalMsg
  simp only []
  rw [allSome_marshalRaw ps h hd]
  rfl

theorem allClean_msg (name : GoString) (ps : List GoString)
    (h : ∀ p ∈ ps, ∃ tok, Clean p tok) :
    AllClean [(lit "name", marshalString name), (lit "args", marshalArray ps)] :=
  ⟨⟨_, clean_string _⟩, ⟨_, clean_array ps h⟩, trivial⟩

theorem decodeElems_raw : ∀ (ps : List GoString) (cur : List RawMessage),
    (∀ p ∈ ps, ∃ tok, Clean p tok) →
    decodeElems decodeRaw none ps cur = ps.map fun p => (some p, true)
  | [], _, _ => by simp [decodeElems]
  | p :: ps, [], h => by
    obtain ⟨tok, ht⟩ := h p (by simp)
    simp only [List.map, decodeElems, decodeRaw_clean ht]
    rw [decodeElems_raw ps [] (fun q hq => h q (by simp [hq]))]
  | p :: ps, c :: cur, h => by
    obtain ⟨tok, ht⟩ := h p (by simp)
    simp only [List.map, decodeElems, decodeRaw_clean ht]
    rw [decodeElems_raw ps cur (fun q hq => h q (by simp [hq]))]

theorem map_some_ok : ∀ (ps : List GoString),
    (ps.map fun p => ((some p : RawMessage), true)).map (fun q => q.1) = ps.map some
  | [] => rfl
  | p :: ps => by simp [map_some_ok ps]

theorem all_some_ok : ∀ (ps : List GoString),
    (ps.map fun p => ((some p : RawMessage), true)).all (fun q => q.2) = true
  | [] => rfl
  | p :: ps => by simp [all_some_ok ps]

theorem decodeMsg_marshal (name : GoString) (ps : List GoString) (cur : jbMsg)
    (hn : validUTF8 name = true) (h : ∀ p ∈ ps, ∃ tok, Clean p tok) :
    decodeMsg (marshalObject [(lit "name", marshalString name), (lit "args", marshalArray ps)]) cur
      = ({ Name := name, Args := some (ps.map some) }, true) := by
  unfold decodeMsg decodeStruct
  rw [tokOf_object _ (allClean_msg name ps h)]
  simp only [memberToks, List.map]
  rw [decodeMembers_step _ _ _ _ _ _ 0 (by decide) (by decide),
    decodeMembers_step _ _ _ _ _ _ 1 (by decide) (by decide)]
  simp only [decodeMembers, jbMsg.assign, decodeString_marshal _ _ hn, decodeSlice,
    clean_tokOf (clean_array ps h), decodeElems_raw ps _ h, map_some_ok, all_some_ok,
    Bool.and_self]

theorem decodeMsg_marshal_nil (name : GoString) (cur : jbMsg) (hn : validUTF8 name = true) :
    decodeMsg (marshalObject [(lit "name", marshalString name), (lit "args", lit "null")]) cur
      = ({ Name := name, Args := none }, true) := by
  have hc : AllClean [(lit "name", marshalString name), (lit "args", lit "null")] :=
    ⟨⟨_, clean_string _⟩, ⟨_, clean_null⟩, trivial⟩
  unfold decodeMsg decodeStruct
  rw [tokOf_object _ hc]
  simp only [memberToks, List.map]
  rw [decodeMembers_step _ _ _ _ _ _ 0 (by decide) (by decide),
    decodeMembers_step _ _ _ _ _ _ 1 (by decide) (by decide)]
  simp only [decodeMembers, jbMsg.assign, decodeString_marshal _ _ hn, decodeSlice,
    clean_tokOf clean_null, Bool.and_self]

/-! ## What `json.Unmarshal` stores is well formed -/

theorem validUTF8_two (b b1 : Nat) (t : GoString) (h1 : 0xC2 ≤ b) (h2 : b ≤ 0xDF)
    (h3 : 0x80 ≤ b1) (h4 : b1 ≤ 0xBF) : validUTF8 (b :: b1 :: t) = validUTF8 t := by
  have hd := decodeRune_two_eq b b1 t h1 h2 h3 h4
  rw [validUTF8.eq_2 _ _ _ (by rw [hd]), if_neg (by omega)]

theorem validUTF8_three (b b1 b2 : Nat) (t : GoString) (h1 : 0xE0 ≤ b) (h2 : b ≤ 0xEF)
    (h3 : secondLo b ≤ b1) (h4 : b1 ≤ secondHi b) (h5 : 0x80 ≤ b2) (h6 : b2 ≤ 0xBF) :
    validUTF8 (b :: b1 :: b2 :: t) = validUTF8 t := by
  have hd := decodeRune_three_eq b b1 b2 t h1 h2 h3 h4 h5 h6
  rw [validUTF8.eq_3 _ _ _ _ (by rw [hd]), if_neg (by omega)]

theorem validUTF8_four (b b1 b2 b3 : Nat) (t : GoString) (h1 : 0xF0 ≤ b) (h2 : b ≤ 0xF4)
    (h3 : secondLo b ≤ b1) (h4 : b1 ≤ secondHi b) (h5 : 0x80 ≤ b2) (h6 : b2 ≤ 0xBF)
    (h7 : 0x80 ≤ b3) (h8 : b3 ≤ 0xBF) :
    validUTF8 (b :: b1 :: b2 :: b3 :: t) = validUTF8 t := by
  have hd := decodeRune_four_eq b b1 b2 b3 t h1 h2 h3 h4 h5 h6 h7 h8
  rw [validUTF8.eq_4 _ _ _ _ _ (by rw [hd]), if_neg (by omega)]

theorem validUTF8_append (a : GoString) : ∀ b : GoString, validUTF8 a = true →
    validUTF8 b = true → validUTF8 (a ++ b) = true := by
  induction a using validUTF8.induct with
  | case1 => intro b _ hb; simpa using hb
  | case2 c t hc ih =>
    intro b ha hb
    rw [validUTF8_ascii c t hc] at ha
    rw [List.cons_append, validUTF8_ascii c _ hc]
    exact ih b ha hb
  | case3 c hc c1 t1 h2 ih =>
    intro b ha hb
    obtain ⟨d1, t', ht, r1, r2, r3, r4⟩ := (decodeRune_width c (c1 :: t1) hc).1 h2
    simp only [List.cons.injEq] at ht
    obtain ⟨e1, _⟩ := ht
    subst e1
    rw [validUTF8_two c c1 t1 r1 r2 r3 r4] at ha
    rw [List.cons_append, List.cons_append, validUTF8_two c c1 _ r1 r2 r3 r4]
    exact ih b ha hb
  | case4 c hc c1 c2 t2 h3 ih =>
    intro b ha hb
    obtain ⟨d1, d2, t', ht, r1, r2, r3, r4, r5, r6⟩ :=
      (decodeRune_width c (c1 :: c2 :: t2) hc).2.1 h3
    simp only [List.cons.injEq] at ht
    obtain ⟨e1, e2, _⟩ := ht
    subst e1 e2
    rw [validUTF8_three c c1 c2 t2 r1 r2 r3 r4 r5 r6] at ha
    rw [List.cons_append, List.cons_append, List.cons_append,
      validUTF8_three c c1 c2 _ r1 r2 r3 r4 r5 r6]
    exact ih b ha hb
  | case5 c hc c1 c2 c3 t3 h4 ih =>
    intro b ha hb
    obtain ⟨d1, d2, d3, t', ht, r1, r2, r3, r4, r5, r6, r7, r8⟩ :=
      (decodeRune_width c (c1 :: c2 :: c3 :: t3) hc).2.2 h4
    simp only [List.cons.injEq] at ht
    obtain ⟨e1, e2, e3, _⟩ := ht
    subst e1 e2 e3
    rw [validUTF8_four c c1 c2 c3 t3 r1 r2 r3 r4 r5 r6 r7 r8] at ha
    rw [List.cons_append, List.cons_append, List.cons_append, List.cons_append,
      validUTF8_four c c1 c2 c3 _ r1 r2 r3 r4 r5 r6 r7 r8]
    exact ih b ha hb
  | case6 c t hc n2 n3 n4 =>
    intro b ha _
    rw [validUTF8.eq_5 c t n2 n3 n4, if_neg hc] at ha
    cases ha

theorem validUTF8_encodeRune (r : Nat) : validUTF8 (encodeRune r) = true := by
  unfold encodeRune
  split_ifs with h1 h2 h3 h4
  · rw [validUTF8_ascii r [] h1]
    rfl
  · rw [validUTF8_two _ _ [] (by omega) (by omega) (by omega) (by omega)]
    rfl
  · decide
  · have hs1 : secondLo (0xE0 + r / 4096) ≤ 0x80 + r / 64 % 64 := by
      unfold secondLo
      split_ifs <;> omega
    have hs2 : 0x80 + r / 64 % 64 ≤ secondHi (0xE0 + r / 4096) := by
      unfold secondHi
      split_ifs <;> omega
    rw [validUTF8_three _ _ _ [] (by omega) (by omega) hs1 hs2 (by omega) (by omega)]
    rfl
  · have hs1 : secondLo (0xF0 + r / 262144) ≤ 0x80 + r / 4096 % 64 := by
      unfold secondLo
      split_ifs <;> omega
    have hs2 : 0x80 + r / 4096 % 64 ≤ secondHi (0xF0 + r / 262144) := by
      unfold secondHi
      split_ifs <;> omega
    rw [validUTF8_four _ _ _ _ [] (by omega) (by omega) hs1 hs2 (by omega) (by omega) (by omega)
      (by omega)]
    rfl

theorem simpleEsc_lt {e x : Nat} (h : simpleEsc e = some x) : x < 128 := by
  unfold simpleEsc at h
  split_ifs at h <;> simp at h <;> omega

theorem validUTF8_single (x : Nat) (h : x < 128) : validUTF8 [x] = true := by
  rw [validUTF8_ascii x [] h]
  rfl

theorem unquoteStep_shape {s : GoString} {p : GoString × GoString} (h : unquoteStep s = some p) :
    (∃ r, p.1 = encodeRune r) ∨ (∃ x, x < 128 ∧ p.1 = [x]) := by
  cases s with
  | nil => simp [unquoteStep] at h
  | cons c t =>
    unfold unquoteStep at h
    simp only [] at h
    by_cases h1 : c = 92
    · rw [if_pos h1] at h
      cases t with
      | nil => simp at h
      | cons e t1 =>
        simp only [] at h
        by_cases g1 : e = 117
        · rw [if_pos g1] at h
          cases hg : getu4 (c :: e :: t1) with
          | none => simp [hg] at h
          | some rr =>
            simp only [hg] at h
            by_cases hsur : 0xD800 ≤ rr ∧ rr < 0xE000
            · rw [if_pos hsur] at h
              cases hg2 : getu4 (List.drop 4 t1) with
              | none =>
                simp only [hg2, Option.some.injEq] at h
                exact Or.inl ⟨_, by rw [← h]⟩
              | some rr1 =>
                simp only [hg2] at h
                by_cases hp : rr < 0xDC00 ∧ 0xDC00 ≤ rr1 ∧ rr1 < 0xE000
                · rw [if_pos hp, Option.some.injEq] at h
                  exact Or.inl ⟨_, by rw [← h]⟩
                · rw [if_neg hp, Option.some.injEq] at h
                  exact Or.inl ⟨_, by rw [← h]⟩
            · rw [if_neg hsur, Option.some.injEq] at h
              exact Or.inl ⟨_, by rw [← h]⟩
        · rw [if_neg g1] at h
          by_cases g2 : e = 39
          · rw [if_pos g2, Option.some.injEq] at h
            exact Or.inr ⟨39, by omega, by rw [← h]⟩
          · rw [if_neg g2] at h
            cases hx : simpleEsc e with
            | none => simp [hx] at h
            | some x =>
              simp only [hx, Option.some.injEq] at h
              exact Or.inr ⟨x, simpleEsc_lt hx, by rw [← h]⟩
    · rw [if_neg h1] at h
      by_cases h2 : c = 34 ∨ c < 32
      · simp [h2] at h
      · rw [if_neg h2] at h
        by_cases h3 : c < 128
        · rw [if_pos h3, Option.some.injEq] at h
          exact Or.inr ⟨c, h3, by rw [← h]⟩
        · rw [if_neg h3] at h
          by_cases h4 : (decodeRune (c :: t)).2 ≤ 1
          · rw [if_pos h4, Option.some.injEq] at h
            exact Or.inl ⟨_, by rw [← h]⟩
          · rw [if_neg h4, Option.some.injEq] at h
            exact Or.inl ⟨_, by rw [← h]⟩

theorem unquoteStep_valid {s : GoString} {p : GoString × GoString} (h : unquoteStep s = some p) :
    validUTF8 p.1 = true := by
  rcases unquoteStep_shape h with ⟨r, hr⟩ | ⟨x, hx, hr⟩
  · rw [hr]
    exact validUTF8_encodeRune r
  · rw [hr]
    exact validUTF8_single x hx

theorem unquoteN_valid : ∀ (n : Nat) (s r : GoString), unquoteN n s = some r →
    validUTF8 r = true
  | _, [], r, h => by
    simp [unquoteN] at h
    subst h
    rfl
  | 0, _ :: _, r, h => by simp [unquoteN] at h
  | n + 1, c :: t, r, h => by
    rw [unquoteN] at h
    cases hs : unquoteStep (c :: t) with
    | none => simp [hs] at h
    | some p =>
      simp only [hs] at h
      cases hr : unquoteN n p.2 with
      | none => simp [hr] at h
      | some r' =>
        simp only [hr, Option.map_some', Option.some.injEq] at h
        subst h
        exact validUTF8_append _ _ (unquoteStep_valid hs) (unquoteN_valid n _ _ hr)

theorem unquote_valid {s r : GoString} (h : unquote s = some r) : validUTF8 r = true :=
  unquoteN_valid _ _ _ h

theorem decodeString_valid (span cur : GoString) (h : validUTF8 cur = true) :
    validUTF8 (decodeString span cur).1 = true := by
  unfold decodeString
  split
  · exact h
  · split
    · rename_i hs
      exact unquote_valid hs
    · exact h
  · exact h

theorem parseInt_range {s : GoString} {i : Int} (h : parseInt s = some i) : isInt64 i := by
  unfold parseInt at h
  cases s with
  | nil => simp at h
  | cons c t =>
    simp only [] at h
    by_cases hc : c = 45
    · rw [if_pos hc] at h
      cases hp : parseDigits t none with
      | none => simp [hp] at h
      | some n =>
        simp only [hp] at h
        by_cases hn : n ≤ 2 ^ 63
        · rw [if_pos hn, Option.some.injEq] at h
          subst h
          constructor <;> omega
        · rw [if_neg hn] at h
          cases h
    · rw [if_neg hc] at h
      cases hp : parseDigits (c :: t) none with
      | none => simp [hp] at h
      | some n =>
        simp only [hp] at h
        by_cases hn : n < 2 ^ 63
        · rw [if_pos hn, Option.some.injEq] at h
          subst h
          constructor <;> omega
        · rw [if_neg hn] at h
          cases h

theorem decodeInt_range (span : GoString) (cur : Int) (h : isInt64 cur) :
    isInt64 (decodeInt span cur).1 := by
  unfold decodeInt
  split
  · exact h
  · split
    · rename_i hs
      exact parseInt_range hs
    · exact h
  · exact h

theorem decodeMembers_inv {σ : Type} (P : σ → Prop) (names : List GoString)
    (assign : Nat → GoString → σ → σ × Bool)
    (ha : ∀ i span v, P v → P (assign i span v).1) :
    ∀ (ms : List (GoString × GoString)) (acc : σ × Bool), P acc.1 →
      P (decodeMembers names assign ms acc).1
  | [], acc, h => by simpa [decodeMembers] using h
  | m :: ms, acc, h => by
    rw [decodeMembers]
    split
    · exact decodeMembers_inv P names assign ha ms _ h
    · split
      · exact decodeMembers_inv P names assign ha ms _ h
      · exact decodeMembers_inv P names assign ha ms _ (ha _ _ _ h)

theorem decodeStruct_inv {σ : Type} (P : σ → Prop) (names : List GoString)
    (assign : Nat → GoString → σ → σ × Bool)
    (ha : ∀ i span v, P v → P (assign i span v).1) (span : GoString) (cur : σ) (h : P cur) :
    P (decodeStruct names assign span cur).1 := by
  unfold decodeStruct
  split
  · exact h
  · exact decodeMembers_inv P names assign ha _ _ h
  · exact h

theorem decodeElems_inv {α : Type} (P : α → Prop) (elem : GoString → α → α × Bool) (zero : α)
    (he : ∀ span v, P v → P (elem span v).1) (hz : P zero) :
    ∀ (es : List GoString) (cur : List α), (∀ x ∈ cur, P x) →
      ∀ r ∈ decodeElems elem zero es cur, P r.1
  | [], _, _ => by simp [decodeElems]
  | e :: es, [], hc => by
    intro r hr
    simp only [decodeElems, List.mem_cons] at hr
    rcases hr with hr | hr
    · subst hr
      exact he _ _ hz
    · exact decodeElems_inv P elem zero he hz es [] (by simp) r hr
  | e :: es, x :: xs, hc => by
    intro r hr
    simp only [decodeElems, List.mem_cons] at hr
    rcases hr with hr | hr
    · subst hr
      exact he _ _ (hc x (by simp))
    · exact decodeElems_inv P elem zero he hz es xs (fun y hy => hc y (by simp [hy])) r hr

theorem decodeSlice_inv {α : Type} (P : α → Prop) (elem : GoString → α → α × Bool) (zero : α)
    (he : ∀ span v, P v → P (elem span v).1) (hz : P zero) (span : GoString)
    (cur : Option (List α)) (hc : ∀ l, cur = some l → ∀ x ∈ l, P x) :
    ∀ l, (decodeSlice elem zero span cur).1 = some l → ∀ x ∈ l, P x := by
  unfold decodeSlice
  split
  · intro l hl
    cases hl
  · intro l hl x hx
    simp only [Option.some.injEq] at hl
    subst hl
    obtain ⟨r, hr, rfl⟩ := List.mem_map.1 hx
    refine decodeElems_inv P elem zero he hz _ _ ?_ r hr
    intro y hy
    cases cur with
    | none => simp at hy
    | some c => exact hc c rfl y hy
  · exact hc

theorem decodePoint_valid (span : GoString) (cur : Point) (h : cur.Valid) :
    (decodePoint span cur).1.Valid := by
  refine decodeStruct_inv Point.Valid _ _ ?_ span cur h
  intro i sp v hv
  unfold Point.assign
  split
  · exact ⟨decodeInt_range _ _ hv.1, hv.2⟩
  · exact ⟨hv.1, decodeInt_range _ _ hv.2⟩
  · exact hv

theorem decodePictureLine_valid (span : GoString) (cur : PictureLine) (h : cur.Valid) :
    (decodePictureLine span cur).1.Valid := by
  refine decodeStruct_inv PictureLine.Valid _ _ ?_ span cur h
  intro i sp v hv
  unfold PictureLine.assign
  split
  · exact ⟨decodeInt_range _ _ hv.1, hv.2.1, hv.2.2⟩
  · exact ⟨hv.1, decodeString_valid _ _ hv.2.1, hv.2.2⟩
  · refine ⟨hv.1, hv.2.1, ?_⟩
    exact decodeSlice_inv Point.Valid decodePoint Point.zero decodePoint_valid
      ⟨by constructor <;> decide, by constructor <;> decide⟩ sp v.Points hv.2.2
  · exact hv

theorem decodePictureLines_valid (span : GoString) :
    validDrawing (decodePictureLines span none).1 := by
  refine decodeSlice_inv PictureLine.Valid decodePictureLine PictureLine.zero
    decodePictureLine_valid ?_ span none (by simp)
  refine ⟨by constructor <;> decide, rfl, ?_⟩
  intro ps hps
  cases hps

/-- A drawing that `LoadDrawing` returns is well formed: its integers are
64-bit integers and its colors are valid UTF-8. -/
theorem LoadDrawing_valid {env : Env} {fn : GoString} {pl : Option (List PictureLine)}
    (h : LoadDrawing env fn = .ok pl) : validDrawing pl := by
  unfold LoadDrawing at h
  split at h
  · cases h
  · rename_i contents _
    split at h
    · cases h
    · simp only [Except.ok.injEq] at h
      subst h
      unfold unmarshal
      split
      · exact decodePictureLines_valid contents
      · intro ls hls
        cases hls

/-! ## Blob and event round trip -/

theorem ltBytes_irrefl : ∀ a : GoString, ltBytes a a = false
  | [] => rfl
  | x :: a => by simp [ltBytes, ltBytes_irrefl a]

theorem ltBytes_asymm : ∀ a b : GoString, ltBytes a b = true → ltBytes b a = false
  | [], [], h => by simp [ltBytes] at h
  | [], _ :: _, _ => rfl
  | _ :: _, [], h => by simp [ltBytes] at h
  | x :: a, y :: b, h => by
    simp only [ltBytes, Bool.or_eq_true, decide_eq_true_eq, Bool.and_eq_true, beq_iff_eq] at h
    simp only [ltBytes, Bool.or_eq_false_iff, decide_eq_false_iff_not, Bool.and_eq_false_iff]
    rcases h with h | ⟨h1, h2⟩
    · exact ⟨by omega, Or.inl (by simp; omega)⟩
    · exact ⟨by omega, Or.inr (ltBytes_asymm a b h2)⟩

theorem mapInsert_last {α : Type} (k : GoString) (v : α) : ∀ (m : List (GoString × α)),
    (∀ x ∈ m, ltBytes x.1 k = true) → mapInsert k v m = m ++ [(k, v)]
  | [], _ => rfl
  | e :: m, h => by
    have he : ltBytes e.1 k = true := h e (by simp)
    have h1 : k ≠ e.1 := by
      intro hk
      rw [hk, ltBytes_irrefl] at he
      cases he
    have h2 : ltBytes k e.1 = false := ltBytes_asymm _ _ he
    simp [mapInsert, h1, h2, mapInsert_last k v m (fun x hx => h x (by simp [hx]))]

/-- Storing the members of a compact object whose keys increase, one after the
other, gives the map with those entries. -/
theorem storeEntries_sorted {α : Type} (dec : GoString → α × Bool) :
    ∀ (ms : List (GoString × GoString)) (vals : List (GoString × α)) (acc : List (GoString × α)),
    ms.map (fun e => e.1) = vals.map (fun e => e.1) →
    ms.map (fun e => dec e.2) = vals.map (fun e => (e.2, true)) →
    SortedKeys vals → (∀ x ∈ acc, ∀ y ∈ vals, ltBytes x.1 y.1 = true) →
    storeEntries dec (memberToks ms) (acc, true) = (acc ++ vals, true)
  | [], [], acc, _, _, _, _ => by simp [storeEntries, memberToks]
  | [], _ :: _, _, h, _, _, _ => by simp at h
  | _ :: _, [], _, h, _, _, _ => by simp at h
  | m :: ms, w :: vals, acc, hk, hv, hs, hacc => by
    simp only [List.map, List.cons.injEq] at hk hv
    obtain ⟨hk1, hk2⟩ := hk
    obtain ⟨hv1, hv2⟩ := hv
    obtain ⟨hw, hlt, hs'⟩ := hs
    have hu : unquote (escapeBody m.1) = some w.1 := by
      rw [hk1]
      exact unquote_escapeBody _ hw
    have hins : mapInsert w.1 (dec m.2).1 acc = acc ++ [w] := by
      rw [mapInsert_last _ _ acc (fun x hx => hacc x hx w (by simp)), hv1]
    have ih := storeEntries_sorted dec ms vals (acc ++ [w]) hk2 hv2 hs' (by
      intro x hx y hy
      rcases List.mem_append.1 hx with hx | hx
      · exact hacc x hx y (by simp [hy])
      · simp only [List.mem_singleton] at hx
        subst hx
        exact hlt y hy)
    simp only [memberToks, List.map] at ih ⊢
    rw [storeEntries]
    rw [hv1] at hins
    simp only [hu, hins, hv1, Bool.and_self]
    rw [ih]
    simp

theorem joinWith_length_ge (sep : Nat) : ∀ (xs : List GoString) (x : GoString), x ∈ xs →
    x.length ≤ (joinWith sep xs).length
  | [], _, h => by cases h
  | [y], x, h => by
    simp only [List.mem_singleton] at h
    subst h
    simp [joinWith]
  | y :: z :: r, x, h => by
    simp only [joinWith, List.length_append, List.length_cons]
    rcases List.mem_cons.1 h with h | h
    · subst h
      omega
    · have := joinWith_length_ge sep (z :: r) x h
      omega

theorem marshalArray_elem_length (xs : List GoString) (x : GoString) (h : x ∈ xs) :
    x.length + 2 ≤ (marshalArray xs).length := by
  have := joinWith_length_ge 44 xs x h
  simp only [marshalArray, List.length_cons, List.length_append, List.length_singleton,
    List.length_nil]
  omega

theorem marshalObject_value_length (fs : List (GoString × GoString)) (kv : GoString × GoString)
    (h : kv ∈ fs) : kv.2.length + 2 ≤ (marshalObject fs).length := by
  have := joinWith_length_ge 44 (fs.map marshalMember) (marshalMember kv) (List.mem_map_of_mem _ h)
  simp only [marshalObject, List.length_cons, List.length_append, List.length_singleton,
    List.length_nil]
  simp only [marshalMember, List.length_append, List.length_cons] at this
  omega

section
variable {F : Type}

mutual
/-- A plain value marshals to compact JSON that decodes back into it. -/
theorem marshalAny_plain (ff : F → Option GoString) (pf : GoString → Option F) :
    ∀ (v : GoAny F), v.Plain →
      ∃ enc tok, marshalAny ff v = some enc ∧ Clean enc tok ∧
        ∀ n, enc.length < n → decodeAny pf n enc = (v, true)
  | .nil, _ => by
    refine ⟨lit "null", .null, rfl, clean_null, ?_⟩
    intro n hn
    obtain ⟨m, rfl⟩ : ∃ m, n = m + 1 := ⟨n - 1, by omega⟩
    simp only [decodeAny, clean_tokOf clean_null]
  | .bool b, _ => by
    refine ⟨marshalBool b, .bool b, rfl, clean_bool b, ?_⟩
    intro n hn
    obtain ⟨m, rfl⟩ : ∃ m, n = m + 1 := ⟨n - 1, by omega⟩
    simp only [decodeAny, clean_tokOf (clean_bool b)]
  | .float64 _, h => by
    have hp : False := by simpa [GoAny.Plain] using h
    exact hp.elim
  | .string s, h => by
    refine ⟨marshalString s, _, rfl, clean_string s, ?_⟩
    intro n hn
    obtain ⟨m, rfl⟩ : ∃ m, n = m + 1 := ⟨n - 1, by omega⟩
    have hv : validUTF8 s = true := by simpa [GoAny.Plain] using h
    simp only [decodeAny, clean_tokOf (clean_string s), unquote_escapeBody s hv]
  | .slice xs, h => by
    have hp : plainList xs := by simpa [GoAny.Plain] using h
    obtain ⟨encs, he, hc, hd⟩ := marshalAnys_plain ff pf xs hp
    refine ⟨marshalArray encs, .arr encs, by simp [marshalAny, he], clean_array encs hc, ?_⟩
    intro n hn
    obtain ⟨m, rfl⟩ : ∃ m, n = m + 1 := ⟨n - 1, by omega⟩
    have hlen : ∀ e ∈ encs, e.length < m := by
      intro e hmem
      have := marshalArray_elem_length encs e hmem
      omega
    simp only [decodeAny, clean_tokOf (clean_array encs hc), hd m hlen, map_fst_ok, all_snd_ok]
  | .map mp, h => by
    have hp : SortedKeys mp ∧ plainEntries mp := by simpa [GoAny.Plain] using h
    obtain ⟨encs, he, hc, hk, hd⟩ := marshalEntries_plain ff pf mp hp.2
    refine ⟨marshalObject encs, .obj (memberToks encs), by simp [marshalAny, he],
      clean_object encs hc, ?_⟩
    intro n hn
    obtain ⟨m, rfl⟩ : ∃ m, n = m + 1 := ⟨n - 1, by omega⟩
    have hlen : ∀ e ∈ encs, e.2.length < m := by
      intro e hmem
      have := marshalObject_value_length encs e hmem
      omega
    have hst := storeEntries_sorted (decodeAny pf m) encs mp [] hk (hd m hlen) hp.1 (by simp)
    simp only [decodeAny, clean_tokOf (clean_object encs hc), hst, List.nil_append]
/-- Plain elements marshal to compact JSON texts that decode back into them. -/
theorem marshalAnys_plain (ff : F → Option GoString) (pf : GoString → Option F) :
    ∀ (xs : List (GoAny F)), plainList xs →
      ∃ encs, marshalAnys ff xs = some encs ∧ (∀ e ∈ encs, ∃ tok, Clean e tok) ∧
        ∀ n, (∀ e ∈ encs, e.length < n) →
          encs.map (decodeAny pf n) = xs.map (fun x => (x, true))
  | [], _ => ⟨[], rfl, by simp, by simp⟩
  | x :: r, h => by
    have hp : x.Plain ∧ plainList r := by simpa [plainList] using h
    obtain ⟨enc, tok, he, hc, hd⟩ := marshalAny_plain ff pf x hp.1
    obtain ⟨encs, hes, hcs, hds⟩ := marshalAnys_plain ff pf r hp.2
    refine ⟨enc :: encs, by simp [marshalAnys, he, hes], ?_, ?_⟩
    · intro e hmem
      rcases List.mem_cons.1 hmem with hmem | hmem
      · subst hmem
        exact ⟨tok, hc⟩
      · exact hcs e hmem
    · intro n hn
      simp only [List.map, hd n (hn enc (by simp)),
        hds n (fun e hmem => hn e (by simp [hmem]))]
/-- Plain entries marshal to members with the same keys whose values decode
back. -/
theorem marshalEntries_plain (ff : F → Option GoString) (pf : GoString → Option F) :
    ∀ (mp : List (GoString × GoAny F)), plainEntries mp →
      ∃ encs, marshalEntries ff mp = some encs ∧ (∀ e ∈ encs, ∃ tok, Clean e.2 tok) ∧
        encs.map (fun e => e.1) = mp.map (fun e => e.1) ∧
        ∀ n, (∀ e ∈ encs, e.2.length < n) →
          encs.map (fun e => decodeAny pf n e.2) = mp.map (fun e => (e.2, true))
  | [], _ => ⟨[], rfl, by simp, rfl, by simp⟩
  | (k, v) :: r, h => by
    have hp : v.Plain ∧ plainEntries r := by simpa [plainEntries] using h
    obtain ⟨enc, tok, he, hc, hd⟩ := marshalAny_plain ff pf v hp.1
    obtain ⟨encs, hes, hcs, hks, hds⟩ := marshalEntries_plain ff pf r hp.2
    refine ⟨(k, enc) :: encs, by simp [marshalEntries, he, hes], ?_, by simp [hks], ?_⟩
    · intro e hmem
      rcases List.mem_cons.1 hmem with hmem | hmem
      · subst hmem
        exact ⟨tok, hc⟩
      · exact hcs e hmem
    · intro n hn
      simp only [List.map, hd n (hn (k, enc) (by simp)),
        hds n (fun e hmem => hn e (by simp [hmem]))]
end

end

/-! ## The output of compact is compact JSON -/

theorem strStep_E2_tail (t : GoString) (h : ¬ LineSepTail t) :
    strStep (0xE2 :: t) = .more [0xE2] [0xE2] t :=
  strStep_E2 t fun b1 b2 t3 ht hb => h ⟨b2, t3, by rw [ht, hb.1], hb.2⟩

theorem strStep_cases {t raw out rest0 : GoString} (h : strStep t = .more raw out rest0) :
    ((∃ o, out = 92 :: o) ∧ Chunk 1 out) ∨
      (∃ c, t = c :: rest0 ∧ out = [c] ∧ c ≠ 34 ∧ c ≠ 92 ∧ Chunk 1 [c]) ∨
      (t = 0xE2 :: rest0 ∧ out = [0xE2] ∧ ¬ LineSepTail rest0) := by
  cases t with
  | nil => simp [strStep] at h
  | cons c t =>
    by_cases h1 : c = 34
    · simp [strStep, h1] at h
    by_cases h2 : c = 92
    · subst h2
      left
      cases t with
      | nil => simp [strStep] at h
      | cons e t1 =>
        by_cases he : e = 117
        · subst he
          match t1, h with
          | [], h => simp [strStep] at h
          | [_], h => simp [strStep] at h
          | [_, _], h => simp [strStep] at h
          | [_, _, _], h => simp [strStep] at h
          | a :: b :: c2 :: d :: t5, h =>
            by_cases hx : (hexVal a).isSome ∧ (hexVal b).isSome ∧ (hexVal c2).isSome ∧
                (hexVal d).isSome
            · have h' : StrStep.more [92, 117, a, b, c2, d] [92, 117, a, b, c2, d] t5
                  = .more raw out rest0 := by
                rw [← h]
                simp [strStep, hx]
              injection h' with _ e2 _
              subst e2
              exact ⟨⟨_, rfl⟩, chunk_one fun t => strStep_u a b c2 d t hx.1 hx.2.1 hx.2.2.1 hx.2.2.2⟩
            · have h' : StrStep.fail = .more raw out rest0 := by
                rw [← h]
                simp only [strStep]
                simp [hx]
              cases h'
        · by_cases hs : (simpleEsc e).isSome
          · have h' : StrStep.more [92, e] [92, e] t1 = .more raw out rest0 := by
              rw [← h]
              simp [strStep, he, hs]
            injection h' with _ e2 _
            subst e2
            exact ⟨⟨_, rfl⟩, chunk_one fun t => strStep_simple e t he hs⟩
          · have h' : StrStep.fail = .more raw out rest0 := by
              rw [← h]
              simp [strStep, he, hs]
            cases h'
    by_cases h3 : c < 32
    · simp [strStep, h1, h2, h3] at h
    by_cases h4 : c = 60 ∨ c = 62 ∨ c = 38
    · left
      have h' : StrStep.more [c] [92, 117, 48, 48, hexDigit (c / 16), hexDigit (c % 16)] t
          = .more raw out rest0 := by
        rw [← h]
        simp [strStep, h1, h2, h3, h4]
      injection h' with _ e2 _
      subst e2
      exact ⟨⟨_, rfl⟩, chunk_one fun t => strStep_u 48 48 _ _ t (by decide) (by decide)
        (hexDigit_isSome _ (by omega)) (hexDigit_isSome _ (by omega))⟩
    by_cases h5 : c = 0xE2
    · subst h5
      by_cases hl : LineSepTail t
      · obtain ⟨b2, t3, ht, hb⟩ := hl
        subst ht
        left
        have h' : StrStep.more [0xE2, 0x80, b2] [92, 117, 50, 48, 50, hexDigit (b2 % 16)] t3
            = .more raw out rest0 := by
          rw [← h]
          simp [strStep, hb]
        injection h' with _ e2 _
        subst e2
        exact ⟨⟨_, rfl⟩, chunk_one fun t => strStep_u 50 48 50 _ t (by decide) (by decide)
          (by decide) (hexDigit_isSome _ (by omega))⟩
      · right
        right
        rw [strStep_E2_tail t hl] at h
        injection h with _ e2 e3
        subst e2 e3
        exact ⟨rfl, rfl, hl⟩
    · right
      left
      have h6 : c ≠ 60 ∧ c ≠ 62 ∧ c ≠ 38 := by omega
      rw [strStep_plain c t h1 h2 h3 h6.1 h6.2.1 h6.2.2 h5] at h
      injection h with _ e2 e3
      subst e2 e3
      exact ⟨c, rfl, rfl, h1, h2, chunk_plain c h1 h2 h3 h6.1 h6.2.1 h6.2.2 h5⟩

theorem strStep_out_head {t raw out rest0 : GoString} (h : strStep t = .more raw out rest0) :
    (∃ o, out = 92 :: o) ∨ (∃ c, t = c :: rest0 ∧ out = [c]) := by
  rcases strStep_cases h with ⟨h1, _⟩ | ⟨c, h1, h2, _⟩ | ⟨h1, h2, _⟩
  · exact Or.inl h1
  · exact Or.inr ⟨c, h1, h2⟩
  · exact Or.inr ⟨_, h1, h2⟩

/-- The first byte of the compact text of a string body and the closing quote,
when it is neither a quote nor a backslash, is the first byte that was read. -/
theorem scanStrN_head_keep {n : Nat} {t rest o : GoString} {s : StrScan} {c : Nat}
    (h : scanStrN n t = some s) (ho : s.out ++ 34 :: rest = c :: o) (h1 : c ≠ 34) (h2 : c ≠ 92) :
    ∃ t' s' n', t = c :: t' ∧ scanStrN n' t' = some s' ∧ o = s'.out ++ 34 :: rest := by
  cases n with
  | zero => simp [scanStrN] at h
  | succ n =>
    rw [scanStrN] at h
    cases hst : strStep t with
    | fail => simp [hst] at h
    | done r0 =>
      simp only [hst, Option.some.injEq] at h
      subst h
      simp only [List.nil_append, List.cons.injEq] at ho
      exact absurd ho.1.symm h1
    | more raw out rest0 =>
      simp only [hst, Option.map_eq_some'] at h
      obtain ⟨s', hs', rfl⟩ := h
      rcases strStep_out_head hst with ⟨o', ho'⟩ | ⟨c', ht, ho'⟩
      · subst ho'
        simp only [StrScan.push, List.cons_append, List.cons.injEq] at ho
        exact absurd ho.1.symm h2
      · subst ho'
        simp only [StrScan.push, List.cons_append, List.nil_append, List.cons.injEq] at ho
        obtain ⟨e1, e2⟩ := ho
        subst e1
        exact ⟨rest0, s', n, ht, hs', e2.symm⟩

theorem scanStrN_tail {n : Nat} {t rest : GoString} {s : StrScan}
    (h : scanStrN n t = some s) (hl : LineSepTail (s.out ++ 34 :: rest)) : LineSepTail t := by
  obtain ⟨b2, t3, ht, hb⟩ := hl
  obtain ⟨t', s', n', e1, hs', ho⟩ := scanStrN_head_keep h ht (by decide) (by decide)
  obtain ⟨t'', _, _, e2, _, _⟩ := scanStrN_head_keep hs' ho.symm (by omega) (by omega)
  exact ⟨b2, t'', by rw [e1, e2], hb⟩

theorem cleanBody_nil : CleanBody [] := by
  intro n rest hn
  obtain ⟨m, rfl⟩ : ∃ m, n = m + 1 := ⟨n - 1, by simp at hn; omega⟩
  exact scanStrN_quote m rest

/-- The compact text of a scanned string body scans as a string body, and
`compact` leaves it as it is. -/
theorem scanStrN_out_clean : ∀ (n : Nat) (t : GoString) (s : StrScan),
    scanStrN n t = some s → CleanBody s.out
  | 0, _, _, h => by simp [scanStrN] at h
  | n + 1, t, s, h => by
    rw [scanStrN] at h
    cases hst : strStep t with
    | fail => simp [hst] at h
    | done r0 =>
      simp only [hst, Option.some.injEq] at h
      subst h
      exact cleanBody_nil
    | more raw out rest0 =>
      simp only [hst, Option.map_eq_some'] at h
      obtain ⟨s', hs', rfl⟩ := h
      have ih := scanStrN_out_clean n rest0 s' hs'
      show CleanBody (out ++ s'.out)
      rcases strStep_cases hst with ⟨_, hc⟩ | ⟨c, _, ho, _, _, hc⟩ | ⟨_, ho, hl⟩
      · intro m rest hm
        have hlen : 1 ≤ out.length := by
          rcases strStep_out_head hst with ⟨o, ho⟩ | ⟨c, _, ho⟩ <;> subst ho <;> simp
        exact scanStrN_chunk hc hlen ih m rest hm
      · subst ho
        intro m rest hm
        exact scanStrN_chunk hc (by simp) ih m rest hm
      · subst ho
        intro m rest hm
        simp only [List.length_append, List.length_singleton] at hm
        obtain ⟨k, rfl⟩ : ∃ k, m = k + 1 := ⟨m - 1, by omega⟩
        have hnl : ¬ LineSepTail (s'.out ++ 34 :: rest) := fun hx => hl (scanStrN_tail hs' hx)
        have hstep := strStep_E2_tail (s'.out ++ 34 :: rest) hnl
        rw [List.append_assoc, List.singleton_append, scanStrN_more k hstep,
          ih k rest (by omega)]
        rfl

theorem scanStr_out_clean {t : GoString} {s : StrScan} (h : scanStr t = some s) :
    CleanKey s.out := by
  intro rest
  unfold scanStr
  exact scanStrN_out_clean _ _ _ h _ rest (by simp)

theorem clean_str_body {o : GoString} (h : CleanKey o) : Clean (34 :: o ++ [34]) (.str o) := by
  intro n rest hn _
  obtain ⟨m, rfl⟩ : ∃ m, n = m + 1 := ⟨n - 1, by omega⟩
  simp only [List.cons_append, List.append_assoc, List.singleton_append, List.nil_append]
  rw [scanValue_string, h rest]
  rfl

theorem spanDigits_digits : ∀ (t : GoString) (x : Nat), x ∈ (spanDigits t).1 → isDigit x = true
  | [], x, h => by simp [spanDigits] at h
  | c :: t, x, h => by
    by_cases hc : isDigit c = true
    · simp only [spanDigits, hc, if_true, List.cons_eq_cons, List.mem_cons] at h
      rcases h with h | h
      · rw [h]
        exact hc
      · exact spanDigits_digits t x h
    · simp [spanDigits, hc] at h

theorem spanDigits_out (t r : GoString) (hr : NoDigitHead r) :
    spanDigits ((spanDigits t).1 ++ r) = ((spanDigits t).1, r) :=
  spanDigits_append _ r (spanDigits_digits t) hr

theorem noDigitHead_append {e r : GoString} (he : ∀ c u, e = c :: u → isDigit c = false)
    (hr : Delim r) : NoDigitHead (e ++ r) := by
  intro c u h
  cases e with
  | nil => exact delim_not_digit hr c u h
  | cons c' e' =>
    simp only [List.cons_append, List.cons.injEq] at h
    rw [← h.1]
    exact he c' e' rfl

theorem scanExp_out {t e r0 : GoString} (h : scanExp t = some (e, r0)) (r : GoString)
    (hr : Delim r) :
    scanExp (e ++ r) = some (e, r) ∧ (e = [] ∨ ∃ c e', e = c :: e' ∧ (c = 101 ∨ c = 69)) := by
  cases t with
  | nil =>
    simp only [scanExp, Option.some.injEq, Prod.mk.injEq] at h
    rw [← h.1]
    exact ⟨scanExp_delim r hr, Or.inl rfl⟩
  | cons c t =>
    by_cases hc : c = 101 ∨ c = 69
    · cases t with
      | nil => simp [scanExp, hc] at h
      | cons s t1 =>
        by_cases hs : s = 43 ∨ s = 45
        · by_cases hd : (spanDigits t1).1 = []
          · simp [scanExp, hc, hs, hd] at h
          · simp only [scanExp, if_pos hc, if_pos hs, if_neg hd, Option.some.injEq,
              Prod.mk.injEq] at h
            rw [← h.1]
            refine ⟨?_, Or.inr ⟨c, _, rfl, hc⟩⟩
            simp only [List.cons_append, scanExp, if_pos hc, if_pos hs,
              spanDigits_out t1 r (delim_not_digit hr), if_neg hd]
        · by_cases hd : (spanDigits (s :: t1)).1 = []
          · simp [scanExp, hc, hs, hd] at h
          · simp only [scanExp, if_pos hc, if_neg hs, if_neg hd, Option.some.injEq,
              Prod.mk.injEq] at h
            rw [← h.1]
            refine ⟨?_, Or.inr ⟨c, _, rfl, hc⟩⟩
            obtain ⟨d, ds, hds⟩ : ∃ d ds, (spanDigits (s :: t1)).1 = d :: ds := by
              cases hx : (spanDigits (s :: t1)).1 with
              | nil => exact absurd hx hd
              | cons d ds => exact ⟨d, ds, rfl⟩
            have hdig : isDigit d = true := spanDigits_digits (s :: t1) d (by rw [hds]; simp)
            have hd2 : ¬ (d = 43 ∨ d = 45) := by
              simp only [isDigit, Bool.and_eq_true, decide_eq_true_eq] at hdig
              omega
            have hsp := spanDigits_out (s :: t1) r (delim_not_digit hr)
            rw [hds] at hsp ⊢
            simp only [List.cons_append] at hsp ⊢
            simp only [scanExp, if_pos hc, if_neg hd2, hsp]
            simp
    · simp only [scanExp, if_neg hc, Option.some.injEq, Prod.mk.injEq] at h
      rw [← h.1]
      exact ⟨scanExp_delim r hr, Or.inl rfl⟩

theorem scanFrac_out {t f r0 : GoString} (h : scanFrac t = some (f, r0)) (r : GoString)
    (hr : Delim r) :
    scanFrac (f ++ r) = some (f, r) ∧
      (f = [] ∨ ∃ c f', f = c :: f' ∧ (c = 46 ∨ c = 101 ∨ c = 69)) := by
  cases t with
  | nil =>
    simp only [scanFrac, Option.some.injEq, Prod.mk.injEq] at h
    rw [← h.1]
    exact ⟨scanFrac_delim r hr, Or.inl rfl⟩
  | cons c t =>
    by_cases hc : c = 46
    · by_cases hd : (spanDigits t).1 = []
      · simp [scanFrac, hc, hd] at h
      · simp only [scanFrac, if_pos hc, if_neg hd, Option.map_eq_some', Prod.mk.injEq] at h
        obtain ⟨⟨e, r1⟩, he, h1, _⟩ := h
        obtain ⟨he1, he2⟩ := scanExp_out he r hr
        rw [← h1]
        refine ⟨?_, Or.inr ⟨c, _, rfl, Or.inl hc⟩⟩
        have hnd : NoDigitHead (e ++ r) := by
          refine noDigitHead_append ?_ hr
          intro c' u hcu
          rcases he2 with he2 | ⟨c2, e', he2, hc2⟩
          · rw [he2] at hcu
            cases hcu
          · rw [he2] at hcu
            cases hcu
            simp only [isDigit, Bool.and_eq_false_iff, decide_eq_false_iff_not]
            omega
        simp only [List.cons_append, List.append_assoc, scanFrac, if_pos hc,
          spanDigits_out t (e ++ r) hnd, if_neg hd, he1, Option.map_some']
    · simp only [scanFrac, if_neg hc] at h
      obtain ⟨he1, he2⟩ := scanExp_out h r hr
      rcases he2 with he2 | ⟨c2, e', he2, hc2⟩
      · subst he2
        exact ⟨scanFrac_delim r hr, Or.inl rfl⟩
      · subst he2
        refine ⟨?_, Or.inr ⟨c2, e', rfl, Or.inr hc2⟩⟩
        have h46 : c2 ≠ 46 := by omega
        simp only [List.cons_append] at he1 ⊢
        simp only [scanFrac, if_neg h46, he1]

theorem scanInt_out {t i r0 : GoString} (h : scanInt t = some (i, r0)) (r : GoString)
    (hr : Delim r) :
    scanInt (i ++ r) = some (i, r) ∧ ∃ c i', i = c :: i' ∧ isDigit c = true := by
  cases t with
  | nil => simp [scanInt] at h
  | cons c t =>
    by_cases hc : c = 48
    · simp only [scanInt, if_pos hc, Option.map_eq_some', Prod.mk.injEq] at h
      obtain ⟨⟨f, r1⟩, hf, h1, _⟩ := h
      obtain ⟨hf1, _⟩ := scanFrac_out hf r hr
      rw [← h1]
      refine ⟨?_, c, _, rfl, by rw [hc]; decide⟩
      simp only [List.cons_append, scanInt, if_pos hc, hf1, Option.map_some']
    · by_cases hc2 : 49 ≤ c ∧ c ≤ 57
      · simp only [scanInt, if_neg hc, if_pos hc2, Option.map_eq_some', Prod.mk.injEq] at h
        obtain ⟨⟨f, r1⟩, hf, h1, _⟩ := h
        obtain ⟨hf1, hf2⟩ := scanFrac_out hf r hr
        rw [← h1]
        refine ⟨?_, c, _, rfl, by simp [isDigit]; omega⟩
        have hnd : NoDigitHead (f ++ r) := by
          refine noDigitHead_append ?_ hr
          intro c' u hcu
          rcases hf2 with hf2 | ⟨c2, f', hf2, hc3⟩
          · rw [hf2] at hcu
            cases hcu
          · rw [hf2] at hcu
            cases hcu
            simp only [isDigit, Bool.and_eq_false_iff, decide_eq_false_iff_not]
            omega
        simp only [List.cons_append, List.append_assoc, scanInt, if_neg hc, if_pos hc2,
          spanDigits_out t (f ++ r) hnd, hf1, Option.map_some']
      · simp [scanInt, hc, hc2] at h

/-- The text of a scanned number scans as that number before a delimiter. -/
theorem scanNum_out {t x r0 : GoString} (h : scanNum t = some (x, r0)) (r : GoString)
    (hr : Delim r) : scanNum (x ++ r) = some (x, r) ∧ x ≠ [] := by
  cases t with
  | nil => simp [scanNum] at h
  | cons c t =>
    by_cases hc : c = 45
    · simp only [scanNum, if_pos hc, Option.map_eq_some', Prod.mk.injEq] at h
      obtain ⟨⟨i, r1⟩, hi, h1, _⟩ := h
      obtain ⟨hi1, _⟩ := scanInt_out hi r hr
      rw [← h1]
      refine ⟨?_, by simp⟩
      simp only [List.cons_append, scanNum, if_pos hc, hi1, Option.map_some']
    · simp only [scanNum, if_neg hc] at h
      obtain ⟨hi1, d, i', hi2, hd⟩ := scanInt_out h r hr
      subst hi2
      have h45 : d ≠ 45 := by
        simp only [isDigit, Bool.and_eq_true, decide_eq_true_eq] at hd
        omega
      refine ⟨?_, by simp⟩
      simp only [List.cons_append] at hi1 ⊢
      simp only [scanNum, if_neg h45, hi1]

theorem clean_num {t x r0 : GoString} (h : scanNum t = some (x, r0)) : Clean x (.num x) := by
  intro n rest hn hd
  obtain ⟨m, rfl⟩ : ∃ m, n = m + 1 := ⟨n - 1, by omega⟩
  obtain ⟨hs, hx⟩ := scanNum_out h rest hd
  cases x with
  | nil => exact absurd rfl hx
  | cons c x' =>
    rw [List.cons_append] at hs ⊢
    rw [scanValue_num m c _ (scanNum_head hs), hs]
    rfl

theorem scanValue_lit_true {n : Nat} {t : GoString} {v : Scan}
    (h : scanValue (n + 1) (116 :: t) = some v) : v.out = lit "true" := by
  by_cases ht : ∃ r, t = 114 :: 117 :: 101 :: r
  · obtain ⟨r, rfl⟩ := ht
    rw [scanValue_true] at h
    injection h with h
    subst h
    rfl
  · exfalso
    apply ht
    simp only [scanValue, Nat.reduceEqDiff, if_false, if_true] at h
    split at h
    · exact ⟨_, rfl⟩
    · cases h

theorem scanValue_lit_false {n : Nat} {t : GoString} {v : Scan}
    (h : scanValue (n + 1) (102 :: t) = some v) : v.out = lit "false" := by
  by_cases ht : ∃ r, t = 97 :: 108 :: 115 :: 101 :: r
  · obtain ⟨r, rfl⟩ := ht
    rw [scanValue_false] at h
    injection h with h
    subst h
    rfl
  · exfalso
    apply ht
    simp only [scanValue, Nat.reduceEqDiff, if_false, if_true] at h
    split at h
    · exact ⟨_, rfl⟩
    · cases h

theorem scanValue_lit_null {n : Nat} {t : GoString} {v : Scan}
    (h : scanValue (n + 1) (110 :: t) = some v) : v.out = lit "null" := by
  by_cases ht : ∃ r, t = 117 :: 108 :: 108 :: r
  · obtain ⟨r, rfl⟩ := ht
    rw [scanValue_null] at h
    injection h with h
    subst h
    rfl
  · exfalso
    apply ht
    simp only [scanValue, Nat.reduceEqDiff, if_false, if_true] at h
    split at h
    · exact ⟨_, rfl⟩
    · cases h

theorem scanValue_other {n : Nat} {c : Nat} {t : GoString} (h1 : c ≠ 123) (h2 : c ≠ 91)
    (h3 : c ≠ 34) (h4 : c ≠ 116) (h5 : c ≠ 102) (h6 : c ≠ 110) :
    scanValue (n + 1) (c :: t)
      = (scanNum (c :: t)).map fun p => { tok := .num p.1, out := p.1, rest := p.2 } := by
  simp [scanValue, h1, h2, h3, h4, h5, h6]

/-- What `compact` writes for a value, for the elements of an array and for the
members of an object is compact JSON: it scans as it is. -/
theorem scan_out_clean : ∀ n : Nat,
    (∀ t v, scanValue n t = some v → ∃ tok, Clean v.out tok) ∧
    (∀ t r, scanElems n t = some r → ∃ sp, CleanElems r.2.1 sp) ∧
    (∀ t r, scanMembers n t = some r → ∃ ms, CleanMembers r.2.1 ms)
  | 0 =>
    ⟨fun t v h => by simp [scanValue] at h, fun t r h => by simp [scanElems] at h,
      fun t r h => by simp [scanMembers] at h⟩
  | n + 1 => by
    obtain ⟨ihV, ihE, ihM⟩ := scan_out_clean n
    refine ⟨?_, ?_, ?_⟩
    · intro t v h
      cases t with
      | nil => simp [scanValue] at h
      | cons c t =>
        by_cases h1 : c = 123
        · subst h1
          cases hsk : skipWs t with
          | nil => simp [scanValue, hsk] at h
          | cons d r =>
            by_cases hd : d = 125
            · subst hd
              rw [scanValue_obj_empty n t r hsk] at h
              injection h with h
              subst h
              exact ⟨_, clean_obj_empty⟩
            · rw [scanValue_obj n t r d hsk hd] at h
              simp only [Option.map_eq_some'] at h
              obtain ⟨p, hp, rfl⟩ := h
              obtain ⟨ms, hms⟩ := ihM _ p hp
              exact ⟨_, clean_obj hms⟩
        by_cases h2 : c = 91
        · subst h2
          cases hsk : skipWs t with
          | nil => simp [scanValue, hsk] at h
          | cons d r =>
            by_cases hd : d = 93
            · subst hd
              rw [scanValue_arr_empty n t r hsk] at h
              injection h with h
              subst h
              exact ⟨_, clean_arr_empty⟩
            · rw [scanValue_arr n t r d hsk hd] at h
              simp only [Option.map_eq_some'] at h
              obtain ⟨p, hp, rfl⟩ := h
              obtain ⟨sp, hsp⟩ := ihE _ p hp
              exact ⟨_, clean_arr hsp⟩
        by_cases h3 : c = 34
        · subst h3
          rw [scanValue_string] at h
          simp only [Option.map_eq_some'] at h
          obtain ⟨s, hs, rfl⟩ := h
          exact ⟨_, clean_str_body (scanStr_out_clean hs)⟩
        by_cases h4 : c = 116
        · subst h4
          rw [scanValue_lit_true h]
          exact ⟨_, clean_bool true⟩
        by_cases h5 : c = 102
        · subst h5
          rw [scanValue_lit_false h]
          exact ⟨_, clean_bool false⟩
        by_cases h6 : c = 110
        · subst h6
          rw [scanValue_lit_null h]
          exact ⟨_, clean_null⟩
        rw [scanValue_other h1 h2 h3 h4 h5 h6] at h
        simp only [Option.map_eq_some'] at h
        obtain ⟨⟨x, r0⟩, hx, rfl⟩ := h
        exact ⟨_, clean_num hx⟩
    · intro t r h
      rw [scanElems] at h
      cases hv : scanValue n t with
      | none => simp [hv] at h
      | some v =>
        obtain ⟨tok, hc⟩ := ihV t v hv
        cases hsk : skipWs v.rest with
        | nil => simp [hv, hsk] at h
        | cons d r1 =>
          by_cases hd : d = 44
          · simp only [hv, hsk, if_pos hd, Option.map_eq_some'] at h
            obtain ⟨p, hp, rfl⟩ := h
            obtain ⟨sp, hsp⟩ := ihE _ p hp
            exact ⟨_, cleanElems_cons hc hsp⟩
          · by_cases hd2 : d = 93
            · simp only [hv, hsk, if_neg hd, if_pos hd2, Option.some.injEq] at h
              subst h
              exact ⟨_, cleanElems_last hc⟩
            · simp [hv, hsk, hd, hd2] at h
    · intro t r h
      cases t with
      | nil => simp [scanMembers] at h
      | cons q t =>
        rw [scanMembers] at h
        by_cases hq : q = 34
        · cases hk : scanStr t with
          | none => simp [hq, hk] at h
          | some k =>
            have hkc := scanStr_out_clean hk
            cases hsk : skipWs k.rest with
            | nil => simp [hq, hk, hsk] at h
            | cons col t2 =>
              by_cases hcol : col = 58
              · cases hv : scanValue n (skipWs t2) with
                | none => simp [hq, hk, hsk, hcol, hv] at h
                | some v =>
                  obtain ⟨tok, hc⟩ := ihV _ v hv
                  cases hsk2 : skipWs v.rest with
                  | nil => simp [hq, hk, hsk, hcol, hv, hsk2] at h
                  | cons d r1 =>
                    by_cases hd : d = 44
                    · simp only [if_pos hq, hk, hsk, if_pos hcol, hv, hsk2, if_pos hd,
                        Option.map_eq_some'] at h
                      obtain ⟨p, hp, rfl⟩ := h
                      obtain ⟨ms, hms⟩ := ihM _ p hp
                      exact ⟨_, cleanMembers_cons hkc hc hms⟩
                    · by_cases hd2 : d = 125
                      · simp only [if_pos hq, hk, hsk, if_pos hcol, hv, hsk2, if_neg hd,
                          if_pos hd2, Option.some.injEq] at h
                        subst h
                        exact ⟨_, cleanMembers_last hkc hc⟩
                      · simp [hq, hk, hsk, hcol, hv, hsk2, hd, hd2] at h
              · simp [hq, hk, hsk, hcol] at h
        · simp [hq] at h

/-- What `compact` returns is one JSON value in compact form, nested no deeper
than the scanner allows. -/
theorem compact_clean {p c : GoString} (h : compact p = some c) :
    (∃ tok, Clean c tok) ∧ nesting c ≤ maxNestingDepth := by
  unfold compact scanTop at h
  cases hs : scanValue (p.length + 1) (skipWs p) with
  | none => simp [hs] at h
  | some w =>
    simp only [hs] at h
    by_cases h1 : skipWs w.rest = []
    · by_cases h2 : w.nesting ≤ maxNestingDepth
      · simp only [h1, h2, if_true, Option.some.injEq] at h
        rw [← h]
        exact ⟨(scan_out_clean _).1 _ _ hs, h2⟩
      · simp [h1, h2] at h
    · simp [h1] at h

theorem compact_idem {p c : GoString} (h : compact p = some c) : compact c = some c := by
  obtain ⟨⟨_, hc⟩, hd⟩ := compact_clean h
  exact clean_compact hc hd

/-! ## The strings of a client are valid UTF-8 -/

theorem decodeRoomInfo_valid (span : GoString) (cur : RoomInfo) (h : cur.Valid) :
    (decodeRoomInfo span cur).1.Valid := by
  refine decodeStruct_inv RoomInfo.Valid _ _ ?_ span cur h
  intro i sp v hv
  obtain ⟨h1, h2, h3, h4, h5⟩ := hv
  unfold RoomInfo.assign
  split
  · exact ⟨decodeString_valid _ _ h1, h2, h3, h4, h5⟩
  · exact ⟨h1, decodeString_valid _ _ h2, h3, h4, h5⟩
  · exact ⟨h1, h2, decodeString_valid _ _ h3, h4, h5⟩
  · exact ⟨h1, h2, h3, decodeString_valid _ _ h4, h5⟩
  · exact ⟨h1, h2, h3, h4, h5⟩
  · exact ⟨h1, h2, h3, h4, h5⟩
  · exact ⟨h1, h2, h3, h4, decodeString_valid _ _ h5⟩
  · exact ⟨h1, h2, h3, h4, h5⟩
  · exact ⟨h1, h2, h3, h4, h5⟩

theorem decodeStream_roomInfo_valid (body : GoString) (cur : RoomInfo) (h : cur.Valid) :
    (decodeStream decodeRoomInfo body cur).1.Valid := by
  unfold decodeStream
  split
  · exact h
  · split
    · exact h
    · exact decodeRoomInfo_valid _ _ h

theorem genUserID_valid (env : Env) (jc : JackboxClient) (he : env.Valid) (h : jc.Valid) :
    (genUserID env jc).jc.Valid := by
  unfold genUserID
  split
  · exact h
  · rename_i u hu
    exact ⟨h.1, he u hu⟩

theorem getRoomInfoRequest_valid (env : Env) (jc : JackboxClient) (u : URL) (pre : List Effect)
    (h : jc.Valid) : (getRoomInfoRequest env jc u pre).jc.Valid := by
  unfold getRoomInfoRequest
  simp only []
  split
  · exact h
  · split
    · exact h
    · split
      · exact h
      · exact ⟨decodeStream_roomInfo_valid _ _ h.1, h.2⟩

theorem GetRoomInfo_valid (env : Env) (jc : JackboxClient) (roomID : GoString) (he : env.Valid)
    (h : jc.Valid) : (GetRoomInfo env jc roomID).jc.Valid := by
  unfold GetRoomInfo
  simp only []
  split
  · split
    · exact getRoomInfoRequest_valid _ _ _ _ (genUserID_valid env jc he h)
    · exact genUserID_valid env jc he h
  · exact getRoomInfoRequest_valid _ _ _ _ h

theorem setupWebsocket_valid (env : Env) (jc : JackboxClient) (h : jc.Valid) :
    (setupWebsocket env jc).jc.Valid := by
  unfold setupWebsocket
  simp only []
  split
  · exact h
  · split
    · exact h
    · split
      · split <;> exact h
      · exact h

/-- A client made by `MakeJackboxClient` holds valid strings. -/
theorem MakeJackboxClient_valid (env : Env) (he : env.Valid) : (MakeJackboxClient env).jc.Valid := by
  have hz : JackboxClient.zero.Valid := ⟨⟨rfl, rfl, rfl, rfl, rfl⟩, rfl⟩
  have hg := genUserID_valid env JackboxClient.zero he hz
  unfold MakeJackboxClient
  split
  · exact hg
  · exact hg

/-- The strings of the client stay valid through `JoinRoom`. -/
theorem JoinRoom_valid (env : Env) (jc : JackboxClient) (name roomID : GoString) (he : env.Valid)
    (h : jc.Valid) : (JoinRoom env jc name roomID).jc.Valid := by
  have hg := GetRoomInfo_valid env jc roomID he h
  have hs := setupWebsocket_valid env _ hg
  unfold JoinRoom
  split
  · exact h
  · split
    · simp only []
      split
      · exact hg
      · split
        · split
          · exact hs
          · exact hs
        · exact hs
    · exact hg

/-- The strings of the client stay valid through `SetPlayerPicture`. -/
theorem SetPlayerPicture_valid (env : Env) (jc : JackboxClient) (fn : GoString) (h : jc.Valid) :
    (SetPlayerPicture env jc fn).jc.Valid := by
  unfold SetPlayerPicture
  split
  · exact h
  · split
    · exact h
    · split
      · exact h
      · split
        · exact h
        · exact h

/-! ## The bounds on steps and nesting are enough -/

theorem skipWs_length : ∀ t : GoString, (skipWs t).length ≤ t.length
  | [] => by simp [skipWs]
  | c :: t => by
    unfold skipWs
    split
    · have := skipWs_length t
      simp only [List.length_cons]
      omega
    · exact Nat.le_refl _

theorem strStep_more_length {t raw out rest : GoString} (h : strStep t = .more raw out rest) :
    rest.length < t.length := by
  cases t with
  | nil => simp [strStep] at h
  | cons c t =>
    simp only [strStep] at h
    split_ifs at h with h1 h2 h3 h4 h5
    · split at h
      · cases h
      · split_ifs at h with h6 h7
        · split at h
          · split_ifs at h
            injection h with _ _ e
            subst e
            simp only [List.length_cons]
            omega
          · cases h
        · injection h with _ _ e
          subst e
          simp only [List.length_cons]
          omega
    · injection h with _ _ e
      subst e
      simp
    · split at h
      · split_ifs at h
        · injection h with _ _ e
          subst e
          simp only [List.length_cons]
          omega
        · injection h with _ _ e
          subst e
          simp
      · injection h with _ _ e
        subst e
        simp
    · injection h with _ _ e
      subst e
      simp

/-- A scan of a string body that succeeds with some bound on the steps succeeds
with every bound from the number of bytes read on. -/
theorem scanStrN_fuel : ∀ (n : Nat) (t : GoString) (s : StrScan), scanStrN n t = some s →
    s.rest.length < t.length ∧ ∀ m, t.length - s.rest.length ≤ m → scanStrN m t = some s
  | 0, _, _, h => by simp [scanStrN] at h
  | n + 1, t, s, h => by
    rw [scanStrN] at h
    cases hst : strStep t with
    | fail => simp [hst] at h
    | done r0 =>
      simp only [hst, Option.some.injEq] at h
      subst h
      cases t with
      | nil => simp [strStep] at hst
      | cons c t =>
        have hc : c = 34 := by
          by_contra hne
          simp only [strStep] at hst
          rw [if_neg hne] at hst
          split_ifs at hst <;> first | cases hst | (split at hst <;> first | cases hst | (split_ifs at hst <;> first | cases hst | (split at hst <;> first | cases hst | (split_ifs at hst <;> cases hst))))
        subst hc
        have hr : r0 = t := by
          simp [strStep] at hst
          exact hst.symm
        subst hr
        refine ⟨by simp, ?_⟩
        intro m hm
        simp only [List.length_cons] at hm
        obtain ⟨k, rfl⟩ : ∃ k, m = k + 1 := ⟨m - 1, by omega⟩
        exact scanStrN_quote k r0
    | more raw out rest0 =>
      simp only [hst, Option.map_eq_some'] at h
      obtain ⟨s', hs', rfl⟩ := h
      obtain ⟨ih1, ih2⟩ := scanStrN_fuel n rest0 s' hs'
      have hl := strStep_more_length hst
      refine ⟨by simp only [StrScan.push]; omega, ?_⟩
      intro m hm
      simp only [StrScan.push] at hm
      obtain ⟨k, rfl⟩ : ∃ k, m = k + 1 := ⟨m - 1, by omega⟩
      rw [scanStrN_more k hst, ih2 k (by omega)]
      rfl

/-- The bound that `scanStr` puts on the steps is enough: a string body that
scans with any bound scans with this one. -/
theorem scanStr_complete {n : Nat} {t : GoString} {s : StrScan} (h : scanStrN n t = some s) :
    scanStr t = some s :=
  (scanStrN_fuel n t s h).2 _ (Nat.sub_le _ _)

theorem scanStr_length {t : GoString} {s : StrScan} (h : scanStr t = some s) :
    s.rest.length < t.length :=
  (scanStrN_fuel _ t s h).1

theorem spanDigits_length : ∀ t : GoString, (spanDigits t).2.length ≤ t.length
  | [] => by simp [spanDigits]
  | c :: t => by
    unfold spanDigits
    split
    · have := spanDigits_length t
      simp only [List.length_cons]
      omega
    · exact Nat.le_refl _

theorem scanExp_length {t e r : GoString} (h : scanExp t = some (e, r)) : r.length ≤ t.length := by
  cases t with
  | nil =>
    simp only [scanExp, Option.some.injEq, Prod.mk.injEq] at h
    rw [← h.2]
  | cons c t =>
    simp only [scanExp] at h
    split_ifs at h with hc
    · split at h
      · cases h
      · rename_i s t1
        split_ifs at h with hs hd hd
        · simp only [Option.some.injEq, Prod.mk.injEq] at h
          rw [← h.2]
          have := spanDigits_length t1
          simp only [List.length_cons]
          omega
        · simp only [Option.some.injEq, Prod.mk.injEq] at h
          rw [← h.2]
          have := spanDigits_length (s :: t1)
          simp only [List.length_cons] at this ⊢
          omega
    · simp only [Option.some.injEq, Prod.mk.injEq] at h
      rw [← h.2]

theorem scanFrac_length {t f r : GoString} (h : scanFrac t = some (f, r)) :
    r.length ≤ t.length := by
  cases t with
  | nil =>
    simp only [scanFrac, Option.some.injEq, Prod.mk.injEq] at h
    rw [← h.2]
  | cons c t =>
    simp only [scanFrac] at h
    split_ifs at h with hc hd
    · simp only [Option.map_eq_some', Prod.mk.injEq] at h
      obtain ⟨⟨e, r1⟩, he, _, h2⟩ := h
      have h3 := scanExp_length he
      have := spanDigits_length t
      simp only at h2
      rw [← h2]
      simp only [List.length_cons]
      omega
    · exact scanExp_length h

theorem scanInt_length {t i r : GoString} (h : scanInt t = some (i, r)) : r.length < t.length := by
  cases t with
  | nil => simp [scanInt] at h
  | cons c t =>
    simp only [scanInt] at h
    split_ifs at h with hc hc2
    · simp only [Option.map_eq_some', Prod.mk.injEq] at h
      obtain ⟨⟨f, r1⟩, hf, _, h2⟩ := h
      have h3 := scanFrac_length hf
      simp only at h2
      rw [← h2]
      simp only [List.length_cons]
      omega
    · simp only [Option.map_eq_some', Prod.mk.injEq] at h
      obtain ⟨⟨f, r1⟩, hf, _, h2⟩ := h
      have h3 := scanFrac_length hf
      have := spanDigits_length t
      simp only at h2
      rw [← h2]
      simp only [List.length_cons]
      omega

theorem scanNum_length {t x r : GoString} (h : scanNum t = some (x, r)) : r.length < t.length := by
  cases t with
  | nil => simp [scanNum] at h
  | cons c t =>
    simp only [scanNum] at h
    split_ifs at h with hc
    · simp only [Option.map_eq_some', Prod.mk.injEq] at h
      obtain ⟨⟨i, r1⟩, hi, _, h2⟩ := h
      have h3 := scanInt_length hi
      simp only at h2
      rw [← h2]
      simp only [List.length_cons]
      omega
    · exact scanInt_length h

theorem scanValue_true_inv {n : Nat} {t : GoString} {v : Scan}
    (h : scanValue (n + 1) (116 :: t) = some v) : ∃ r, t = 114 :: 117 :: 101 :: r ∧ v.rest = r := by
  by_cases ht : ∃ r, t = 114 :: 117 :: 101 :: r
  · obtain ⟨r, rfl⟩ := ht
    rw [scanValue_true] at h
    injection h with h
    subst h
    exact ⟨r, rfl, rfl⟩
  · exfalso
    apply ht
    simp only [scanValue, Nat.reduceEqDiff, if_false, if_true] at h
    split at h
    · exact ⟨_, rfl⟩
    · cases h

theorem scanValue_false_inv {n : Nat} {t : GoString} {v : Scan}
    (h : scanValue (n + 1) (102 :: t) = some v) :
    ∃ r, t = 97 :: 108 :: 115 :: 101 :: r ∧ v.rest = r := by
  by_cases ht : ∃ r, t = 97 :: 108 :: 115 :: 101 :: r
  · obtain ⟨r, rfl⟩ := ht
    rw [scanValue_false] at h
    injection h with h
    subst h
    exact ⟨r, rfl, rfl⟩
  · exfalso
    apply ht
    simp only [scanValue, Nat.reduceEqDiff, if_false, if_true] at h
    split at h
    · exact ⟨_, rfl⟩
    · cases h

theorem scanValue_null_inv {n : Nat} {t : GoString} {v : Scan}
    (h : scanValue (n + 1) (110 :: t) = some v) : ∃ r, t = 117 :: 108 :: 108 :: r ∧ v.rest = r := by
  by_cases ht : ∃ r, t = 117 :: 108 :: 108 :: r
  · obtain ⟨r, rfl⟩ := ht
    rw [scanValue_null] at h
    injection h with h
    subst h
    exact ⟨r, rfl, rfl⟩
  · exfalso
    apply ht
    simp only [scanValue, Nat.reduceEqDiff, if_false, if_true] at h
    split at h
    · exact ⟨_, rfl⟩
    · cases h

/-- A scan that succeeds with some bound on the nesting succeeds, with the same
result, with every bound from the number of bytes read on. -/
theorem scan_fuel : ∀ n : Nat,
    (∀ t v, scanValue n t = some v →
      v.rest.length < t.length ∧ ∀ m, t.length - v.rest.length ≤ m → scanValue m t = some v) ∧
    (∀ t r, scanElems n t = some r →
      r.2.2.length < t.length ∧ ∀ m, t.length - r.2.2.length ≤ m → scanElems m t = some r) ∧
    (∀ t r, scanMembers n t = some r →
      r.2.2.length < t.length ∧ ∀ m, t.length - r.2.2.length ≤ m → scanMembers m t = some r)
  | 0 =>
    ⟨fun t v h => by simp [scanValue] at h, fun t r h => by simp [scanElems] at h,
      fun t r h => by simp [scanMembers] at h⟩
  | n + 1 => by
    obtain ⟨ihV, ihE, ihM⟩ := scan_fuel n
    refine ⟨?_, ?_, ?_⟩
    · intro t v h
      cases t with
      | nil => simp [scanValue] at h
      | cons c t =>
        by_cases h1 : c = 123
        · subst h1
          have hws := skipWs_length t
          cases hsk : skipWs t with
          | nil => simp [scanValue, hsk] at h
          | cons d r =>
            rw [hsk] at hws
            simp only [List.length_cons] at hws
            by_cases hd : d = 125
            · subst hd
              rw [scanValue_obj_empty n t r hsk] at h
              injection h with h
              subst h
              refine ⟨by simp only [List.length_cons]; omega, ?_⟩
              intro m hm
              simp only [List.length_cons] at hm
              obtain ⟨k, rfl⟩ : ∃ k, m = k + 1 := ⟨m - 1, by omega⟩
              exact scanValue_obj_empty k t r hsk
            · rw [scanValue_obj n t r d hsk hd] at h
              simp only [Option.map_eq_some'] at h
              obtain ⟨p, hp, rfl⟩ := h
              obtain ⟨ih1, ih2⟩ := ihM _ p hp
              simp only [List.length_cons] at ih1 ih2
              refine ⟨by simp only [List.length_cons]; omega, ?_⟩
              intro m hm
              simp only [List.length_cons] at hm
              obtain ⟨k, rfl⟩ : ∃ k, m = k + 1 := ⟨m - 1, by omega⟩
              rw [scanValue_obj k t r d hsk hd, ih2 k (by omega)]
              rfl
        by_cases h2 : c = 91
        · subst h2
          have hws := skipWs_length t
          cases hsk : skipWs t with
          | nil => simp [scanValue, hsk] at h
          | cons d r =>
            rw [hsk] at hws
            simp only [List.length_cons] at hws
            by_cases hd : d = 93
            · subst hd
              rw [scanValue_arr_empty n t r hsk] at h
              injection h with h
              subst h
              refine ⟨by simp only [List.length_cons]; omega, ?_⟩
              intro m hm
              simp only [List.length_cons] at hm
              obtain ⟨k, rfl⟩ : ∃ k, m = k + 1 := ⟨m - 1, by omega⟩
              exact scanValue_arr_empty k t r hsk
            · rw [scanValue_arr n t r d hsk hd] at h
              simp only [Option.map_eq_some'] at h
              obtain ⟨p, hp, rfl⟩ := h
              obtain ⟨ih1, ih2⟩ := ihE _ p hp
              simp only [List.length_cons] at ih1 ih2
              refine ⟨by simp only [List.length_cons]; omega, ?_⟩
              intro m hm
              simp only [List.length_cons] at hm
              obtain ⟨k, rfl⟩ : ∃ k, m = k + 1 := ⟨m - 1, by omega⟩
              rw [scanValue_arr k t r d hsk hd, ih2 k (by omega)]
              rfl
        by_cases h3 : c = 34
        · subst h3
          have h' := h
          rw [scanValue_string] at h
          simp only [Option.map_eq_some'] at h
          obtain ⟨s, hs, rfl⟩ := h
          have hl := scanStr_length hs
          refine ⟨by simp only [List.length_cons]; omega, ?_⟩
          intro m hm
          simp only [List.length_cons] at hm
          obtain ⟨k, rfl⟩ : ∃ k, m = k + 1 := ⟨m - 1, by omega⟩
          rw [scanValue_string, hs]
          rfl
        by_cases h4 : c = 116
        · subst h4
          obtain ⟨r, rfl, hr⟩ := scanValue_true_inv h
          rw [scanValue_true] at h
          injection h with h
          subst h
          refine ⟨by simp only [List.length_cons]; omega, ?_⟩
          intro m hm
          simp only [List.length_cons] at hm
          obtain ⟨k, rfl⟩ : ∃ k, m = k + 1 := ⟨m - 1, by omega⟩
          exact scanValue_true k r
        by_cases h5 : c = 102
        · subst h5
          obtain ⟨r, rfl, hr⟩ := scanValue_false_inv h
          rw [scanValue_false] at h
          injection h with h
          subst h
          refine ⟨by simp only [List.length_cons]; omega, ?_⟩
          intro m hm
          simp only [List.length_cons] at hm
          obtain ⟨k, rfl⟩ : ∃ k, m = k + 1 := ⟨m - 1, by omega⟩
          exact scanValue_false k r
        by_cases h6 : c = 110
        · subst h6
          obtain ⟨r, rfl, hr⟩ := scanValue_null_inv h
          rw [scanValue_null] at h
          injection h with h
          subst h
          refine ⟨by simp only [List.length_cons]; omega, ?_⟩
          intro m hm
          simp only [List.length_cons] at hm
          obtain ⟨k, rfl⟩ : ∃ k, m = k + 1 := ⟨m - 1, by omega⟩
          exact scanValue_null k r
        rw [scanValue_other h1 h2 h3 h4 h5 h6] at h
        simp only [Option.map_eq_some'] at h
        obtain ⟨⟨x, r0⟩, hx, rfl⟩ := h
        have hl := scanNum_length hx
        refine ⟨hl, ?_⟩
        intro m hm
        simp only at hm
        obtain ⟨k, rfl⟩ : ∃ k, m = k + 1 := ⟨m - 1, by omega⟩
        rw [scanValue_other h1 h2 h3 h4 h5 h6, hx]
        rfl
    · intro t r h
      rw [scanElems] at h
      cases hv : scanValue n t with
      | none => simp [hv] at h
      | some v =>
        obtain ⟨iv1, iv2⟩ := ihV t v hv
        have hws := skipWs_length v.rest
        cases hsk : skipWs v.rest with
        | nil => simp [hv, hsk] at h
        | cons d r1 =>
          rw [hsk] at hws
          simp only [List.length_cons] at hws
          by_cases hd : d = 44
          · subst hd
            simp only [hv, hsk, if_true, Option.map_eq_some'] at h
            obtain ⟨p, hp, rfl⟩ := h
            obtain ⟨ie1, ie2⟩ := ihE _ p hp
            have hws2 := skipWs_length r1
            refine ⟨by simp only; omega, ?_⟩
            intro m hm
            simp only at hm
            obtain ⟨k, rfl⟩ : ∃ k, m = k + 1 := ⟨m - 1, by omega⟩
            rw [scanElems_more (iv2 k (by omega)) hsk, ie2 k (by omega)]
            rfl
          · by_cases hd2 : d = 93
            · subst hd2
              simp only [hv, hsk, if_neg hd, if_true, Option.some.injEq] at h
              subst h
              refine ⟨by simp only; omega, ?_⟩
              intro m hm
              simp only at hm
              obtain ⟨k, rfl⟩ : ∃ k, m = k + 1 := ⟨m - 1, by omega⟩
              exact scanElems_last (iv2 k (by omega)) hsk
            · simp [hv, hsk, hd, hd2] at h
    · intro t r h
      cases t with
      | nil => simp [scanMembers] at h
      | cons q t =>
        rw [scanMembers] at h
        by_cases hq : q = 34
        · subst hq
          cases hk : scanStr t with
          | none => simp [hk] at h
          | some k =>
            have hkl := scanStr_length hk
            have hws := skipWs_length k.rest
            cases hsk : skipWs k.rest with
            | nil => simp [hk, hsk] at h
            | cons col t2 =>
              rw [hsk] at hws
              simp only [List.length_cons] at hws
              by_cases hcol : col = 58
              · subst hcol
                have hws3 := skipWs_length t2
                cases hv : scanValue n (skipWs t2) with
                | none => simp [hk, hsk, hv] at h
                | some v =>
                  obtain ⟨iv1, iv2⟩ := ihV _ v hv
                  have hws2 := skipWs_length v.rest
                  cases hsk2 : skipWs v.rest with
                  | nil => simp [hk, hsk, hv, hsk2] at h
                  | cons d r1 =>
                    rw [hsk2] at hws2
                    simp only [List.length_cons] at hws2
                    by_cases hd : d = 44
                    · subst hd
                      simp only [if_true, hk, hsk, hv, hsk2, Option.map_eq_some'] at h
                      obtain ⟨p, hp, rfl⟩ := h
                      obtain ⟨im1, im2⟩ := ihM _ p hp
                      have hws4 := skipWs_length r1
                      refine ⟨by simp only [List.length_cons]; omega, ?_⟩
                      intro m hm
                      simp only [List.length_cons] at hm
                      obtain ⟨j, rfl⟩ : ∃ j, m = j + 1 := ⟨m - 1, by omega⟩
                      rw [scanMembers_more hk hsk (iv2 j (by omega)) hsk2, im2 j (by omega)]
                      rfl
                    · by_cases hd2 : d = 125
                      · subst hd2
                        simp only [if_true, hk, hsk, hv, hsk2, if_neg hd, Option.some.injEq] at h
                        subst h
                        refine ⟨by simp only [List.length_cons]; omega, ?_⟩
                        intro m hm
                        simp only [List.length_cons] at hm
                        obtain ⟨j, rfl⟩ : ∃ j, m = j + 1 := ⟨m - 1, by omega⟩
                        exact scanMembers_last hk hsk (iv2 j (by omega)) hsk2
                      · simp [hk, hsk, hv, hsk2, hd, hd2] at h
              · simp [hk, hsk, hcol] at h
        · simp [hq] at h

/-- The bound that `scanTop` puts on the nesting is enough: a text that scans as
one value with any bound scans with this one. -/
theorem scanTop_complete {n : Nat} {data : GoString} {v : Scan}
    (h : scanValue n (skipWs data) = some v) (hr : skipWs v.rest = []) :
    scanTop data = some v := by
  have hf := ((scan_fuel n).1 _ v h).2 (data.length + 1) (by
    have := skipWs_length data
    omega)
  simp [scanTop, hf, hr]

theorem unquoteStep_length {c : Nat} {t : GoString} {p : GoString × GoString}
    (h : unquoteStep (c :: t) = some p) : p.2.length ≤ t.length := by
  unfold unquoteStep at h
  simp only [] at h
  by_cases h1 : c = 92
  · rw [if_pos h1] at h
    cases t with
    | nil => simp at h
    | cons e t1 =>
      simp only [] at h
      by_cases g1 : e = 117
      · rw [if_pos g1] at h
        cases hg : getu4 (c :: e :: t1) with
        | none => simp [hg] at h
        | some rr =>
          simp only [hg] at h
          by_cases hsur : 0xD800 ≤ rr ∧ rr < 0xE000
          · rw [if_pos hsur] at h
            cases hg2 : getu4 (List.drop 4 t1) with
            | none =>
              simp only [hg2, Option.some.injEq] at h
              rw [← h]
              simp only [List.length_drop, List.length_cons]
              omega
            | some rr1 =>
              simp only [hg2] at h
              by_cases hp : rr < 0xDC00 ∧ 0xDC00 ≤ rr1 ∧ rr1 < 0xE000
              · rw [if_pos hp, Option.some.injEq] at h
                rw [← h]
                simp only [List.length_drop, List.length_cons]
                omega
              · rw [if_neg hp, Option.some.injEq] at h
                rw [← h]
                simp only [List.length_drop, List.length_cons]
                omega
          · rw [if_neg hsur, Option.some.injEq] at h
            rw [← h]
            simp only [List.length_drop, List.length_cons]
            omega
      · rw [if_neg g1] at h
        by_cases g2 : e = 39
        · rw [if_pos g2, Option.some.injEq] at h
          rw [← h]
          simp only [List.length_cons]
          omega
        · rw [if_neg g2] at h
          cases hx : simpleEsc e with
          | none => simp [hx] at h
          | some x =>
            simp only [hx, Option.some.injEq] at h
            rw [← h]
            simp only [List.length_cons]
            omega
  · rw [if_neg h1] at h
    by_cases h2 : c = 34 ∨ c < 32
    · rw [if_pos h2] at h
      cases h
    · rw [if_neg h2] at h
      by_cases h3 : c < 0x80
      · rw [if_pos h3, Option.some.injEq] at h
        rw [← h]
      · rw [if_neg h3] at h
        by_cases h4 : (decodeRune (c :: t)).2 ≤ 1
        · rw [if_pos h4, Option.some.injEq] at h
          rw [← h]
        · rw [if_neg h4, Option.some.injEq] at h
          rw [← h]
          simp only [List.length_drop]
          omega

/-- A text that unquotes with some bound on the steps unquotes, to the same
bytes, with every bound from its length on. -/
theorem unquoteN_fuel : ∀ (n : Nat) (s r : GoString), unquoteN n s = some r →
    ∀ m, s.length ≤ m → unquoteN m s = some r
  | _, [], r, h => by
    intro m _
    simp only [unquoteN, Option.some.injEq] at h
    subst h
    cases m <;> simp [unquoteN]
  | 0, _ :: _, r, h => by simp [unquoteN] at h
  | n + 1, c :: t, r, h => by
    intro m hm
    simp only [List.length_cons] at hm
    obtain ⟨k, rfl⟩ : ∃ k, m = k + 1 := ⟨m - 1, by omega⟩
    rw [unquoteN] at h ⊢
    cases hs : unquoteStep (c :: t) with
    | none => simp [hs] at h
    | some p =>
      simp only [hs] at h ⊢
      cases hr : unquoteN n p.2 with
      | none => simp [hr] at h
      | some r' =>
        have hl := unquoteStep_length hs
        rw [unquoteN_fuel n p.2 r' hr k (by omega)]
        simpa [hr] using h

/-- The bound that `unquote` puts on the steps is enough. -/
theorem unquote_complete {n : Nat} {s r : GoString} (h : unquoteN n s = some r) :
    unquote s = some r :=
  unquoteN_fuel n s r h _ (Nat.le_refl _)

theorem spanOf_length (t rest : GoString) (h : 0 < rest.length) (ht : 0 < t.length) :
    (spanOf t rest).length < t.length := by
  simp only [spanOf, List.length_take]
  omega

/-- The source texts of the elements of an array and of the values of the
members of an object are shorter than the text they are read from. -/
theorem scan_spans_length : ∀ n : Nat,
    (∀ t v, scanValue n t = some v →
      (∀ es, v.tok = .arr es → ∀ e ∈ es, e.length < t.length) ∧
      (∀ ms, v.tok = .obj ms → ∀ kv ∈ ms, kv.2.length < t.length)) ∧
    (∀ t r, scanElems n t = some r → ∀ e ∈ r.1, e.length < t.length) ∧
    (∀ t r, scanMembers n t = some r → ∀ kv ∈ r.1, kv.2.length < t.length)
  | 0 =>
    ⟨fun t v h => by simp [scanValue] at h, fun t r h => by simp [scanElems] at h,
      fun t r h => by simp [scanMembers] at h⟩
  | n + 1 => by
    obtain ⟨_, ihE, ihM⟩ := scan_spans_length n
    refine ⟨?_, ?_, ?_⟩
    · intro t v h
      cases t with
      | nil => simp [scanValue] at h
      | cons c t =>
        by_cases h1 : c = 123
        · subst h1
          have hws := skipWs_length t
          cases hsk : skipWs t with
          | nil => simp [scanValue, hsk] at h
          | cons d r =>
            rw [hsk] at hws
            by_cases hd : d = 125
            · subst hd
              rw [scanValue_obj_empty n t r hsk] at h
              injection h with h
              subst h
              refine ⟨(fun es he => by cases he), fun ms hms => ?_⟩
              injection hms with hms
              subst hms
              simp
            · rw [scanValue_obj n t r d hsk hd] at h
              simp only [Option.map_eq_some'] at h
              obtain ⟨p, hp, rfl⟩ := h
              refine ⟨(fun es he => by cases he), fun ms hms => ?_⟩
              injection hms with hms
              subst hms
              intro kv hkv
              have := ihM _ p hp kv hkv
              simp only [List.length_cons] at this hws ⊢
              omega
        by_cases h2 : c = 91
        · subst h2
          have hws := skipWs_length t
          cases hsk : skipWs t with
          | nil => simp [scanValue, hsk] at h
          | cons d r =>
            rw [hsk] at hws
            by_cases hd : d = 93
            · subst hd
              rw [scanValue_arr_empty n t r hsk] at h
              injection h with h
              subst h
              refine ⟨fun es he => ?_, (fun ms hms => by cases hms)⟩
              injection he with he
              subst he
              simp
            · rw [scanValue_arr n t r d hsk hd] at h
              simp only [Option.map_eq_some'] at h
              obtain ⟨p, hp, rfl⟩ := h
              refine ⟨fun es he => ?_, (fun ms hms => by cases hms)⟩
              injection he with he
              subst he
              intro e hmem
              have := ihE _ p hp e hmem
              simp only [List.length_cons] at this hws ⊢
              omega
        by_cases h3 : c = 34
        · subst h3
          rw [scanValue_string] at h
          simp only [Option.map_eq_some'] at h
          obtain ⟨s, hs, rfl⟩ := h
          exact ⟨(fun es he => by cases he), (fun ms hms => by cases hms)⟩
        by_cases h4 : c = 116
        · subst h4
          obtain ⟨r, rfl, hr⟩ := scanValue_true_inv h
          rw [scanValue_true] at h
          injection h with h
          subst h
          exact ⟨(fun es he => by cases he), (fun ms hms => by cases hms)⟩
        by_cases h5 : c = 102
        · subst h5
          obtain ⟨r, rfl, hr⟩ := scanValue_false_inv h
          rw [scanValue_false] at h
          injection h with h
          subst h
          exact ⟨(fun es he => by cases he), (fun ms hms => by cases hms)⟩
        by_cases h6 : c = 110
        · subst h6
          obtain ⟨r, rfl, hr⟩ := scanValue_null_inv h
          rw [scanValue_null] at h
          injection h with h
          subst h
          exact ⟨(fun es he => by cases he), (fun ms hms => by cases hms)⟩
        rw [scanValue_other h1 h2 h3 h4 h5 h6] at h
        simp only [Option.map_eq_some'] at h
        obtain ⟨⟨x, r0⟩, hx, rfl⟩ := h
        exact ⟨(fun es he => by cases he), (fun ms hms => by cases hms)⟩
    · intro t r h
      rw [scanElems] at h
      cases hv : scanValue n t with
      | none => simp [hv] at h
      | some v =>
        have hvl := ((scan_fuel n).1 t v hv).1
        have hws := skipWs_length v.rest
        cases hsk : skipWs v.rest with
        | nil => simp [hv, hsk] at h
        | cons d r1 =>
          rw [hsk] at hws
          simp only [List.length_cons] at hws
          have hspan : (spanOf t v.rest).length < t.length :=
            spanOf_length t v.rest (by omega) (by omega)
          by_cases hd : d = 44
          · subst hd
            simp only [hv, hsk, if_true, Option.map_eq_some'] at h
            obtain ⟨p, hp, rfl⟩ := h
            have hws2 := skipWs_length r1
            intro e hmem
            simp only [List.mem_cons] at hmem
            rcases hmem with hmem | hmem
            · rw [hmem]
              exact hspan
            · have := ihE _ p hp e hmem
              omega
          · by_cases hd2 : d = 93
            · subst hd2
              simp only [hv, hsk, if_neg hd, if_true, Option.some.injEq] at h
              subst h
              intro e hmem
              simp only [List.mem_singleton] at hmem
              rw [hmem]
              exact hspan
            · simp [hv, hsk, hd, hd2] at h
    · intro t r h
      cases t with
      | nil => simp [scanMembers] at h
      | cons q t =>
        rw [scanMembers] at h
        by_cases hq : q = 34
        · subst hq
          cases hk : scanStr t with
          | none => simp [hk] at h
          | some k =>
            have hkl := scanStr_length hk
            have hws := skipWs_length k.rest
            cases hsk : skipWs k.rest with
            | nil => simp [hk, hsk] at h
            | cons col t2 =>
              rw [hsk] at hws
              simp only [List.length_cons] at hws
              by_cases hcol : col = 58
              · subst hcol
                have hws3 := skipWs_length t2
                cases hv : scanValue n (skipWs t2) with
                | none => simp [hk, hsk, hv] at h
                | some v =>
                  have hvl := ((scan_fuel n).1 _ v hv).1
                  have hws2 := skipWs_length v.rest
                  cases hsk2 : skipWs v.rest with
                  | nil => simp [hk, hsk, hv, hsk2] at h
                  | cons d r1 =>
                    rw [hsk2] at hws2
                    simp only [List.length_cons] at hws2
                    have hspan : (spanOf (skipWs t2) v.rest).length < (skipWs t2).length :=
                      spanOf_length _ v.rest (by omega) (by omega)
                    by_cases hd : d = 44
                    · subst hd
                      simp only [if_true, hk, hsk, hv, hsk2, Option.map_eq_some'] at h
                      obtain ⟨p, hp, rfl⟩ := h
                      have hws4 := skipWs_length r1
                      intro kv hmem
                      simp only [List.mem_cons] at hmem
                      rcases hmem with hmem | hmem
                      · rw [hmem]
                        simp only [List.length_cons]
                        omega
                      · have := ihM _ p hp kv hmem
                        simp only [List.length_cons]
                        omega
                    · by_cases hd2 : d = 125
                      · subst hd2
                        simp only [if_true, hk, hsk, hv, hsk2, if_neg hd, Option.some.injEq] at h
                        subst h
                        intro kv hmem
                        simp only [List.mem_singleton] at hmem
                        rw [hmem]
                        simp only [List.length_cons]
                        omega
                      · simp [hk, hsk, hv, hsk2, hd, hd2] at h
              · simp [hk, hsk, hcol] at h
        · simp [hq] at h

theorem tokOf_spans_length {span : GoString} {tok : JTok} (h : tokOf span = some tok) :
    (∀ es, tok = .arr es → ∀ e ∈ es, e.length < span.length) ∧
      (∀ ms, tok = .obj ms → ∀ kv ∈ ms, kv.2.length < span.length) := by
  simp only [tokOf, scanTop, Option.map_eq_some'] at h
  obtain ⟨v, hv, rfl⟩ := h
  cases hs : scanValue (span.length + 1) (skipWs span) with
  | none => simp [hs] at hv
  | some w =>
    simp only [hs] at hv
    split_ifs at hv
    injection hv with hv
    subst hv
    have hws := skipWs_length span
    obtain ⟨h1, h2⟩ := (scan_spans_length _).1 _ _ hs
    exact ⟨fun es he e hmem => Nat.lt_of_lt_of_le (h1 es he e hmem) hws,
      fun ms hm kv hmem => Nat.lt_of_lt_of_le (h2 ms hm kv hmem) hws⟩

theorem storeEntries_congr {α : Type} (dec dec' : GoString → α × Bool) :
    ∀ (ms : List (GoString × GoString)) (acc : List (GoString × α) × Bool),
      (∀ kv ∈ ms, dec kv.2 = dec' kv.2) → storeEntries dec ms acc = storeEntries dec' ms acc
  | [], _, _ => rfl
  | m :: ms, acc, h => by
    rw [storeEntries, storeEntries, h m (by simp)]
    split
    · exact storeEntries_congr dec dec' ms _ (fun kv hkv => h kv (by simp [hkv]))
    · exact storeEntries_congr dec dec' ms _ (fun kv hkv => h kv (by simp [hkv]))

/-- The bound that `decodeBlob` puts on the nesting is enough: every bound
above the length of the text gives the same value. -/
theorem decodeAny_fuel {F : Type} (pf : GoString → Option F) : ∀ (n m : Nat) (span : GoString),
    span.length < n → span.length < m → decodeAny pf n span = decodeAny pf m span
  | 0, _, _, h, _ => by omega
  | _ + 1, 0, _, _, h => by omega
  | n + 1, m + 1, span, hn, hm => by
    rw [decodeAny, decodeAny]
    cases ht : tokOf span with
    | none => rfl
    | some tok =>
      obtain ⟨h1, h2⟩ := tokOf_spans_length ht
      cases tok with
      | null => rfl
      | bool b => rfl
      | num x => rfl
      | str raw => rfl
      | arr es =>
        have e : es.map (decodeAny pf n) = es.map (decodeAny pf m) := by
          apply List.map_congr_left
          intro x hx
          have := h1 es rfl x hx
          exact decodeAny_fuel pf n m x (by omega) (by omega)
        simp only [e]
      | obj ms =>
        have e : storeEntries (decodeAny pf n) ms ([], true)
            = storeEntries (decodeAny pf m) ms ([], true) := by
          apply storeEntries_congr
          intro kv hkv
          have := h2 ms rfl kv hkv
          exact decodeAny_fuel pf n m kv.2 (by omega) (by omega)
        simp only [e]

/-! ## Nesting depth -/

theorem maxNat_le {l : List Nat} {K : Nat} (h : ∀ x ∈ l, x ≤ K) : maxNat l ≤ K := by
  induction l with
  | nil => simp [maxNat]
  | cons x r ih =>
    simp only [maxNat, max_le_iff]
    exact ⟨h x (by simp), ih (fun y hy => h y (by simp [hy]))⟩

theorem le_maxNat {l : List Nat} {x : Nat} (h : x ∈ l) : x ≤ maxNat l := by
  induction l with
  | nil => cases h
  | cons y r ih =>
    simp only [maxNat]
    rcases List.mem_cons.1 h with h | h
    · rw [h]
      exact le_max_left _ _
    · exact le_trans (ih h) (le_max_right _ _)

/-- The bound that `nesting` puts on the recursion is enough: every bound above
the length of the text gives the same depth. -/
theorem depthOf_fuel : ∀ (n m : Nat) (span : GoString),
    span.length < n → span.length < m → depthOf n span = depthOf m span
  | 0, _, _, h, _ => by omega
  | _ + 1, 0, _, _, h => by omega
  | n + 1, m + 1, span, hn, hm => by
    rw [depthOf, depthOf]
    cases ht : tokOf span with
    | none => rfl
    | some tok =>
      obtain ⟨h1, h2⟩ := tokOf_spans_length ht
      cases tok with
      | null => rfl
      | bool b => rfl
      | num x => rfl
      | str raw => rfl
      | arr es =>
        have e : es.map (depthOf n) = es.map (depthOf m) := by
          apply List.map_congr_left
          intro x hx
          have := h1 es rfl x hx
          exact depthOf_fuel n m x (by omega) (by omega)
        simp only [e]
      | obj ms =>
        have e : ms.map (fun kv => depthOf n kv.2) = ms.map (fun kv => depthOf m kv.2) := by
          apply List.map_congr_left
          intro kv hkv
          have := h2 ms rfl kv hkv
          exact depthOf_fuel n m kv.2 (by omega) (by omega)
        simp only [e]

theorem nesting_eq {v : GoString} {n : Nat} (h : v.length < n) : depthOf n v = nesting v :=
  depthOf_fuel n (v.length + 1) v h (Nat.lt_succ_self _)

theorem nesting_string (s : GoString) : nesting (marshalString s) = 0 := by
  unfold nesting
  rw [depthOf, clean_tokOf (clean_string s)]

theorem nesting_bool (b : Bool) : nesting (marshalBool b) = 0 := by
  unfold nesting
  rw [depthOf, clean_tokOf (clean_bool b)]

theorem nesting_null : nesting (lit "null") = 0 := by
  unfold nesting
  rw [depthOf, clean_tokOf clean_null]

theorem nesting_int (i : Int) : nesting (formatInt i) = 0 := by
  unfold nesting
  rw [depthOf, clean_tokOf (clean_int i)]

theorem nesting_array (xs : List GoString) (hc : ∀ x ∈ xs, ∃ tok, Clean x tok) :
    nesting (marshalArray xs) = 1 + maxNat (xs.map nesting) := by
  conv_lhs => unfold nesting
  rw [depthOf, clean_tokOf (clean_array xs hc)]
  simp only
  congr 2
  apply List.map_congr_left
  intro x hx
  have := marshalArray_elem_length xs x hx
  exact nesting_eq (by omega)

theorem nesting_object (fs : List (GoString × GoString))
    (hc : ∀ kv ∈ fs, ∃ tok, Clean kv.2 tok) :
    nesting (marshalObject fs) = 1 + maxNat (fs.map fun kv => nesting kv.2) := by
  conv_lhs => unfold nesting
  rw [depthOf, clean_tokOf (clean_object fs hc)]
  simp only [memberToks, List.map_map]
  congr 2
  apply List.map_congr_left
  intro kv hkv
  have := marshalObject_value_length fs kv hkv
  show depthOf _ kv.2 = nesting kv.2
  exact nesting_eq (by omega)

theorem cleanD_mono {j k : Nat} {v : GoString} (h : CleanD j v) (hjk : j ≤ k) : CleanD k v :=
  ⟨h.1, le_trans h.2 hjk⟩

theorem cleanD_string (s : GoString) : CleanD 0 (marshalString s) :=
  ⟨⟨_, clean_string s⟩, by rw [nesting_string]⟩

theorem cleanD_bool (b : Bool) : CleanD 0 (marshalBool b) :=
  ⟨⟨_, clean_bool b⟩, by rw [nesting_bool]⟩

theorem cleanD_null : CleanD 0 (lit "null") :=
  ⟨⟨_, clean_null⟩, by rw [nesting_null]⟩

theorem cleanD_int (i : Int) : CleanD 0 (formatInt i) :=
  ⟨⟨_, clean_int i⟩, by rw [nesting_int]⟩

theorem cleanD_array {k : Nat} (xs : List GoString) (h : ∀ x ∈ xs, CleanD k x) :
    CleanD (k + 1) (marshalArray xs) := by
  refine ⟨⟨_, clean_array xs fun x hx => (h x hx).1⟩, ?_⟩
  rw [nesting_array xs fun x hx => (h x hx).1]
  have : maxNat (xs.map nesting) ≤ k := maxNat_le (by
    intro y hy
    obtain ⟨x, hx, rfl⟩ := List.mem_map.1 hy
    exact (h x hx).2)
  omega

theorem cleanD_object {k : Nat} (fs : List (GoString × GoString))
    (h : ∀ kv ∈ fs, CleanD k kv.2) : CleanD (k + 1) (marshalObject fs) := by
  refine ⟨⟨_, clean_object fs fun kv hkv => (h kv hkv).1⟩, ?_⟩
  rw [nesting_object fs fun kv hkv => (h kv hkv).1]
  have : maxNat (fs.map fun kv => nesting kv.2) ≤ k := maxNat_le (by
    intro y hy
    obtain ⟨kv, hkv, rfl⟩ := List.mem_map.1 hy
    exact (h kv hkv).2)
  omega

theorem cleanD_valid {k : Nat} {v : GoString} (h : CleanD k v) (hk : k ≤ maxNestingDepth) :
    validJSON v = true := by
  obtain ⟨⟨tok, hc⟩, hd⟩ := h
  exact clean_valid hc (le_trans hd hk)

theorem cleanD_unmarshal {σ : Type} (dec : GoString → σ → σ × Bool) {k : Nat} {v : GoString}
    (h : CleanD k v) (hk : k ≤ maxNestingDepth) (cur x : σ) (hd : dec v cur = (x, true)) :
    unmarshal dec v cur = (x, none) := by
  obtain ⟨⟨tok, hc⟩, hn⟩ := h
  exact unmarshal_clean dec hc (le_trans hn hk) cur x hd

theorem cleanD_slice {α : Type} {k : Nat} (f : α → GoString) (hf : ∀ x, CleanD k (f x))
    (xs : Option (List α)) : CleanD (k + 1) (marshalSlice f xs) := by
  cases xs with
  | none => exact cleanD_mono cleanD_null (Nat.zero_le _)
  | some l =>
    refine cleanD_array (l.map f) ?_
    intro x hx
    obtain ⟨y, _, rfl⟩ := List.mem_map.1 hx
    exact hf y

theorem cleanD_options (o : jbMsgActionJoinRoomOptions) : CleanD 1 (marshalJoinRoomOptions o) :=
  cleanD_object _ (by
    intro kv hkv
    simp only [List.mem_cons, List.mem_singleton, List.not_mem_nil, or_false] at hkv
    rcases hkv with h | h <;> subst h <;> exact cleanD_string _)

theorem cleanD_joinRoom (a : jbMsgActionJoinRoom) : CleanD 2 (marshalJoinRoom a) :=
  cleanD_object _ (by
    intro kv hkv
    simp only [jbMsgAction.members, List.cons_append, List.nil_append, List.mem_cons,
      List.mem_singleton, List.not_mem_nil, or_false] at hkv
    rcases hkv with h | h | h | h | h | h | h | h <;> subst h <;>
      first
      | exact cleanD_mono (cleanD_string _) (by omega)
      | exact cleanD_options _)

theorem cleanD_point (p : Point) : CleanD 1 (marshalPoint p) :=
  cleanD_object _ (by
    intro kv hkv
    simp only [List.mem_cons, List.mem_singleton, List.not_mem_nil, or_false] at hkv
    rcases hkv with h | h <;> subst h <;> exact cleanD_int _)

theorem cleanD_pictureLine (l : PictureLine) : CleanD 3 (marshalPictureLine l) :=
  cleanD_object _ (by
    intro kv hkv
    simp only [List.mem_cons, List.mem_singleton, List.not_mem_nil, or_false] at hkv
    rcases hkv with h | h | h <;> subst h
    · exact cleanD_mono (cleanD_int _) (by omega)
    · exact cleanD_mono (cleanD_string _) (by omega)
    · exact cleanD_slice marshalPoint cleanD_point _)

theorem cleanD_setPlayerPicture (p : jbOwnerMsgSetPlayerPicture) :
    CleanD 5 (marshalSetPlayerPicture p) :=
  cleanD_object _ (by
    intro kv hkv
    simp only [List.mem_cons, List.mem_singleton, List.not_mem_nil, or_false] at hkv
    rcases hkv with h | h <;> subst h
    · exact cleanD_mono (cleanD_bool _) (by omega)
    · exact cleanD_slice marshalPictureLine cleanD_pictureLine _)

theorem cleanD_sendMsg {k : Nat} (a : jbMsgAction) {m : GoString} (hm : CleanD k m) :
    CleanD (k + 1) (marshalObject (a.members ++ [(lit "message", m)])) :=
  cleanD_object _ (by
    intro kv hkv
    simp only [jbMsgAction.members, List.cons_append, List.nil_append, List.mem_cons,
      List.mem_singleton, List.not_mem_nil, or_false] at hkv
    rcases hkv with h | h | h | h | h | h <;> subst h <;>
      first
      | exact cleanD_mono (cleanD_string _) (Nat.zero_le _)
      | exact hm)

/-- The envelope of payloads nested at most `k` deep is nested at most `k + 2`
deep. -/
theorem cleanD_msg {k : Nat} (name : GoString) (ps : List GoString) (h : ∀ p ∈ ps, CleanD k p) :
    CleanD (k + 2) (marshalObject [(lit "name", marshalString name),
      (lit "args", marshalArray ps)]) :=
  cleanD_object _ (by
    intro kv hkv
    simp only [List.mem_cons, List.mem_singleton, List.not_mem_nil, or_false] at hkv
    rcases hkv with h' | h' <;> subst h'
    · exact cleanD_mono (cleanD_string _) (Nat.zero_le _)
    · exact cleanD_array ps h)

/-! ## Frame dispatch -/

theorem hasRoom_sampleClient : hasRoom sampleClient :=
  ⟨{ cap := 20, buf := [] }, rfl, by decide⟩

theorem chanSend_of_hasRoom {jc : JackboxClient} (h : hasRoom jc) (m : GoString) :
    ∃ c, jc.sendJackbox = some c ∧
      chanSend jc.sendJackbox m = some { c with buf := c.buf ++ [m] } := by
  obtain ⟨c, hc, hlt⟩ := h
  exact ⟨c, hc, by simp [chanSend, hc, hlt]⟩

theorem handleJBMsgType_jc {F : Type} (pf : GoString → Option F) (jc : JackboxClient)
    (msg : GoString) :
    (handleJBMsgType pf jc msg).jc = jc ∧ (handleJBMsgType pf jc msg).blocked = false := by
  unfold handleJBMsgType
  split <;> exact ⟨rfl, rfl⟩

/-- C1: for every trimmed inbound frame `f` and every client whose outbound
queue has room, `handleJBWSMsg` never blocks or fails; it appends exactly the
one frame `2::` to the outbound queue when `f` is `2:::`, and for every other
frame it leaves the queue, and the whole client, as they were. -/
theorem handleJBWSMsg_reply {F : Type} (pf : GoString → Option F) (jc : JackboxClient)
    (f : GoString) (h : hasRoom jc) :
    (handleJBWSMsg pf jc f).blocked = false ∧
      (f = lit "2:::" → outbound (handleJBWSMsg pf jc f).jc = outbound jc ++ [lit "2::"]) ∧
      (f ≠ lit "2:::" → (handleJBWSMsg pf jc f).jc = jc ∧
        outbound (handleJBWSMsg pf jc f).jc = outbound jc) := by
  obtain ⟨c, hc, hsend⟩ := chanSend_of_hasRoom h (lit "2::")
  unfold handleJBWSMsg
  by_cases h1 : f = lit "1::"
  · rw [if_pos h1]
    exact ⟨rfl, fun h2 => absurd (h1.symm.trans h2) (by decide), fun _ => ⟨rfl, rfl⟩⟩
  · rw [if_neg h1]
    by_cases h2 : f = lit "2:::"
    · rw [if_pos h2, hsend]
      refine ⟨rfl, fun _ => ?_, fun h3 => absurd h2 h3⟩
      simp [outbound, hc]
    · rw [if_neg h2]
      by_cases h5 : startsWith (lit "5:::") f = true
      · rw [if_pos h5]
        have hj := handleJBMsgType_jc pf jc (f.drop 4)
        exact ⟨hj.2, fun h3 => absurd h3 h2, fun _ => ⟨hj.1, by rw [hj.1]⟩⟩
      · rw [if_neg h5]
        exact ⟨rfl, fun h3 => absurd h3 h2, fun _ => ⟨rfl, rfl⟩⟩

theorem handleJBWSMsg_reply_witness :
    hasRoom sampleClient ∧
      (handleJBWSMsg (fun _ => (none : Option Unit)) sampleClient (lit "2:::")).blocked = false ∧
      (lit "2:::" = lit "2:::" →
        outbound (handleJBWSMsg (fun _ => (none : Option Unit)) sampleClient (lit "2:::")).jc
          = outbound sampleClient ++ [lit "2::"]) ∧
      (lit "2:::" ≠ lit "2:::" →
        (handleJBWSMsg (fun _ => (none : Option Unit)) sampleClient (lit "2:::")).jc = sampleClient ∧
        outbound (handleJBWSMsg (fun _ => (none : Option Unit)) sampleClient (lit "2:::")).jc
          = outbound sampleClient) :=
  ⟨hasRoom_sampleClient,
    handleJBWSMsg_reply (fun _ => (none : Option Unit)) sampleClient (lit "2:::")
      hasRoom_sampleClient⟩

/-! ## Use before initialization -/

/-- C9: on a client whose initialization has not completed, `JoinRoom` and
`SetPlayerPicture` return the error "JackboxClient must be initialized before
use", leave the client as it was and make no call to the outside world (no room
lookup, no file read, no connection), whatever their arguments. -/
theorem uninitialized_send (env : Env) (jc : JackboxClient) (name roomID fn : GoString)
    (h : jc.initialized = false) :
    JoinRoom env jc name roomID =
        { jc := jc, out := .ret (some "JackboxClient must be initialized before use"),
          trace := [] } ∧
      SetPlayerPicture env jc fn =
        { jc := jc, out := .ret (some "JackboxClient must be initialized before use"),
          trace := [] } := by
  simp [JoinRoom, SetPlayerPicture, h]

theorem uninitialized_send_witness :
    JackboxClient.zero.initialized = false ∧
      (JoinRoom envNotFound JackboxClient.zero (lit "test2") (lit "SANB") =
        { jc := JackboxClient.zero,
          out := .ret (some "JackboxClient must be initialized before use"), trace := [] } ∧
      SetPlayerPicture envNotFound JackboxClient.zero (lit "./test.json") =
        { jc := JackboxClient.zero,
          out := .ret (some "JackboxClient must be initialized before use"), trace := [] }) :=
  ⟨rfl, uninitialized_send envNotFound JackboxClient.zero (lit "test2") (lit "SANB")
    (lit "./test.json") rfl⟩

/-! ## Room lookup failure -/

theorem pathJoin_room_rooted (roomID : GoString) :
    ∃ rest, pathJoin [roomPath, roomID] = 47 :: rest := by
  have hw : roomPath = [47, 114, 111, 111, 109, 47] := by decide
  by_cases h : roomID = []
  · subst h
    exact ⟨lit "room", by decide⟩
  · unfold pathJoin
    simp only [List.filter, hw, h, decide_True, decide_False, ne_eq, not_false_eq_true,
      List.cons_ne_self, reduceCtorEq, if_false, joinWith, List.cons_append, pathClean, if_true,
      Bool.not_eq_true, decide_not, Bool.not_false, Bool.not_true]
    exact ⟨_, rfl⟩

theorem roomLookupURL_ne_wsInfoURL (roomID : GoString) : roomLookupURL roomID ≠ wsInfoURL := by
  obtain ⟨rest, hr⟩ := pathJoin_room_rooted roomID
  have hb : escape true roomBase = roomBase := by decide
  have hi : wsInfoURL = lit "https" ++ lit "://" ++ roomBase ++ 58 :: lit "38203/socket.io/1/" := by
    decide
  have he : escape false (47 :: rest) = 47 :: escape false rest := by
    simp [escape, shouldEscape]
  unfold roomLookupURL URL.String
  rw [hr, hi, hb, he]
  simp

theorem genUserID_trace (env : Env) (jc : JackboxClient) :
    (genUserID env jc).trace = [.newUUID] ∧
      (genUserID env jc).jc.sendJackbox = jc.sendJackbox ∧
      (genUserID env jc).jc.conn = jc.conn ∧ (genUserID env jc).jc.wg = jc.wg ∧
      (genUserID env jc).jc.roomInfo = jc.roomInfo := by
  unfold genUserID
  split <;> simp

theorem getRoomInfoRequest_spec (env : Env) (jc : JackboxClient) (u : URL) (pre : List Effect) :
    (getRoomInfoRequest env jc u pre).trace = pre ++ [.httpGet u.String] ∧
      (getRoomInfoRequest env jc u pre).jc.sendJackbox = jc.sendJackbox ∧
      (getRoomInfoRequest env jc u pre).jc.conn = jc.conn ∧
      (getRoomInfoRequest env jc u pre).jc.wg = jc.wg ∧
      (∀ resp, env.Get u.String = .ok resp → resp.StatusCode = StatusNotFound →
        (getRoomInfoRequest env jc u pre).out = .ret (some "Failed to find room")) := by
  unfold getRoomInfoRequest
  simp only []
  split
  · refine ⟨rfl, rfl, rfl, rfl, ?_⟩
    intro resp h
    simp_all
  · rename_i resp hresp
    split
    · refine ⟨rfl, rfl, rfl, rfl, ?_⟩
      intro r h _
      rfl
    · rename_i hne
      split
      · refine ⟨rfl, rfl, rfl, rfl, ?_⟩
        intro r h h404
        rw [hresp] at h
        cases h
        exact absurd h404 hne
      · refine ⟨rfl, rfl, rfl, rfl, ?_⟩
        intro r h h404
        rw [hresp] at h
        cases h
        exact absurd h404 hne

theorem GetRoomInfo_spec (env : Env) (jc : JackboxClient) (roomID : GoString) :
    (∀ ef ∈ (GetRoomInfo env jc roomID).trace,
        ef = .newUUID ∨ ef = .httpGet (roomLookupURL roomID)) ∧
      (GetRoomInfo env jc roomID).jc.sendJackbox = jc.sendJackbox ∧
      (GetRoomInfo env jc roomID).jc.conn = jc.conn ∧
      (GetRoomInfo env jc roomID).jc.wg = jc.wg ∧
      (∀ resp, Effect.httpGet (roomLookupURL roomID) ∈ (GetRoomInfo env jc roomID).trace →
        env.Get (roomLookupURL roomID) = .ok resp → resp.StatusCode = StatusNotFound →
        (GetRoomInfo env jc roomID).out = .ret (some "Failed to find room")) := by
  unfold GetRoomInfo
  simp only []
  split
  · have hg := genUserID_trace env jc
    split
    · have hr := getRoomInfoRequest_spec env (genUserID env jc).jc
        { Scheme := lit "https", Host := roomBase, Path := pathJoin [roomPath, roomID] } [.newUUID]
      refine ⟨?_, by rw [hr.2.1, hg.2.1], by rw [hr.2.2.1, hg.2.2.1],
        by rw [hr.2.2.2.1, hg.2.2.2.1], fun resp _ h1 h2 => hr.2.2.2.2 resp h1 h2⟩
      intro ef hef
      rw [hr.1] at hef
      simp at hef
      rcases hef with h | h
      · exact Or.inl h
      · exact Or.inr h
    · refine ⟨?_, hg.2.1, hg.2.2.1, hg.2.2.2.1, ?_⟩
      · intro ef hef
        rw [hg.1] at hef
        simp at hef
        exact Or.inl hef
      · intro resp hmem
        rw [hg.1] at hmem
        simp at hmem
  · have hr := getRoomInfoRequest_spec env jc
        { Scheme := lit "https", Host := roomBase, Path := pathJoin [roomPath, roomID] } []
    refine ⟨?_, hr.2.1, hr.2.2.1, hr.2.2.2.1, fun resp _ h1 h2 => hr.2.2.2.2 resp h1 h2⟩
    intro ef hef
    rw [hr.1] at hef
    simp at hef
    exact Or.inr hef

theorem getRoomInfoRequest_out (env : Env) (jc : JackboxClient) (u : URL) (pre : List Effect) :
    (∀ e, env.Get u.String = .error e →
        (getRoomInfoRequest env jc u pre).out = .ret (some e)) ∧
      (∀ resp e, env.Get u.String = .ok resp → resp.StatusCode ≠ StatusNotFound →
        resp.Body = .error e → (getRoomInfoRequest env jc u pre).out = .ret (some e)) ∧
      (∀ resp body, env.Get u.String = .ok resp → resp.StatusCode ≠ StatusNotFound →
        resp.Body = .ok body →
        (getRoomInfoRequest env jc u pre).out
          = .ret (decodeStream decodeRoomInfo body jc.roomInfo).2) := by
  refine ⟨?_, ?_, ?_⟩
  · intro e h
    simp only [getRoomInfoRequest, h]
  · intro resp e h hne hb
    simp only [getRoomInfoRequest, h, if_neg hne, hb]
  · intro resp body h hne hb
    simp only [getRoomInfoRequest, h, if_neg hne, hb]

theorem GetRoomInfo_out (env : Env) (jc : JackboxClient) (roomID : GoString)
    (hreq : Effect.httpGet (roomLookupURL roomID) ∈ (GetRoomInfo env jc roomID).trace) :
    (∀ e, env.Get (roomLookupURL roomID) = .error e →
        (GetRoomInfo env jc roomID).out = .ret (some e)) ∧
      (∀ resp e, env.Get (roomLookupURL roomID) = .ok resp →
        resp.StatusCode ≠ StatusNotFound → resp.Body = .error e →
        (GetRoomInfo env jc roomID).out = .ret (some e)) ∧
      (∀ resp body, env.Get (roomLookupURL roomID) = .ok resp →
        resp.StatusCode ≠ StatusNotFound → resp.Body = .ok body →
        (GetRoomInfo env jc roomID).out
          = .ret (decodeStream decodeRoomInfo body jc.roomInfo).2) := by
  unfold GetRoomInfo at hreq ⊢
  simp only [] at hreq ⊢
  by_cases hu : jc.userID = []
  · rw [if_pos hu] at hreq ⊢
    have hg := genUserID_trace env jc
    cases ho : (genUserID env jc).out with
    | blocked =>
      simp only [ho] at hreq
      rw [hg.1] at hreq
      simp at hreq
    | ret e =>
      cases e with
      | some e =>
        simp only [ho] at hreq
        rw [hg.1] at hreq
        simp at hreq
      | none =>
        simp only [ho]
        have h := getRoomInfoRequest_out env (genUserID env jc).jc
          { Scheme := lit "https", Host := roomBase, Path := pathJoin [roomPath, roomID] }
          [.newUUID]
        rw [hg.2.2.2.2] at h
        exact h
  · rw [if_neg hu]
    exact getRoomInfoRequest_out env jc
      { Scheme := lit "https", Host := roomBase, Path := pathJoin [roomPath, roomID] } []

/-- C8: on an initialized client, whenever the room lookup inside `JoinRoom`
fails, `JoinRoom` returns that error; the only calls it made are those of the
lookup (no handshake request, no dial, no goroutine started, wait group
untouched), and the outbound queue and the connection are as before. Once the
lookup is requested, it does fail when the request fails, when the answer is
HTTP 404 (the error is then "Failed to find room"), when the body cannot be
read and when the body does not decode as a `RoomInfo`. -/
theorem JoinRoom_lookup_failure (env : Env) (jc : JackboxClient) (name roomID : GoString)
    (hinit : jc.initialized = true) :
    (∀ e, (GetRoomInfo env jc roomID).out = .ret (some e) →
        (JoinRoom env jc name roomID).out = .ret (some e) ∧
        (∀ ef ∈ (JoinRoom env jc name roomID).trace,
          ef = .newUUID ∨ ef = .httpGet (roomLookupURL roomID)) ∧
        Effect.httpGet wsInfoURL ∉ (JoinRoom env jc name roomID).trace ∧
        (JoinRoom env jc name roomID).jc.sendJackbox = jc.sendJackbox ∧
        (JoinRoom env jc name roomID).jc.conn = jc.conn ∧
        (JoinRoom env jc name roomID).jc.wg = jc.wg) ∧
      (Effect.httpGet (roomLookupURL roomID) ∈ (GetRoomInfo env jc roomID).trace →
        (∀ e, env.Get (roomLookupURL roomID) = .error e →
          (GetRoomInfo env jc roomID).out = .ret (some e)) ∧
        (∀ resp, env.Get (roomLookupURL roomID) = .ok resp →
          resp.StatusCode = StatusNotFound →
          (GetRoomInfo env jc roomID).out = .ret (some "Failed to find room")) ∧
        (∀ resp e, env.Get (roomLookupURL roomID) = .ok resp →
          resp.StatusCode ≠ StatusNotFound → resp.Body = .error e →
          (GetRoomInfo env jc roomID).out = .ret (some e)) ∧
        (∀ resp body e, env.Get (roomLookupURL roomID) = .ok resp →
          resp.StatusCode ≠ StatusNotFound → resp.Body = .ok body →
          (decodeStream decodeRoomInfo body jc.roomInfo).2 = some e →
          (GetRoomInfo env jc roomID).out = .ret (some e))) := by
  have hs := GetRoomInfo_spec env jc roomID
  refine ⟨?_, ?_⟩
  · intro e hfail
    have hJ : JoinRoom env jc name roomID = GetRoomInfo env jc roomID := by
      unfold JoinRoom
      rw [if_neg (by simp [hinit])]
      simp only [hfail]
    rw [hJ]
    refine ⟨hfail, hs.1, ?_, hs.2.1, hs.2.2.1, hs.2.2.2.1⟩
    intro hmem
    rcases hs.1 _ hmem with h | h
    · cases h
    · injection h with h'
      exact roomLookupURL_ne_wsInfoURL roomID h'.symm
  · intro hreq
    have ho := GetRoomInfo_out env jc roomID hreq
    refine ⟨ho.1, fun resp h1 h2 => hs.2.2.2.2 resp hreq h1 h2, ho.2.1, ?_⟩
    intro resp body e h1 h2 h3 h4
    rw [ho.2.2 resp body h1 h2 h3, h4]

theorem JoinRoom_lookup_failure_witness :
    sampleClient.initialized = true ∧
      (GetRoomInfo envNotFound sampleClient (lit "SANB")).out = .ret (some "Failed to find room") ∧
      (JoinRoom envNotFound sampleClient (lit "test2") (lit "SANB")).out
        = .ret (some "Failed to find room") ∧
      (JoinRoom envNotFound sampleClient (lit "test2") (lit "SANB")).jc.sendJackbox
        = sampleClient.sendJackbox :=
  ⟨rfl, by decide,
    ((JoinRoom_lookup_failure envNotFound sampleClient (lit "test2") (lit "SANB") rfl).1
      "Failed to find room" (by decide)).1,
    ((JoinRoom_lookup_failure envNotFound sampleClient (lit "test2") (lit "SANB") rfl).1
      "Failed to find room" (by decide)).2.2.2.1⟩

theorem upperHex_ne_query (n : Nat) : upperHex n ≠ 63 := by
  unfold upperHex
  split <;> omega

theorem escape_no_query : ∀ p : GoString, 63 ∉ escape false p
  | [] => by simp [escape]
  | c :: t => by
    have ih := escape_no_query t
    unfold escape
    split
    · simp only [List.mem_cons, not_or]
      exact ⟨by decide, (upperHex_ne_query _).symm, (upperHex_ne_query _).symm, ih⟩
    · rename_i hc
      simp only [List.mem_cons, not_or]
      refine ⟨?_, ih⟩
      intro h
      rw [← h] at hc
      exact hc (by decide)

theorem roomLookupURL_no_query (roomID : GoString) : 63 ∉ roomLookupURL roomID := by
  have h1 : 63 ∉ lit "https" ++ lit "://" ++ escape true roomBase := by decide
  have h2 := escape_no_query (pathJoin [roomPath, roomID])
  unfold roomLookupURL URL.String
  simp only [List.mem_append, not_or, if_true, List.append_nil]
  refine ⟨?_, ?_⟩
  · simp only [List.mem_append, not_or] at h1
    exact h1
  · split
    · simp
    · simp only [List.mem_append, not_or]
      refine ⟨?_, h2⟩
      split
      · simp
      · split <;> simp

/-- C7: for every client and room code, the one URL `GetRoomInfo` requests is
built from the scheme, the host and the path alone and has no `?` in it: the
`userId` that the source adds to a copy of the query never reaches the request.
At room code `SANB` and user id `u` the request goes to
`https://ecast.jackboxgames.com/room/SANB`. -/
theorem GetRoomInfo_request_has_no_query (env : Env) (jc : JackboxClient) (roomID : GoString) :
    (∀ url, Effect.httpGet url ∈ (GetRoomInfo env jc roomID).trace →
        url = roomLookupURL roomID) ∧
      63 ∉ roomLookupURL roomID ∧
      sampleClient.userID = lit "u" ∧
      (GetRoomInfo envNotFound sampleClient (lit "SANB")).trace
        = [.httpGet (lit "https://ecast.jackboxgames.com/room/SANB")] ∧
      roomLookupURL (lit "SANB") ≠ lit "https://ecast.jackboxgames.com/room/SANB?userId=u" := by
  refine ⟨?_, roomLookupURL_no_query roomID, by decide, by decide, by decide⟩
  intro url hmem
  rcases (GetRoomInfo_spec env jc roomID).1 _ hmem with h | h
  · cases h
  · injection h

/-! ## Handshake -/

theorem startsWith_append : ∀ (p t : GoString), startsWith p t = true → ∃ post, t = p ++ post
  | [], t, _ => ⟨t, rfl⟩
  | _ :: _, [], h => by simp [startsWith] at h
  | a :: p, b :: t, h => by
    simp only [startsWith, Bool.and_eq_true, beq_iff_eq] at h
    obtain ⟨post, hp⟩ := startsWith_append p t h.2
    exact ⟨post, by rw [h.1, hp]; rfl⟩

theorem matchHere_some {b tok : GoString} (h : matchHere b = some tok) :
    tok.length = 28 ∧ (∀ c ∈ tok, isTokenChar c = true) ∧ ∃ post, b = tok ++ wsInfoSuffix ++ post := by
  unfold matchHere at h
  split at h
  · rename_i hc
    cases h
    obtain ⟨post, hp⟩ := startsWith_append _ _ hc.2.2
    refine ⟨hc.1, by simpa using hc.2.1, post, ?_⟩
    rw [List.append_assoc, ← hp, List.take_append_drop]
  · cases h

theorem FindSubmatch_nil_iff : ∀ b : GoString, FindSubmatch b = [] ↔ countMatches b = 0
  | [] => by simp [FindSubmatch, countMatches]
  | c :: t => by
    unfold FindSubmatch countMatches
    cases hm : matchHere (c :: t) with
    | none => simpa using FindSubmatch_nil_iff t
    | some tok => simp

theorem FindSubmatch_leftmost : ∀ b : GoString, 0 < countMatches b →
    ∃ pre tok post, b = pre ++ tok ++ wsInfoSuffix ++ post ∧ tok.length = 28 ∧
      (∀ c ∈ tok, isTokenChar c = true) ∧ (∀ i, i < pre.length → matchHere (b.drop i) = none) ∧
      FindSubmatch b = [tok ++ wsInfoSuffix, tok]
  | [], h => by simp [countMatches] at h
  | c :: t, h => by
    cases hm : matchHere (c :: t) with
    | some tok =>
      obtain ⟨hl, hall, post, hp⟩ := matchHere_some hm
      refine ⟨[], tok, post, by simpa using hp, hl, hall, by simp, ?_⟩
      simp [FindSubmatch, hm]
    | none =>
      have h' : 0 < countMatches t := by
        simpa [countMatches, hm] using h
      obtain ⟨pre, tok, post, hb, hl, hall, hleft, hf⟩ := FindSubmatch_leftmost t h'
      refine ⟨c :: pre, tok, post, by simp [hb], hl, hall, ?_, ?_⟩
      · intro i hi
        cases i with
        | zero => simpa using hm
        | succ j =>
          simp only [List.drop_succ_cons]
          exact hleft j (by simpa using hi)
      · simp [FindSubmatch, hm, hf]

theorem splitSlash_token : ∀ tok : GoString, (∀ c ∈ tok, isTokenChar c = true) →
    splitSlash tok = [tok]
  | [], _ => rfl
  | c :: t, h => by
    have hc : isTokenChar c = true := h c (by simp)
    have hne : c ≠ 47 := by
      intro h47
      rw [h47] at hc
      exact absurd hc (by decide)
    unfold splitSlash
    rw [if_neg hne, splitSlash_token t (fun x hx => h x (by simp [hx]))]

theorem escape_token : ∀ tok : GoString, (∀ c ∈ tok, isTokenChar c = true) →
    escape false tok = tok
  | [], _ => rfl
  | c :: t, h => by
    have hc : isTokenChar c = true := h c (by simp)
    have hs : shouldEscape false c = false := by
      unfold shouldEscape
      rw [if_pos]
      simp only [isTokenChar, Bool.or_eq_true, Bool.and_eq_true, decide_eq_true_eq] at hc
      omega
    unfold escape
    rw [hs, escape_token t (fun x hx => h x (by simp [hx]))]
    simp

theorem escape_append (host : Bool) : ∀ a b : GoString,
    escape host (a ++ b) = escape host a ++ escape host b
  | [], b => rfl
  | c :: a, b => by
    simp only [List.cons_append, escape]
    split <;> simp [escape_append host a b]

theorem pathJoin_token (tok : GoString) (hl : tok.length = 28)
    (hall : ∀ c ∈ tok, isTokenChar c = true) :
    pathJoin [wsSocketPath, tok] = wsSocketPath ++ tok := by
  have hne : tok ≠ [] := by
    intro h
    rw [h] at hl
    simp at hl
  have h1 : tok ≠ [46] := by
    intro h
    rw [h] at hl
    simp at hl
  have h2 : tok ≠ [46, 46] := by
    intro h
    rw [h] at hl
    simp at hl
  have hw : wsSocketPath = [47, 115, 111, 99, 107, 101, 116, 46, 105, 111, 47, 49, 47, 119, 101,
      98, 115, 111, 99, 107, 101, 116, 47] := by decide
  rw [hw]
  simp [pathJoin, hne, joinWith, pathClean, splitSlash, splitSlash_token tok hall, cleanSegs, h1, h2]

theorem wsConnectURL_eq (tok : GoString) (hl : tok.length = 28)
    (hall : ∀ c ∈ tok, isTokenChar c = true) :
    URL.String { Scheme := lit "wss", Host := wsBase, Path := pathJoin [wsSocketPath, tok] }
      = wsConnectURL tok := by
  rw [pathJoin_token tok hl hall]
  have hw : wsSocketPath = 47 :: (lit "socket.io/1/websocket/") := by decide
  have hne : wsSocketPath ++ tok ≠ [42] := by
    rw [hw]
    simp
  unfold URL.String
  simp only [hne, if_false]
  rw [escape_append, escape_token tok hall]
  have h3 : escape true wsBase = wsBase := by decide
  have h4 : escape false wsSocketPath = wsSocketPath := by decide
  rw [h3, h4, hw]
  simp only [List.cons_append, if_true, List.nil_append, List.append_nil]
  unfold wsConnectURL
  have hc : lit "wss://ecast.jackboxgames.com:38203/socket.io/1/websocket/"
      = lit "wss" ++ lit "://" ++ wsBase ++ 47 :: lit "socket.io/1/websocket/" := by decide
  rw [hc]
  simp [List.append_assoc]

theorem wsInfoURL_eq :
    URL.String { Scheme := lit "https", Host := wsBase, Path := wsInfoPath } = wsInfoURL := by
  decide

/-- C6, as amended: once the handshake answer is read, `setupWebsocket` goes on
to connect exactly when the body holds at least one match of
`([a-z0-9]{28}):60:60:websocket,flashsocket`. With no match it returns "Failed
to retrieve websocket name" and dials nothing. With one match or more it dials
the websocket URL of the token captured by the leftmost match: 28 bytes of
`[a-z0-9]` followed by the literal, no match starting before it. -/
theorem setupWebsocket_token (env : Env) (jc : JackboxClient) (resp : Response) (body : GoString)
    (hget : env.Get wsInfoURL = .ok resp) (hbody : resp.Body = .ok body) :
    (countMatches body = 0 →
        setupWebsocket env jc =
          { jc := jc, out := .ret (some "Failed to retrieve websocket name"),
            trace := [.httpGet wsInfoURL] }) ∧
      (0 < countMatches body →
        ∃ pre tok post, body = pre ++ tok ++ wsInfoSuffix ++ post ∧ tok.length = 28 ∧
          (∀ c ∈ tok, isTokenChar c = true) ∧
          (∀ i, i < pre.length → matchHere (body.drop i) = none) ∧
          (setupWebsocket env jc).trace = [.httpGet wsInfoURL, .dial (wsConnectURL tok)]) := by
  constructor
  · intro h0
    have hf := (FindSubmatch_nil_iff body).2 h0
    unfold setupWebsocket
    simp only [wsInfoURL_eq, hget, hbody, hf]
  · intro hpos
    obtain ⟨pre, tok, post, hb, hl, hall, hleft, hf⟩ := FindSubmatch_leftmost body hpos
    refine ⟨pre, tok, post, hb, hl, hall, hleft, ?_⟩
    unfold setupWebsocket
    simp only [wsInfoURL_eq, hget, hbody, hf, wsConnectURL_eq tok hl hall]
    split <;> rfl

theorem setupWebsocket_token_witness :
    envTwoTokens.Get wsInfoURL = .ok { StatusCode := 200, Body := .ok twoTokenBody } ∧
      (countMatches twoTokenBody = 0 →
        setupWebsocket envTwoTokens sampleClient =
          { jc := sampleClient, out := .ret (some "Failed to retrieve websocket name"),
            trace := [.httpGet wsInfoURL] }) ∧
      (0 < countMatches twoTokenBody →
        ∃ pre tok post, twoTokenBody = pre ++ tok ++ wsInfoSuffix ++ post ∧ tok.length = 28 ∧
          (∀ c ∈ tok, isTokenChar c = true) ∧
          (∀ i, i < pre.length → matchHere (twoTokenBody.drop i) = none) ∧
          (setupWebsocket envTwoTokens sampleClient).trace
            = [.httpGet wsInfoURL, .dial (wsConnectURL tok)]) :=
  ⟨rfl, setupWebsocket_token envTwoTokens sampleClient
    { StatusCode := 200, Body := .ok twoTokenBody } twoTokenBody rfl rfl⟩

/-- C6 as stated fails: a handshake answer with two matches of the pattern is
no error; the handshake connects with the first token. -/
theorem setupWebsocket_two_matches :
    countMatches twoTokenBody = 2 ∧
      setupWebsocket envTwoTokens sampleClient =
        { jc := { sampleClient with conn := some 7 }, out := .ret none,
          trace := [.httpGet wsInfoURL,
            .dial (lit "wss://ecast.jackboxgames.com:38203/socket.io/1/websocket/0123456789abcdefghijklmnopqr")] } := by
  decide

/-! ## Envelope decoding -/

section EnvelopeSteps
variable {F : Type}

theorem specSteps_cons (pf : GoString → Option F) (i : Nat) (item : RawMessage)
    (rest : List RawMessage) :
    specSteps pf i (item :: rest)
      = specArgSteps pf i item ++ (if specArgOk pf item then specSteps pf (i + 1) rest else []) := by
  conv_lhs => rw [specSteps, specProcessed]
  by_cases h : specArgOk pf item = true
  · simp [h, List.enumFrom, specSteps]
  · simp [h, List.enumFrom]

theorem handleArgs_cons (pf : GoString → Option F) (i : Nat) (item : RawMessage)
    (rest : List RawMessage) :
    handleArgs pf i (item :: rest)
      = specArgSteps pf i item ++ (if specArgOk pf item then handleArgs pf (i + 1) rest else []) := by
  have hRA : lit "Result" ≠ lit "Action" := by decide
  have hEA : lit "Event" ≠ lit "Action" := by decide
  have hER : lit "Event" ≠ lit "Result" := by decide
  conv_lhs => rw [handleArgs]
  unfold specArgOk specArgSteps
  generalize (unmarshal decodeMsgType (item.getD []) jbMsgType.zero).1.Typ = typ
  cases h1 : unmarshalOk decodeMsgType item jbMsgType.zero
  · simp [Step.ok]
  · by_cases ha : typ = lit "Action"
    · subst ha
      simp [Step.ok, hRA.symm, hEA.symm]
    · by_cases hr : typ = lit "Result"
      · subst hr
        cases h2 : unmarshalOk decodeResult item jbMsgResult.zero <;> simp [Step.ok, hRA]
      · by_cases he : typ = lit "Event"
        · subst he
          cases h2 : unmarshalOk (decodeEvent pf) item jbMsgEvent.zero <;>
            simp [Step.ok, hEA, hER]
        · simp [Step.ok, ha, hr, he]

theorem handleArgs_eq_spec (pf : GoString → Option F) :
    ∀ (args : List RawMessage) (i : Nat), handleArgs pf i args = specSteps pf i args
  | [], i => by simp [handleArgs, specSteps, specProcessed]
  | item :: rest, i => by
    rw [handleArgs_cons, specSteps_cons, handleArgs_eq_spec pf rest (i + 1)]

theorem handleJBWSMsg_envelope (pf : GoString → Option F) (jc : JackboxClient) (s : GoString) :
    handleJBWSMsg pf jc (lit "5:::" ++ s) = handleJBMsgType pf jc s := by
  have h1 : lit "5:::" ++ s ≠ lit "1::" := by
    intro h
    have := congrArg List.length h
    simp [lit] at this
  have h2 : lit "5:::" ++ s ≠ lit "2:::" := by
    intro h
    have h5 : lit "5:::" = 53 :: lit ":::" := by decide
    have h22 : lit "2:::" = 50 :: lit ":::" := by decide
    rw [h5, h22] at h
    simp at h
  have h3 : startsWith (lit "5:::") (lit "5:::" ++ s) = true := by
    have h5 : lit "5:::" = [53, 58, 58, 58] := by decide
    rw [h5]
    simp [startsWith]
  have h4 : (lit "5:::" ++ s).drop 4 = s := by
    have h5 : lit "5:::" = [53, 58, 58, 58] := by decide
    rw [h5]
    rfl
  unfold handleJBWSMsg
  rw [if_neg h1, if_neg h2, if_pos h3, h4]

/-- C10, as amended: a frame `5:::` + `s` is handed to `handleJBMsgType`, which
never blocks and leaves the client unchanged. If `s` does not unmarshal into an
envelope no arg is parsed. Otherwise the args are handled in order: each is
parsed for its `type`, then parsed again as a result or an event when the type
is `"Result"` or `"Event"` (an arg of type `"Action"` or of an unrecognized type
is not parsed again and does not stop the loop), and the loop stops at the
first arg with a failing parse. Whatever the frame was, the next frame is
handled as if it had not arrived. -/
theorem handleJBMsgType_steps (pf : GoString → Option F) (jc : JackboxClient) (s : GoString) :
    handleJBWSMsg pf jc (lit "5:::" ++ s) = handleJBMsgType pf jc s ∧
      (handleJBMsgType pf jc s).jc = jc ∧ (handleJBMsgType pf jc s).blocked = false ∧
      ((unmarshal decodeMsg s jbMsg.zero).2 ≠ none → (handleJBMsgType pf jc s).steps = []) ∧
      ((unmarshal decodeMsg s jbMsg.zero).2 = none →
        (handleJBMsgType pf jc s).steps
          = specSteps pf 0 ((unmarshal decodeMsg s jbMsg.zero).1.Args.getD [])) ∧
      (∀ f, handleJBWSMsg pf (handleJBWSMsg pf jc (lit "5:::" ++ s)).jc f
          = handleJBWSMsg pf jc f) := by
  have hj := handleJBMsgType_jc pf jc s
  refine ⟨handleJBWSMsg_envelope pf jc s, hj.1, hj.2, ?_, ?_, ?_⟩
  · intro h
    unfold handleJBMsgType
    split
    · rfl
    · rename_i heq
      rw [heq] at h
      exact absurd rfl h
  · intro h
    unfold handleJBMsgType
    split
    · rename_i heq
      rw [heq] at h
      cases h
    · rename_i heq
      rw [heq]
      exact handleArgs_eq_spec pf _ 0
  · intro f
    rw [handleJBWSMsg_envelope, hj.1]

end EnvelopeSteps

/-- C10 as stated fails: an arg of type `"Action"` is not parsed again as an
action. Here the first arg would not unmarshal into a `jbMsgAction` (its
`action` is a number), yet the loop goes on and parses the second arg. -/
theorem handleJBMsgType_action_not_reparsed :
    unmarshalOk decodeAction (some (lit "\x7b\"type\":\"Action\",\"action\":5\x7d")) jbMsgAction.zero
        = false ∧
      (handleJBWSMsg (fun _ => (none : Option Unit)) sampleClient
        (lit "5:::\x7b\"name\":\"msg\",\"args\":[\x7b\"type\":\"Action\",\"action\":5\x7d,\x7b\"type\":\"Result\"\x7d]\x7d")).steps
        = [.typeParse 0 true, .typeParse 1 true, .resultParse 1 true] := by
  decide

/-! ## The frames of JoinRoom and SetPlayerPicture -/

theorem setupWebsocket_queue (env : Env) (jc : JackboxClient) :
    (setupWebsocket env jc).jc.sendJackbox = jc.sendJackbox := by
  unfold setupWebsocket
  simp only []
  split
  · rfl
  · split
    · rfl
    · split
      · split <;> rfl
      · rfl

theorem setupWebsocket_keeps (env : Env) (jc : JackboxClient) :
    (setupWebsocket env jc).jc.roomInfo = jc.roomInfo ∧
      (setupWebsocket env jc).jc.userID = jc.userID := by
  unfold setupWebsocket
  simp only []
  split
  · exact ⟨rfl, rfl⟩
  · split
    · exact ⟨rfl, rfl⟩
    · split
      · split <;> exact ⟨rfl, rfl⟩
      · exact ⟨rfl, rfl⟩

theorem serialize_one (name : GoString) {k : Nat} {sarg : GoString} (hs : CleanD k sarg)
    (hk : k ≤ maxNestingDepth) :
    jbMsg.Serialize { Name := name, Args := goAppend none (some sarg) }
      = .ok (lit "5:::" ++
          marshalObject [(lit "name", marshalString name), (lit "args", marshalArray [sarg])]) := by
  have h := marshalMsg_clean name [sarg] (by
    intro p hp
    simp only [List.mem_singleton] at hp
    subst hp
    exact hs.1) (by
    intro p hp
    simp only [List.mem_singleton] at hp
    subst hp
    exact le_trans hs.2 hk)
  simp only [List.map] at h
  unfold jbMsg.Serialize goAppend
  simp only [Option.getD_none, List.nil_append]
  rw [h]

theorem unmarshal_envelope_one (name : GoString) {k : Nat} {sarg : GoString}
    (hs : CleanD k sarg) (hk : k + 2 ≤ maxNestingDepth) (hn : validUTF8 name = true) :
    unmarshal decodeMsg
        (marshalObject [(lit "name", marshalString name), (lit "args", marshalArray [sarg])])
        jbMsg.zero
      = ({ Name := name, Args := some [some sarg] }, none) := by
  have hall : ∀ p ∈ [sarg], CleanD k p := by
    intro p hp
    simp only [List.mem_singleton] at hp
    subst hp
    exact hs
  exact cleanD_unmarshal decodeMsg (cleanD_msg name [sarg] hall) hk _ _
    (decodeMsg_marshal name [sarg] _ hn (fun p hp => (hall p hp).1))

/-- The frame that `JoinRoom` builds from a client with valid strings: `5:::`
and the envelope of the one join action. -/
theorem joinRoomFrame_eq (jc : JackboxClient) (name : GoString) :
    joinRoomFrame jc name
      = .ok (lit "5:::" ++ marshalObject [(lit "name", marshalString (lit "msg")),
          (lit "args", marshalArray [marshalJoinRoom (joinRoomArg jc name)])]) :=
  serialize_one (lit "msg") (cleanD_joinRoom _) (by decide)

/-- C3: on an initialized client with room on its outbound queue, when the room
lookup and the handshake inside `JoinRoom` succeed and the room information
that the lookup left in the client, the user id and the display name are valid
UTF-8, `JoinRoom` returns without error and has put exactly one frame on the
queue. The frame is `5:::` followed by a text that unmarshals into an envelope
with name `msg` and exactly one arg, and that arg unmarshals into the join
action: type `Action`, action `JoinRoom`, `appId`, `roomId` and `joinType` of
the room information, the user id of the client, the display name, and the
options `roomcode` = room id and `name` = display name. The room information
and the user id are those the client holds when `JoinRoom` returns. -/
theorem joinRoomFrame_decodes (env : Env) (jc : JackboxClient) (name roomID : GoString)
    (hinit : jc.initialized = true) (hroom : hasRoom jc)
    (hlook : (GetRoomInfo env jc roomID).out = .ret none)
    (hws : (setupWebsocket env (GetRoomInfo env jc roomID).jc).out = .ret none)
    (hri : (GetRoomInfo env jc roomID).jc.roomInfo.Valid)
    (hu : validUTF8 (GetRoomInfo env jc roomID).jc.userID = true)
    (hn : validUTF8 name = true) :
    ∃ rest sarg, (JoinRoom env jc name roomID).out = .ret none ∧
      outbound (JoinRoom env jc name roomID).jc = outbound jc ++ [lit "5:::" ++ rest] ∧
      (JoinRoom env jc name roomID).jc.roomInfo = (GetRoomInfo env jc roomID).jc.roomInfo ∧
      (JoinRoom env jc name roomID).jc.userID = (GetRoomInfo env jc roomID).jc.userID ∧
      unmarshal decodeMsg rest jbMsg.zero
        = ({ Name := lit "msg", Args := some [some sarg] }, none) ∧
      unmarshal decodeJoinRoom sarg jbMsgActionJoinRoom.zero
        = ({ Typ := lit "Action", Action := lit "JoinRoom",
             AppID := (GetRoomInfo env jc roomID).jc.roomInfo.AppID,
             RoomID := (GetRoomInfo env jc roomID).jc.roomInfo.RoomID,
             UserID := (GetRoomInfo env jc roomID).jc.userID,
             JoinType := (GetRoomInfo env jc roomID).jc.roomInfo.JoinAs,
             Name := name,
             Options := { RoomCode := (GetRoomInfo env jc roomID).jc.roomInfo.RoomID,
                          Name := name } }, none) := by
  have hA : validUTF8 (lit "Action") = true := by decide
  have hJ : validUTF8 (lit "JoinRoom") = true := by decide
  have hv : (joinRoomArg (GetRoomInfo env jc roomID).jc name).Valid :=
    ⟨⟨hA, hJ, hri.2.2.2.1, hri.1, hu⟩, hri.2.2.2.2, hn, hri.1, hn⟩
  have hframe := joinRoomFrame_eq (GetRoomInfo env jc roomID).jc name
  have hq : (setupWebsocket env (GetRoomInfo env jc roomID).jc).jc.sendJackbox
      = jc.sendJackbox := by
    rw [setupWebsocket_queue, (GetRoomInfo_spec env jc roomID).2.1]
  have hkeep := setupWebsocket_keeps env (GetRoomInfo env jc roomID).jc
  obtain ⟨c, hc, hsend⟩ := chanSend_of_hasRoom hroom
    (lit "5:::" ++ marshalObject [(lit "name", marshalString (lit "msg")),
      (lit "args", marshalArray [marshalJoinRoom (joinRoomArg (GetRoomInfo env jc roomID).jc name)])])
  have hrun : JoinRoom env jc name roomID
      = { jc := { (setupWebsocket env (GetRoomInfo env jc roomID).jc).jc with
                    wg := (setupWebsocket env (GetRoomInfo env jc roomID).jc).jc.wg + 2,
                    sendJackbox := some { c with buf := c.buf ++ [lit "5:::" ++
                      marshalObject [(lit "name", marshalString (lit "msg")),
                        (lit "args", marshalArray
                          [marshalJoinRoom (joinRoomArg (GetRoomInfo env jc roomID).jc name)])]] } },
          out := .ret none,
          trace := (GetRoomInfo env jc roomID).trace
            ++ (setupWebsocket env (GetRoomInfo env jc roomID).jc).trace
            ++ [.wgAdd 2, .goWrites, .goReads] } := by
    unfold JoinRoom
    rw [if_neg (by simp [hinit])]
    simp only [hlook, hframe, hws, hq, hsend]
  have hcl := cleanD_joinRoom (joinRoomArg (GetRoomInfo env jc roomID).jc name)
  refine ⟨_, marshalJoinRoom (joinRoomArg (GetRoomInfo env jc roomID).jc name), by rw [hrun],
    ?_, by rw [hrun]; exact hkeep.1, by rw [hrun]; exact hkeep.2,
    unmarshal_envelope_one (lit "msg") hcl (by decide) (by decide),
    cleanD_unmarshal decodeJoinRoom hcl (by decide) _ _ (decodeJoinRoom_marshal _ _ hv)⟩
  rw [hrun]
  simp [outbound, hc]

set_option maxRecDepth 100000 in
set_option maxHeartbeats 1000000 in
theorem joinRoomFrame_decodes_witness :
    sampleClient.initialized = true ∧ hasRoom sampleClient ∧
      (GetRoomInfo envJoin sampleClient (lit "SANB")).out = .ret none ∧
      (setupWebsocket envJoin (GetRoomInfo envJoin sampleClient (lit "SANB")).jc).out
        = .ret none ∧
      (GetRoomInfo envJoin sampleClient (lit "SANB")).jc.roomInfo.Valid ∧
      validUTF8 (GetRoomInfo envJoin sampleClient (lit "SANB")).jc.userID = true ∧
      validUTF8 (lit "test2") = true ∧
      ∃ rest sarg, (JoinRoom envJoin sampleClient (lit "test2") (lit "SANB")).out = .ret none ∧
        outbound (JoinRoom envJoin sampleClient (lit "test2") (lit "SANB")).jc
          = outbound sampleClient ++ [lit "5:::" ++ rest] ∧
        (JoinRoom envJoin sampleClient (lit "test2") (lit "SANB")).jc.roomInfo
          = (GetRoomInfo envJoin sampleClient (lit "SANB")).jc.roomInfo ∧
        (JoinRoom envJoin sampleClient (lit "test2") (lit "SANB")).jc.userID
          = (GetRoomInfo envJoin sampleClient (lit "SANB")).jc.userID ∧
        unmarshal decodeMsg rest jbMsg.zero
          = ({ Name := lit "msg", Args := some [some sarg] }, none) ∧
        unmarshal decodeJoinRoom sarg jbMsgActionJoinRoom.zero
          = ({ Typ := lit "Action", Action := lit "JoinRoom",
               AppID := (GetRoomInfo envJoin sampleClient (lit "SANB")).jc.roomInfo.AppID,
               RoomID := (GetRoomInfo envJoin sampleClient (lit "SANB")).jc.roomInfo.RoomID,
               UserID := (GetRoomInfo envJoin sampleClient (lit "SANB")).jc.userID,
               JoinType := (GetRoomInfo envJoin sampleClient (lit "SANB")).jc.roomInfo.JoinAs,
               Name := lit "test2",
               Options :=
                 { RoomCode := (GetRoomInfo envJoin sampleClient (lit "SANB")).jc.roomInfo.RoomID,
                   Name := lit "test2" } }, none) :=
  have hj : (GetRoomInfo envJoin sampleClient (lit "SANB")).jc = joinedClient := by decide
  have hri : (GetRoomInfo envJoin sampleClient (lit "SANB")).jc.roomInfo.Valid := by
    rw [hj]
    exact ⟨by decide, by decide, by decide, by decide, by decide⟩
  have hu : validUTF8 (GetRoomInfo envJoin sampleClient (lit "SANB")).jc.userID = true := by
    rw [hj]
    decide
  have hlook : (GetRoomInfo envJoin sampleClient (lit "SANB")).out = .ret none := by decide
  have hws : (setupWebsocket envJoin (GetRoomInfo envJoin sampleClient (lit "SANB")).jc).out
      = .ret none := by
    rw [hj]
    decide
  ⟨rfl, hasRoom_sampleClient, hlook, hws, hri, hu, by decide,
    joinRoomFrame_decodes envJoin sampleClient (lit "test2") (lit "SANB") rfl
      hasRoom_sampleClient hlook hws hri hu (by decide)⟩

/-- C5: for every drawing that `LoadDrawing` returns, on an initialized client
with room on its outbound queue and strings in valid UTF-8 (which the clients
that the program builds keep: `MakeJackboxClient_valid`, `JoinRoom_valid`,
`SetPlayerPicture_valid`), `SetPlayerPicture` returns
without error and puts exactly one frame on the queue: `5:::` followed by a text
that unmarshals into an envelope with name `msg` and exactly one arg; the arg
unmarshals into an action of type `Action` and action `SendMessageToRoomOwner`
with the `appId`, `roomId` and `userId` of the client; and its `message`
unmarshals into `setPlayerPicture` = true and `pictureLines` = the loaded
drawing. -/
theorem SetPlayerPicture_frame (env : Env) (jc : JackboxClient) (fn : GoString)
    (pl : Option (List PictureLine)) (hinit : jc.initialized = true) (hroom : hasRoom jc)
    (hri : jc.roomInfo.Valid) (hu : validUTF8 jc.userID = true)
    (hload : LoadDrawing env fn = .ok pl) :
    ∃ rest sarg m, (SetPlayerPicture env jc fn).out = .ret none ∧
      outbound (SetPlayerPicture env jc fn).jc = outbound jc ++ [lit "5:::" ++ rest] ∧
      unmarshal decodeMsg rest jbMsg.zero
        = ({ Name := lit "msg", Args := some [some sarg] }, none) ∧
      unmarshal decodeSendMsgToRoomOwner sarg jbMsgActionSendMsgToRoomOwner.zero
        = ({ Typ := lit "Action", Action := lit "SendMessageToRoomOwner",
             AppID := jc.roomInfo.AppID, RoomID := jc.roomInfo.RoomID, UserID := jc.userID,
             Message := some m }, none) ∧
      unmarshal decodeSetPlayerPicture m jbOwnerMsgSetPlayerPicture.zero
        = ({ SetPlayerPicture := true, PictureLines := pl }, none) := by
  have hvd := LoadDrawing_valid hload
  let pic : jbOwnerMsgSetPlayerPicture := { SetPlayerPicture := true, PictureLines := pl }
  let act : jbMsgAction :=
    { Typ := lit "Action", Action := lit "SendMessageToRoomOwner", AppID := jc.roomInfo.AppID,
      RoomID := jc.roomInfo.RoomID, UserID := jc.userID }
  obtain ⟨tokm, hm⟩ := clean_setPlayerPicture pic
  have hmd : CleanD 5 (marshalSetPlayerPicture pic) := cleanD_setPlayerPicture pic
  have hsd := cleanD_sendMsg act hmd
  have hA : validUTF8 (lit "Action") = true := by decide
  have hS : validUTF8 (lit "SendMessageToRoomOwner") = true := by decide
  have hact : act.Valid := ⟨hA, hS, hri.2.2.2.1, hri.1, hu⟩
  have hsarg : Clean (marshalObject (act.members ++ [(lit "message", marshalSetPlayerPicture pic)]))
      (.obj (memberToks (act.members ++ [(lit "message", marshalSetPlayerPicture pic)]))) :=
    clean_object _ (allClean_mem (allClean_sendMsg act hm))
  have hframe : setPlayerPictureFrame jc pl
      = .ok (lit "5:::" ++ marshalObject [(lit "name", marshalString (lit "msg")),
          (lit "args", marshalArray
            [marshalObject (act.members ++ [(lit "message", marshalSetPlayerPicture pic)])])]) := by
    unfold setPlayerPictureFrame
    simp only []
    rw [marshalSendMsgToRoomOwner_clean act hm (le_trans hmd.2 (by decide))]
    exact serialize_one (lit "msg") hsd (by decide)
  obtain ⟨c, hc, hsend⟩ := chanSend_of_hasRoom hroom
    (lit "5:::" ++ marshalObject [(lit "name", marshalString (lit "msg")),
      (lit "args", marshalArray
        [marshalObject (act.members ++ [(lit "message", marshalSetPlayerPicture pic)])])])
  have hrun : SetPlayerPicture env jc fn
      = { jc := { jc with sendJackbox := some { c with buf := c.buf ++ [lit "5:::" ++
            marshalObject [(lit "name", marshalString (lit "msg")),
              (lit "args", marshalArray
                [marshalObject (act.members ++ [(lit "message", marshalSetPlayerPicture pic)])])]] } },
          out := .ret none, trace := [.readFile fn] } := by
    unfold SetPlayerPicture
    rw [if_neg (by simp [hinit])]
    simp only [hload, hframe, hsend]
  refine ⟨_, _, marshalSetPlayerPicture pic, by rw [hrun], ?_,
    unmarshal_envelope_one (lit "msg") hsd (by decide) (by decide),
    cleanD_unmarshal decodeSendMsgToRoomOwner hsd (by decide) _ _
      (decodeSendMsgToRoomOwner_marshal act hm _ hact),
    cleanD_unmarshal decodeSetPlayerPicture hmd (by decide) _ _
      (decodeSetPlayerPicture_marshal pic _ hvd)⟩
  rw [hrun]
  simp [outbound, hc]

theorem SetPlayerPicture_frame_witness :
    joinedClient.initialized = true ∧ hasRoom joinedClient ∧ joinedClient.roomInfo.Valid ∧
      validUTF8 joinedClient.userID = true ∧
      LoadDrawing envDrawing (lit "./test.json") = .ok sampleDrawing ∧
      ∃ rest sarg m, (SetPlayerPicture envDrawing joinedClient (lit "./test.json")).out = .ret none ∧
        outbound (SetPlayerPicture envDrawing joinedClient (lit "./test.json")).jc
          = outbound joinedClient ++ [lit "5:::" ++ rest] ∧
        unmarshal decodeMsg rest jbMsg.zero
          = ({ Name := lit "msg", Args := some [some sarg] }, none) ∧
        unmarshal decodeSendMsgToRoomOwner sarg jbMsgActionSendMsgToRoomOwner.zero
          = ({ Typ := lit "Action", Action := lit "SendMessageToRoomOwner",
               AppID := joinedClient.roomInfo.AppID, RoomID := joinedClient.roomInfo.RoomID,
               UserID := joinedClient.userID, Message := some m }, none) ∧
        unmarshal decodeSetPlayerPicture m jbOwnerMsgSetPlayerPicture.zero
          = ({ SetPlayerPicture := true, PictureLines := sampleDrawing }, none) :=
  ⟨rfl, ⟨{ cap := 20, buf := [] }, rfl, by decide⟩, ⟨by decide, by decide, by decide, by decide, by decide⟩,
    by decide, by decide,
    SetPlayerPicture_frame envDrawing joinedClient (lit "./test.json") sampleDrawing rfl
      ⟨{ cap := 20, buf := [] }, rfl, by decide⟩
      ⟨by decide, by decide, by decide, by decide, by decide⟩ (by decide) (by decide)⟩

/-! ## Nesting of blob values -/

section
variable {F : Type}

mutual
/-- The text of a plain value nests as deep as the value. -/
theorem marshalAny_nesting (ff : F → Option GoString) :
    ∀ (v : GoAny F) (enc : GoString), v.Plain → marshalAny ff v = some enc →
      (∃ tok, Clean enc tok) ∧ nesting enc = v.depth
  | .nil, enc, _, h => by
    simp only [marshalAny, Option.some.injEq] at h
    subst h
    exact ⟨⟨_, clean_null⟩, by simp [nesting_null, GoAny.depth]⟩
  | .bool b, enc, _, h => by
    simp only [marshalAny, Option.some.injEq] at h
    subst h
    exact ⟨⟨_, clean_bool b⟩, by simp [nesting_bool, GoAny.depth]⟩
  | .float64 _, _, hp, _ => by
    have hf : False := by simp [GoAny.Plain] at hp
    exact hf.elim
  | .string s, enc, _, h => by
    simp only [marshalAny, Option.some.injEq] at h
    subst h
    exact ⟨⟨_, clean_string s⟩, by simp [nesting_string, GoAny.depth]⟩
  | .slice xs, enc, hp, h => by
    have hp : plainList xs := by simpa [GoAny.Plain] using hp
    simp only [marshalAny, Option.map_eq_some'] at h
    obtain ⟨encs, he, rfl⟩ := h
    obtain ⟨hc, hn⟩ := marshalAnys_nesting ff xs encs hp he
    exact ⟨⟨_, clean_array encs hc⟩, by simp [nesting_array encs hc, hn, GoAny.depth]⟩
  | .map m, enc, hp, h => by
    have hp : SortedKeys m ∧ plainEntries m := by simpa [GoAny.Plain] using hp
    simp only [marshalAny, Option.map_eq_some'] at h
    obtain ⟨encs, he, rfl⟩ := h
    obtain ⟨hc, hn⟩ := marshalEntries_nesting ff m encs hp.2 he
    exact ⟨⟨_, clean_object encs hc⟩, by simp [nesting_object encs hc, hn, GoAny.depth]⟩
/-- The texts of plain elements nest as deep as the elements. -/
theorem marshalAnys_nesting (ff : F → Option GoString) :
    ∀ (xs : List (GoAny F)) (encs : List GoString), plainList xs →
      marshalAnys ff xs = some encs →
      (∀ e ∈ encs, ∃ tok, Clean e tok) ∧ maxNat (encs.map nesting) = depthList xs
  | [], encs, _, h => by
    simp only [marshalAnys, Option.some.injEq] at h
    subst h
    exact ⟨by simp, rfl⟩
  | x :: r, encs, hp, h => by
    have hp : x.Plain ∧ plainList r := by simpa [plainList] using hp
    simp only [marshalAnys] at h
    split at h
    · rename_i a b ha hb
      simp only [Option.some.injEq] at h
      subst h
      obtain ⟨hc, hn⟩ := marshalAny_nesting ff x a hp.1 ha
      obtain ⟨hcs, hns⟩ := marshalAnys_nesting ff r b hp.2 hb
      refine ⟨?_, by simp only [List.map, maxNat, depthList, hn, hns]⟩
      intro e hmem
      rcases List.mem_cons.1 hmem with hmem | hmem
      · subst hmem
        exact hc
      · exact hcs e hmem
    · cases h
/-- The texts of plain entries nest as deep as the entries. -/
theorem marshalEntries_nesting (ff : F → Option GoString) :
    ∀ (mp : List (GoString × GoAny F)) (encs : List (GoString × GoString)), plainEntries mp →
      marshalEntries ff mp = some encs →
      (∀ e ∈ encs, ∃ tok, Clean e.2 tok) ∧
        maxNat (encs.map fun kv => nesting kv.2) = depthEntries mp
  | [], encs, _, h => by
    simp only [marshalEntries, Option.some.injEq] at h
    subst h
    exact ⟨by simp, rfl⟩
  | (k, v) :: r, encs, hp, h => by
    have hp : v.Plain ∧ plainEntries r := by simpa [plainEntries] using hp
    simp only [marshalEntries] at h
    split at h
    · rename_i a b ha hb
      simp only [Option.some.injEq] at h
      subst h
      obtain ⟨hc, hn⟩ := marshalAny_nesting ff v a hp.1 ha
      obtain ⟨hcs, hns⟩ := marshalEntries_nesting ff r b hp.2 hb
      refine ⟨?_, by simp only [List.map, maxNat, depthEntries, hn, hns]⟩
      intro e hmem
      rcases List.mem_cons.1 hmem with hmem | hmem
      · subst hmem
        exact hc
      · exact hcs e hmem
    · cases h
end

/-- Compact JSON that nests deeper than the limit is not valid JSON to
`json.Unmarshal`. -/
theorem clean_too_deep {σ : Type} (dec : GoString → σ → σ × Bool) {v : GoString} {tok : JTok}
    (h : Clean v tok) (hd : maxNestingDepth < nesting v) (cur : σ) :
    unmarshal dec v cur = (cur, some "json: syntax error") := by
  have hv : validJSON v = false := by
    simp only [validJSON, clean_scanTop h, Scan.nesting, decide_eq_false_iff_not, not_le]
    exact hd
  simp [unmarshal, hv]

end

theorem compact_depth {p c : GoString} (h : compact p = some c) : nesting c = jsonDepth p := by
  unfold compact at h
  unfold jsonDepth
  cases hs : scanTop p with
  | none => simp [hs] at h
  | some v =>
    simp only [hs] at h
    by_cases h2 : v.nesting ≤ maxNestingDepth
    · simp only [h2, if_true, Option.some.injEq] at h
      rw [← h]
      rfl
    · simp [h2] at h

theorem valid_compact {p : GoString} (h : validJSON p = true) : ∃ c, compact p = some c := by
  unfold validJSON at h
  unfold compact
  cases hs : scanTop p with
  | none => simp [hs] at h
  | some v =>
    simp only [hs, decide_eq_true_eq] at h
    exact ⟨v.out, by simp [h]⟩

/-- Payloads that are valid JSON are marshalled to their compact forms, which
nest as deep as the payloads. -/
theorem allSome_marshalRaw_valid (k : Nat) : ∀ (ps : List GoString),
    (∀ p ∈ ps, validJSON p = true) → (∀ p ∈ ps, jsonDepth p ≤ k) →
    ∃ cs, allSome ((ps.map some).map marshalRaw) = some cs ∧ ps.map compact = cs.map some ∧
      ∀ c ∈ cs, CleanD k c
  | [], _, _ => ⟨[], rfl, rfl, by simp⟩
  | p :: ps, h, hd => by
    obtain ⟨cs, h1, h2, h3⟩ := allSome_marshalRaw_valid k ps (fun q hq => h q (by simp [hq]))
      (fun q hq => hd q (by simp [hq]))
    obtain ⟨c, hc⟩ := valid_compact (h p (by simp))
    refine ⟨c :: cs, ?_, by simp [hc, h2], ?_⟩
    · show allSome (marshalRaw (some p) :: (ps.map some).map marshalRaw) = some (c :: cs)
      have hm : marshalRaw (some p) = some c := hc
      rw [hm]
      simp only [allSome, h1]
      rfl
    · intro x hx
      rcases List.mem_cons.1 hx with hx | hx
      · subst hx
        exact ⟨(compact_clean hc).1, by rw [compact_depth hc]; exact hd p (by simp)⟩
      · exact h3 x hx

theorem nestedArrays_clean : ∀ k, (∃ tok, Clean (nestedArrays k) tok) ∧ nesting (nestedArrays k) = k
  | 0 => ⟨⟨_, clean_null⟩, nesting_null⟩
  | k + 1 => by
    obtain ⟨hc, hn⟩ := nestedArrays_clean k
    have e : nestedArrays (k + 1) = marshalArray [nestedArrays k] := by
      simp [nestedArrays, marshalArray, joinWith]
    have hall : ∀ x ∈ [nestedArrays k], ∃ tok, Clean x tok := by
      intro x hx
      simp only [List.mem_singleton] at hx
      subst hx
      exact hc
    rw [e]
    refine ⟨⟨_, clean_array _ hall⟩, ?_⟩
    rw [nesting_array _ hall]
    simp only [List.map, maxNat, hn]
    simp
    omega

/-- A payload of `k` arrays inside one another, within the limit, is serialized
without error; once the envelope around it, of `k + 2` levels, is past the
limit, `json.Unmarshal` rejects the text and leaves the envelope as it was. -/
theorem deepPayload_rejected (k : Nat) (h1 : k ≤ maxNestingDepth)
    (h2 : maxNestingDepth < k + 2) :
    validJSON (nestedArrays k) = true ∧
    ∃ rest, jbMsg.Serialize { Name := lit "msg", Args := some [some (nestedArrays k)] }
        = .ok (lit "5:::" ++ rest) ∧
      unmarshal decodeMsg rest jbMsg.zero = (jbMsg.zero, some "json: syntax error") := by
  obtain ⟨⟨tok, hc⟩, hn⟩ := nestedArrays_clean k
  have hall : ∀ p ∈ [nestedArrays k], ∃ tok, Clean p tok := by
    intro x hx
    simp only [List.mem_singleton] at hx
    subst hx
    exact ⟨tok, hc⟩
  have hd : ∀ p ∈ [nestedArrays k], nesting p ≤ maxNestingDepth := by
    intro x hx
    simp only [List.mem_singleton] at hx
    subst hx
    omega
  have hm := marshalMsg_clean (lit "msg") [nestedArrays k] hall hd
  refine ⟨clean_valid hc (by omega), marshalObject [(lit "name", marshalString (lit "msg")),
    (lit "args", marshalArray [nestedArrays k])], ?_, ?_⟩
  · unfold jbMsg.Serialize
    simp only [List.map] at hm
    rw [hm]
  · apply clean_too_deep decodeMsg (clean_object _ (allClean_mem (allClean_msg _ _ hall)))
    rw [nesting_object _ (allClean_mem (allClean_msg _ _ hall))]
    simp only [List.map, maxNat, nesting_string, nesting_array _ hall, hn]
    simp
    omega

/-- C2 (as stated, refuted). A payload that is valid JSON but not in compact
form is not carried as it is, `Serialize` writes it without the blank and the
envelope that is parsed back holds the compact text. An envelope to which no
payload was appended has the nil slice as its args, which is written as `null`,
not as an empty array. And a payload of 9999 arrays inside one another is valid
JSON and is serialized without error, but the envelope around it has 10001
levels and `json.Unmarshal` rejects the text. -/
theorem serialize_not_verbatim :
    (jbMsg.Serialize { Name := lit "msg", Args := some [some (lit "\x7b\"type\": \"Action\"\x7d")] }
        = .ok (lit "5:::\x7b\"name\":\"msg\",\"args\":[\x7b\"type\":\"Action\"\x7d]\x7d") ∧
      unmarshal decodeMsg (lit "\x7b\"name\":\"msg\",\"args\":[\x7b\"type\":\"Action\"\x7d]\x7d") jbMsg.zero
        = ({ Name := lit "msg", Args := some [some (lit "\x7b\"type\":\"Action\"\x7d")] }, none) ∧
      (unmarshal decodeMsg (lit "\x7b\"name\":\"msg\",\"args\":[\x7b\"type\":\"Action\"\x7d]\x7d")
          jbMsg.zero).1.Args ≠ some [some (lit "\x7b\"type\": \"Action\"\x7d")] ∧
      jbMsg.Serialize { Name := lit "msg", Args := none }
        = .ok (lit "5:::\x7b\"name\":\"msg\",\"args\":null\x7d") ∧
      unmarshal decodeMsg (lit "\x7b\"name\":\"msg\",\"args\":null\x7d") jbMsg.zero
        = ({ Name := lit "msg", Args := none }, none)) ∧
    validJSON (nestedArrays 9999) = true ∧
    ∃ rest, jbMsg.Serialize { Name := lit "msg", Args := some [some (nestedArrays 9999)] }
        = .ok (lit "5:::" ++ rest) ∧
      unmarshal decodeMsg rest jbMsg.zero = (jbMsg.zero, some "json: syntax error") :=
  ⟨by decide, deepPayload_rejected 9999 (by decide) (by decide)⟩

/-- C2 (amended): for every sequence of payloads that are valid JSON and nest at
most `maxNestingDepth - 2` = 9998 levels deep, the envelope with name `msg` and
a slice of these payloads as args is serialized without error to `5:::`
followed by `{"name":"msg","args":[c1,...,cn]}`, where `ci` is payload `i` as
`compact` writes it (payload `i` itself when it is already in compact form);
the text after the first four bytes unmarshals into an envelope with name `msg`
and the args `c1`, ..., `cn` in this order. -/
theorem serialize_envelope (ps : List GoString) (hv : ∀ p ∈ ps, validJSON p = true)
    (hd : ∀ p ∈ ps, jsonDepth p + 2 ≤ maxNestingDepth) :
    ∃ cs rest, ps.map compact = cs.map some ∧ ((∀ p ∈ ps, compact p = some p) → cs = ps) ∧
      jbMsg.Serialize { Name := lit "msg", Args := some (ps.map some) }
        = .ok (lit "5:::" ++ rest) ∧
      rest = lit "\x7b\"name\":\"msg\",\"args\":" ++ marshalArray cs ++ lit "\x7d" ∧
      unmarshal decodeMsg rest jbMsg.zero
        = ({ Name := lit "msg", Args := some (cs.map some) }, none) := by
  obtain ⟨cs, h1, h2, h3⟩ := allSome_marshalRaw_valid (maxNestingDepth - 2) ps hv
    (fun p hp => by have := hd p hp; omega)
  have hname : validUTF8 (lit "msg") = true := by decide
  refine ⟨cs, marshalObject [(lit "name", marshalString (lit "msg")),
      (lit "args", marshalArray cs)], h2, ?_, ?_, ?_, ?_⟩
  · intro hc
    have e : cs.map some = ps.map some := by
      rw [← h2]
      exact List.map_congr_left hc
    exact List.map_injective_iff.2 (Option.some_injective _) e
  · unfold jbMsg.Serialize marshalMsg
    simp only [h1, Option.map_some']
  · have e : marshalString (lit "msg") = lit "\"msg\"" := by decide
    rw [e]
    rfl
  · exact cleanD_unmarshal decodeMsg (cleanD_msg (lit "msg") cs h3) (by decide) _ _
      (decodeMsg_marshal _ cs _ hname (fun c hc => (h3 c hc).1))

theorem serialize_envelope_witness :
    (∀ p ∈ samplePayloads, validJSON p = true) ∧
      (∀ p ∈ samplePayloads, jsonDepth p + 2 ≤ maxNestingDepth) ∧
      ∃ cs rest, samplePayloads.map compact = cs.map some ∧
        ((∀ p ∈ samplePayloads, compact p = some p) → cs = samplePayloads) ∧
        jbMsg.Serialize { Name := lit "msg", Args := some (samplePayloads.map some) }
          = .ok (lit "5:::" ++ rest) ∧
        rest = lit "\x7b\"name\":\"msg\",\"args\":" ++ marshalArray cs ++ lit "\x7d" ∧
        unmarshal decodeMsg rest jbMsg.zero
          = ({ Name := lit "msg", Args := some (cs.map some) }, none) :=
  ⟨by decide, by decide, serialize_envelope samplePayloads (by decide) (by decide)⟩

/-! ## Runs of JoinRoom and SetPlayerPicture from start to end -/

set_option maxRecDepth 100000 in
/-- A run of `JoinRoom` from start to end: the room is looked up, the handshake
made, the websocket dialled, the two goroutines started, and the join frame is
put on the outbound queue. -/
theorem JoinRoom_run :
    (GetRoomInfo envJoin sampleClient (lit "SANB")).jc = joinedClient ∧
      (JoinRoom envJoin sampleClient (lit "test2") (lit "SANB")).out = .ret none ∧
      (JoinRoom envJoin sampleClient (lit "test2") (lit "SANB")).trace
        = [.httpGet (lit "https://ecast.jackboxgames.com/room/SANB"),
           .httpGet (lit "https://ecast.jackboxgames.com:38203/socket.io/1/"),
           .dial (lit "wss://ecast.jackboxgames.com:38203/socket.io/1/websocket/0123456789abcdefghijklmnopqr"),
           .wgAdd 2, .goWrites, .goReads] ∧
      outbound (JoinRoom envJoin sampleClient (lit "test2") (lit "SANB")).jc
        = [lit "5:::\x7b\"name\":\"msg\",\"args\":[\x7b\"type\":\"Action\",\"action\":\"JoinRoom\",\"appId\":\"8511cbe0-dfff-4ea9-94e0-424daad072c3\",\"roomId\":\"SANB\",\"userId\":\"u\",\"joinType\":\"player\",\"name\":\"test2\",\"options\":\x7b\"roomcode\":\"SANB\",\"name\":\"test2\"\x7d\x7d]\x7d"] := by
  decide

/-- The frame of `SetPlayerPicture`: the message, the action around it and the
envelope are written one inside the other, each as it was marshalled. -/
theorem setPlayerPictureFrame_eq (jc : JackboxClient) (pl : Option (List PictureLine)) :
    setPlayerPictureFrame jc pl
      = .ok (lit "5:::" ++ marshalObject [(lit "name", marshalString (lit "msg")),
          (lit "args", marshalArray [marshalObject
            (jbMsgAction.members
                { Typ := lit "Action", Action := lit "SendMessageToRoomOwner",
                  AppID := jc.roomInfo.AppID, RoomID := jc.roomInfo.RoomID, UserID := jc.userID } ++
              [(lit "message", marshalSetPlayerPicture
                { SetPlayerPicture := true, PictureLines := pl })])])]) := by
  obtain ⟨tokm, hm⟩ := clean_setPlayerPicture { SetPlayerPicture := true, PictureLines := pl }
  have hmd := cleanD_setPlayerPicture { SetPlayerPicture := true, PictureLines := pl }
  have hsd := cleanD_sendMsg
    { Typ := lit "Action", Action := lit "SendMessageToRoomOwner",
      AppID := jc.roomInfo.AppID, RoomID := jc.roomInfo.RoomID, UserID := jc.userID } hmd
  unfold setPlayerPictureFrame
  simp only []
  rw [marshalSendMsgToRoomOwner_clean _ hm (le_trans hmd.2 (by decide))]
  exact serialize_one (lit "msg") hsd (by decide)

set_option maxRecDepth 100000 in
/-- A run of `SetPlayerPicture` from start to end: the file is read and the
frame with the drawing is put on the outbound queue. -/
theorem SetPlayerPicture_run :
    (SetPlayerPicture envDrawing joinedClient (lit "./test.json")).out = .ret none ∧
      (SetPlayerPicture envDrawing joinedClient (lit "./test.json")).trace
        = [.readFile (lit "./test.json")] ∧
      outbound (SetPlayerPicture envDrawing joinedClient (lit "./test.json")).jc
        = [lit "5:::\x7b\"name\":\"msg\",\"args\":[\x7b\"type\":\"Action\",\"action\":\"SendMessageToRoomOwner\",\"appId\":\"8511cbe0-dfff-4ea9-94e0-424daad072c3\",\"roomId\":\"SANB\",\"userId\":\"u\",\"message\":\x7b\"setPlayerPicture\":true,\"pictureLines\":[\x7b\"thickness\":2,\"color\":\"#000\",\"points\":[\x7b\"x\":1,\"y\":2\x7d]\x7d]\x7d\x7d]\x7d"] := by
  have hload : LoadDrawing envDrawing (lit "./test.json") = .ok sampleDrawing := by decide
  have hframe := setPlayerPictureFrame_eq joinedClient sampleDrawing
  have hrun : SetPlayerPicture envDrawing joinedClient (lit "./test.json")
      = { jc := { joinedClient with sendJackbox := some { cap := 20, buf := [lit "5:::" ++
            marshalObject [(lit "name", marshalString (lit "msg")),
              (lit "args", marshalArray [marshalObject
                (jbMsgAction.members
                    { Typ := lit "Action", Action := lit "SendMessageToRoomOwner",
                      AppID := joinedClient.roomInfo.AppID, RoomID := joinedClient.roomInfo.RoomID,
                      UserID := joinedClient.userID } ++
                  [(lit "message", marshalSetPlayerPicture
                    { SetPlayerPicture := true, PictureLines := sampleDrawing })])])]] } },
          out := .ret none, trace := [.readFile (lit "./test.json")] } := by
    unfold SetPlayerPicture
    rw [if_neg (by decide)]
    simp only [hload, hframe]
    rfl
  rw [hrun]
  decide

end Jackbox
